import Mathlib

/-!
# Verification of the SEO site crawler core

Shallow embedding of the crawl engine in `src/server/routes/seo-site-crawler.js`
and its URL utilities in `src/server/lib/url-utils.js`.

JavaScript strings are modelled as `List Char` (`Str`).  Regular expressions
that the source applies to fixed literal patterns are modelled by explicit
scanners with the same greedy/backtracking semantics.  The WHATWG `URL`
platform object is modelled by a record together with a parser and serializer
covering the subset of the standard the crawler exercises (http/https URLs
with host, optional port, path, query and fragment; percent-encoding,
userinfo and IPv6 hosts are not modelled).
-/

namespace Crawler

/-- JavaScript strings are sequences of characters. -/
abbrev Str := List Char

/-- Build a `Str` from a Lean string literal. -/
def str (s : String) : Str := s.data

/-- ASCII lower-casing of one character (models `String.prototype.toLowerCase`
on the ASCII range, which is all the crawler's fixed patterns use). -/
def lowerChar (c : Char) : Char :=
  if 'A' ≤ c ∧ c ≤ 'Z' then Char.ofNat (c.toNat + 32) else c

/-- ASCII lower-casing of a string. -/
def lowerStr (s : Str) : Str := s.map lowerChar

/-- JavaScript `trim` whitespace (ASCII subset). -/
def isWs (c : Char) : Bool :=
  c = ' ' ∨ c = '\t' ∨ c = '\n' ∨ c = '\r' ∨ c = '\x0b' ∨ c = '\x0c'

/-- `String.prototype.trim`. -/
def trimWs (s : Str) : Str :=
  (s.dropWhile isWs).reverse.dropWhile isWs |>.reverse

/-- `String.prototype.startsWith` (is `p` a prefix of `s`). -/
def strPrefix : Str → Str → Bool
  | [], _ => true
  | _ :: _, [] => false
  | p :: ps, c :: cs => p = c && strPrefix ps cs

/-- `String.prototype.includes` (is `p` a contiguous substring of `s`). -/
def strInfix (p : Str) : Str → Bool
  | [] => strPrefix p []
  | c :: cs => strPrefix p (c :: cs) || strInfix p cs

/-- Split a string on a separator character (models `String.prototype.split`). -/
def splitOnChar (sep : Char) : Str → List Str
  | [] => [[]]
  | c :: cs =>
    let rest := splitOnChar sep cs
    if c = sep then [] :: rest
    else match rest with
      | [] => [[c]]
      | r :: rs => (c :: r) :: rs

/-- Join strings with a separator character. -/
def joinSep (sep : Char) : List Str → Str
  | [] => []
  | [x] => x
  | x :: xs => x ++ sep :: joinSep sep xs

/-- Decimal digits of a natural number (auxiliary, fuel-structured so that it
reduces by `decide`/`rfl`). -/
def natToCharsAux : Nat → Nat → Str
  | 0, _ => []
  | fuel + 1, n =>
    if n < 10 then [Char.ofNat (48 + n)]
    else natToCharsAux fuel (n / 10) ++ [Char.ofNat (48 + n % 10)]

/-- Decimal representation of a natural number (no leading zeros). -/
def natToChars (n : Nat) : Str := natToCharsAux (n + 1) n

/-- Parse a digit string back to a natural number. -/
def charsToNat (s : Str) : Nat := s.foldl (fun a c => a * 10 + (c.toNat - 48)) 0

def isAlphaCh (c : Char) : Bool := ('a' ≤ c && c ≤ 'z') || ('A' ≤ c && c ≤ 'Z')

def isDigitCh (c : Char) : Bool := '0' ≤ c && c ≤ '9'

/-! ## The URL model

A shallow model of the WHATWG `URL` platform object as the crawler uses it:
http/https URLs with lower-cased scheme and host, an optional numeric port,
a path, an ordered query (key/value pairs) and an optional fragment.
Percent-encoding, userinfo and IPv6 host brackets are not modelled. -/

structure URLRec where
  scheme : Str
  host : Str
  port : Option Nat
  path : Str
  query : List (Str × Str)
  frag : Option Str
deriving DecidableEq, Repr

/-- Split at the first occurrence of `sep`; the second component is `none`
when `sep` does not occur. -/
def splitAtFirst (sep : Char) : Str → Str × Option Str
  | [] => ([], none)
  | c :: cs =>
    if c = sep then ([], some cs)
    else
      let r := splitAtFirst sep cs
      (c :: r.1, r.2)

/-- The segments of a path that starts with `/`. -/
def pathSegs (p : Str) : List Str := splitOnChar '/' (p.drop 1)

/-- Rebuild a path (starting with `/`) from its segments. -/
def unsegs (segs : List Str) : Str := '/' :: joinSep '/' segs

/-- Dot-segment removal over path segments, as the WHATWG path parser does it
(`..` pops a segment, `.` is dropped; a trailing dot segment leaves a
trailing slash). -/
def rdsGo : List Str → List Str → List Str
  | stack, [] => stack.reverse
  | stack, [s] =>
    if s = str "." then stack.reverse ++ [[]]
    else if s = str ".." then (stack.drop 1).reverse ++ [[]]
    else (s :: stack).reverse
  | stack, s :: rest =>
    if s = str "." then rdsGo stack rest
    else if s = str ".." then rdsGo (stack.drop 1) rest
    else rdsGo (s :: stack) rest

/-- Dot-segment removal on a path starting with `/`. -/
def removeDotSegments (p : Str) : Str := unsegs (rdsGo [] (pathSegs p))

def hostDelim (c : Char) : Bool := c = '/' || c = ':' || c = '?' || c = '#'

/-- Parse `host[:port]rest` after `scheme://`.  Fails on an empty host or a
malformed or oversized port, as the WHATWG parser does. -/
def parseHostPort (s : Str) : Option (Str × Option Nat × Str) :=
  let host := s.takeWhile (fun c => !hostDelim c)
  let rest := s.dropWhile (fun c => !hostDelim c)
  if host.isEmpty then none
  else
    match rest with
    | ':' :: r2 =>
      let digits := r2.takeWhile isDigitCh
      let r3 := r2.dropWhile isDigitCh
      match r3 with
      | [] =>
        if digits.isEmpty then some (host, none, [])
        else if charsToNat digits ≤ 65535 then some (host, some (charsToNat digits), [])
        else none
      | c :: _ =>
        if c = '/' ∨ c = '?' ∨ c = '#' then
          if digits.isEmpty then some (host, none, r3)
          else if charsToNat digits ≤ 65535 then some (host, some (charsToNat digits), r3)
          else none
        else none
    | _ => some (host, none, rest)

/-- Split `s` into the part before any `?`/`#`, the raw query and the raw
fragment. -/
def splitPQF (s : Str) : Str × Option Str × Option Str :=
  let f := splitAtFirst '#' s
  let q := splitAtFirst '?' f.1
  (q.1, q.2, f.2)

/-- One `key=value` pair of a query string (`a` alone parses as `(a, "")`,
`a=b=c` as `(a, "b=c")`), as `URLSearchParams` does. -/
def parsePair (s : Str) : Str × Str :=
  match splitAtFirst '=' s with
  | (k, none) => (k, [])
  | (k, some v) => (k, v)

/-- Parse a raw query string into ordered pairs; empty `&`-segments are
skipped, as `URLSearchParams` does. -/
def parseQuery (q : Str) : List (Str × Str) :=
  ((splitOnChar '&' q).filter (fun s => !s.isEmpty)).map parsePair

/-- Parse an absolute `scheme://…` URL (WHATWG subset: the scheme must be
followed by `://`).  Scheme and host are lower-cased at parse time exactly as
the WHATWG parser does, and dot segments are removed from the path. -/
def parseAbs (s : Str) : Option URLRec :=
  let schemeRaw := s.takeWhile isAlphaCh
  let rest := s.dropWhile isAlphaCh
  if schemeRaw.isEmpty then none
  else
    match rest with
    | ':' :: '/' :: '/' :: r =>
      match parseHostPort r with
      | none => none
      | some (host, port, pqf) =>
        let pqfSplit := splitPQF pqf
        let path := removeDotSegments (if pqfSplit.1.isEmpty then str "/" else pqfSplit.1)
        let query := match pqfSplit.2.1 with | none => [] | some q => parseQuery q
        some ⟨lowerStr schemeRaw, lowerStr host, port, path, query, pqfSplit.2.2⟩
    | _ => none

/-- Does the string begin with `scheme:` for some alphabetic scheme? -/
def hasScheme (s : Str) : Bool :=
  !(s.takeWhile isAlphaCh).isEmpty && strPrefix [':'] (s.dropWhile isAlphaCh)

/-- The base path up to and including its last `/` (RFC 3986 merge). -/
def dirOf (p : Str) : Str := (p.reverse.dropWhile (fun c => c ≠ '/')).reverse

/-- Model of `new URL(raw, base)` on the subset described above.  A `raw`
that carries its own scheme must be an absolute `http(s)://` URL; an
opaque-path URL such as `mailto:x` is a parse failure here, whereas the real
parser produces a non-http URL object that `normalizeUrl` rejects one line
later, so the composed behaviour agrees.  Otherwise `raw` is resolved
against `base`, which must itself parse as an absolute URL. -/
def resolveURL (raw base : Str) : Option URLRec :=
  if hasScheme raw then parseAbs raw
  else
    match parseAbs base with
    | none => none
    | some b =>
      match raw with
      | '/' :: '/' :: r => parseAbs (b.scheme ++ str "://" ++ r)
      | '/' :: _ =>
        let s := splitPQF raw
        some { b with path := removeDotSegments s.1,
                      query := (match s.2.1 with | none => [] | some q => parseQuery q),
                      frag := s.2.2 }
      | '?' :: _ =>
        let s := splitPQF raw
        some { b with query := (match s.2.1 with | none => [] | some q => parseQuery q),
                      frag := s.2.2 }
      | '#' :: r => some { b with frag := some r }
      | [] => some { b with frag := none }
      | _ =>
        let s := splitPQF raw
        some { b with path := removeDotSegments (dirOf b.path ++ s.1),
                      query := (match s.2.1 with | none => [] | some q => parseQuery q),
                      frag := s.2.2 }

/-- Serialize the origin (`scheme://host[:port]`), as `URL.prototype.origin`
does. -/
def serializeOrigin (r : URLRec) : Str :=
  r.scheme ++ str "://" ++ r.host ++
    (match r.port with | none => [] | some n => ':' :: natToChars n)

/-- Serialize a query list, as `URLSearchParams.prototype.toString` does
(every pair is rendered `key=value`, values may be empty). -/
def serializeQuery (q : List (Str × Str)) : Str :=
  joinSep '&' (q.map (fun kv => kv.1 ++ '=' :: kv.2))

/-- Serialize a URL record, as `URL.prototype.href` does (an empty query
serializes without `?`, matching the `URLSearchParams` update steps that run
when the crawler calls `searchParams.sort()`). -/
def serializeURL (r : URLRec) : Str :=
  serializeOrigin r ++ r.path ++
    (if r.query.isEmpty then [] else '?' :: serializeQuery r.query) ++
    (match r.frag with | none => [] | some f => '#' :: f)

/-- `URL.prototype.origin` of an absolute URL string. -/
def originOf (u : Str) : Option Str := (parseAbs u).map serializeOrigin

/-! ## `normalizeUrl` (`src/server/lib/url-utils.js`) -/

/-- The tracking / noise query parameters stripped by the normalizer
(`STRIP_PARAMS` in the source). -/
def STRIP_PARAMS : List Str :=
  [str "utm_source", str "utm_medium", str "utm_campaign", str "utm_term",
   str "utm_content", str "utm_id",
   str "fbclid", str "fb_action_ids", str "fb_action_types", str "fb_source",
   str "fb_ref",
   str "gclid", str "gclsrc", str "dclid", str "gbraid", str "wbraid",
   str "msclkid",
   str "hsa_cam", str "hsa_grp", str "hsa_mt", str "hsa_src", str "hsa_ad",
   str "hsa_acc", str "hsa_net", str "hsa_ver", str "hsa_la", str "hsa_ol",
   str "hsa_kw",
   str "mc_cid", str "mc_eid", str "_ga", str "_gl", str "_ke", str "ref",
   str "ref_src",
   str "sid", str "sessionid", str "session_id", str "jsessionid",
   str "phpsessid", str "aspsessionid",
   str "nocache", str "_", str "timestamp", str "cb"]

/-- Strict lexicographic order on strings by code point (JS compares code
units; the two agree on the basic multilingual plane). -/
def lexLt : Str → Str → Bool
  | [], [] => false
  | [], _ :: _ => true
  | _ :: _, [] => false
  | a :: as, b :: bs => if a = b then lexLt as bs else decide (a < b)

/-- Insert a pair into a key-sorted list, before any pair of equal key coming
later (stable insertion). -/
def insertByKey (x : Str × Str) : List (Str × Str) → List (Str × Str)
  | [] => [x]
  | y :: ys => if lexLt y.1 x.1 then y :: insertByKey x ys else x :: y :: ys

/-- Stable sort of query pairs by key.  `URLSearchParams.prototype.sort` is a
stable sort by key over a total preorder, and stable sorts are unique, so any
stable sorting algorithm is a faithful model. -/
def sortByKey : List (Str × Str) → List (Str × Str)
  | [] => []
  | x :: xs => insertByKey x (sortByKey xs)

/-- Collapse runs of 2+ slashes to one (the `replace(/\/{2,}/g, '/')` in the
source); auxiliary, tracking whether the previous kept character was `/`. -/
def collapseGo (prevSlash : Bool) : Str → Str
  | [] => []
  | c :: cs =>
    if c = '/' then
      if prevSlash then collapseGo true cs else '/' :: collapseGo true cs
    else c :: collapseGo false cs

def collapseSlashes (s : Str) : Str := collapseGo false s

/-- `normalizeUrl(raw, baseUrl)` from `src/server/lib/url-utils.js`: parse
relative to the base, reject non-http(s), lower-case scheme and host, drop
the fragment, strip tracking parameters, sort the remaining query pairs,
collapse duplicate slashes, strip a trailing slash (except for the root
path), drop default ports, and serialize. -/
def normalizeUrl (raw baseUrl : Str) : Option Str :=
  match resolveURL raw baseUrl with
  | none => none
  | some u0 =>
    if u0.scheme ≠ str "http" ∧ u0.scheme ≠ str "https" then none
    else
      let u1 := { u0 with scheme := lowerStr u0.scheme, host := lowerStr u0.host, frag := none }
      let u2 := { u1 with query := u1.query.filter (fun kv => !STRIP_PARAMS.contains (lowerStr kv.1)) }
      let u3 := { u2 with query := sortByKey u2.query }
      let u4 := { u3 with path := collapseSlashes u3.path }
      let u5 := { u4 with path := if u4.path.length > 1 ∧ u4.path.getLast? = some '/' then u4.path.dropLast else u4.path }
      let u6 := { u5 with port := if (u5.scheme = str "http" ∧ u5.port = some 80) ∨
                                     (u5.scheme = str "https" ∧ u5.port = some 443) then none
                                  else u5.port }
      some (serializeURL u6)

/-! ## Trap / pattern filter (`shouldDenyUrl`, `src/server/lib/url-utils.js`)

The built-in deny regexes are modelled by explicit matchers with the same
backtracking semantics (alternations are tried left to right, retrying later
alternatives when the continuation fails, exactly as a regex engine does).
Caller-supplied patterns arrive as compiled `RegExp` objects; they are
modelled as their test functions `Str → Bool`. -/

/-- A prefix matcher: consume a prefix of the input, return the rest. -/
abbrev PM := Str → Option Str

/-- Case-insensitive literal (the source regexes all carry the `i` flag). -/
def pmLit (lit : Str) : PM := fun s =>
  if strPrefix lit (lowerStr s) then some (s.drop lit.length) else none

/-- Single character out of a class. -/
def pmChar (cs : List Char) : PM := fun s =>
  match s with
  | c :: r => if cs.contains c then some r else none
  | [] => none

/-- Literal alternation with continuation `k`, backtracking across
alternatives in order, as a regex engine does. -/
def pmAltK : List Str → PM → PM
  | [], _, _ => none
  | lit :: rest, k, s =>
    match (pmLit lit s).bind k with
    | some r => some r
    | none => pmAltK rest k s

/-- One decimal digit. -/
def pmDigit : PM := fun s =>
  match s with
  | c :: r => if isDigitCh c then some r else none
  | [] => none

/-- `\d+` (greedy; no following digit context appears in the source
patterns, so maximal munch is exact). -/
def pmDigits1 : PM := fun s =>
  match s with
  | c :: r => if isDigitCh c then some (r.dropWhile isDigitCh) else none
  | [] => none

/-- Exactly `n` digits (`\d{n}`). -/
def pmDigitN : Nat → PM
  | 0 => fun s => some s
  | n + 1 => fun s => (pmDigit s).bind (pmDigitN n)

/-- `(?:\/|$|\?)`. -/
def pmTermSlashEndQ : PM := fun s =>
  match s with
  | [] => some []
  | c :: r => if c = '/' ∨ c = '?' then some r else none

/-- `(?:\/|$)`. -/
def pmTermSlashEnd : PM := fun s =>
  match s with
  | [] => some []
  | c :: r => if c = '/' then some r else none

/-- End of input (`$`). -/
def pmEnd : PM := fun s => if s.isEmpty then some [] else none

def isWordCh (c : Char) : Bool := isAlphaCh c || isDigitCh c || c = '_'

/-- Word boundary `\b` after a word character: next char is non-word or end. -/
def pmBoundary : PM := fun s =>
  match s with
  | [] => some []
  | c :: _ => if isWordCh c then none else some s

/-- Does the pattern match at some position of `s` (`RegExp.prototype.test`)? -/
def reTest (m : PM) : Str → Bool
  | [] => (m []).isSome
  | c :: cs => (m (c :: cs)).isSome || reTest m cs

/-- `/\/(?:search|buscar|suche|recherche)(?:\/|$|\?)/i` -/
def denyP1 : PM := fun s =>
  (pmChar ['/'] s).bind
    (pmAltK [str "search", str "buscar", str "suche", str "recherche"] pmTermSlashEndQ)

/-- `/\/(?:tag|tags|category|categories|label|labels)\//i` -/
def denyP2 : PM := fun s =>
  (pmChar ['/'] s).bind
    (pmAltK [str "tag", str "tags", str "category", str "categories",
             str "label", str "labels"] (pmChar ['/']))

/-- `/\/(?:page|p)\/\d+/i` -/
def denyP3 : PM := fun s =>
  (pmChar ['/'] s).bind
    (pmAltK [str "page", str "p"] (fun r => (pmChar ['/'] r).bind pmDigits1))

/-- `/[?&](?:page|p|pg|offset|start)=\d/i` -/
def denyP4 : PM := fun s =>
  (pmChar ['?', '&'] s).bind
    (pmAltK [str "page", str "p", str "pg", str "offset", str "start"]
      (fun r => (pmChar ['='] r).bind pmDigit))

/-- `\/(?:calendar|event|events)\/\d{4}[slash or dash]\d{2}`, flag `i`
(the char class holds a slash and a dash). -/
def denyP5 : PM := fun s =>
  (pmChar ['/'] s).bind
    (pmAltK [str "calendar", str "event", str "events"]
      (fun r => ((pmChar ['/'] r).bind (pmDigitN 4)).bind
        (fun r2 => (pmChar ['/', '-'] r2).bind (pmDigitN 2))))

/-- `/\/(?:login|logout|register|signup|signin|signout|account|my-?account|cart|checkout|wishlist)\b/i` -/
def denyP6 : PM := fun s =>
  (pmChar ['/'] s).bind
    (pmAltK [str "login", str "logout", str "register", str "signup",
             str "signin", str "signout", str "account", str "my-account",
             str "myaccount", str "cart", str "checkout", str "wishlist"]
      pmBoundary)

/-- `/\/(?:wp-admin|admin|administrator|cgi-bin)\//i` -/
def denyP7 : PM := fun s =>
  (pmChar ['/'] s).bind
    (pmAltK [str "wp-admin", str "admin", str "administrator", str "cgi-bin"]
      (pmChar ['/']))

/-- `/\/(?:feed|rss|atom|xmlrpc)(?:\/|$)/i` -/
def denyP8 : PM := fun s =>
  (pmChar ['/'] s).bind
    (pmAltK [str "feed", str "rss", str "atom", str "xmlrpc"] pmTermSlashEnd)

/-- `/\/(?:print|pdf|share|email|mailto)(?:\/|$)/i` -/
def denyP9 : PM := fun s =>
  (pmChar ['/'] s).bind
    (pmAltK [str "print", str "pdf", str "share", str "email", str "mailto"]
      pmTermSlashEnd)

/-- `/\.(pdf|zip|gz|tar|rar|exe|dmg|iso|mp3|mp4|avi|mov|wmv|doc|docx|xls|xlsx|ppt|pptx)$/i` -/
def denyP10 : PM := fun s =>
  (pmChar ['.'] s).bind
    (pmAltK [str "pdf", str "zip", str "gz", str "tar", str "rar", str "exe",
             str "dmg", str "iso", str "mp3", str "mp4", str "avi", str "mov",
             str "wmv", str "doc", str "docx", str "xls", str "xlsx",
             str "ppt", str "pptx"] pmEnd)

/-- `/[?&](?:sort|order|filter|view|display|limit|lang|currency|size|color)=/i` -/
def denyP11 : PM := fun s =>
  (pmChar ['?', '&'] s).bind
    (pmAltK [str "sort", str "order", str "filter", str "view", str "display",
             str "limit", str "lang", str "currency", str "size", str "color"]
      (pmChar ['=']))

/-- `/[?&](?:replytocom|action|preview|doing_wp_cron)=/i` -/
def denyP12 : PM := fun s =>
  (pmChar ['?', '&'] s).bind
    (pmAltK [str "replytocom", str "action", str "preview",
             str "doing_wp_cron"] (pmChar ['=']))

/-- `DEFAULT_DENY_PATTERNS` from the source, as test functions. -/
def DEFAULT_DENY_PATTERNS : List (Str → Bool) :=
  [reTest denyP1, reTest denyP2, reTest denyP3, reTest denyP4, reTest denyP5,
   reTest denyP6, reTest denyP7, reTest denyP8, reTest denyP9, reTest denyP10,
   reTest denyP11, reTest denyP12]

/-- `shouldDenyUrl(urlString, {denyPatterns, allowPatterns})` from
`src/server/lib/url-utils.js`.  Caller-supplied regexes are modelled by
their test functions. -/
def shouldDenyUrl (urlString : Str)
    (denyPatterns allowPatterns : List (Str → Bool)) : Bool :=
  if allowPatterns.length > 0 && !(allowPatterns.any (fun p => p urlString)) then
    true
  else if denyPatterns.any (fun p => p urlString) then true
  else if DEFAULT_DENY_PATTERNS.any (fun p => p urlString) then true
  else false

/-! ## Robots gate (`parseRobotsTxt` in `src/server/lib/url-utils.js` and
`loadRobotsTxt` in `src/server/routes/seo-site-crawler.js`) -/

inductive RuleType where
  | allow
  | disallow
deriving DecidableEq, Repr

structure RRule where
  rtype : RuleType
  path : Str
deriving DecidableEq, Repr

/-- The line loop of `parseRobotsTxt`: track whether the current user-agent
section applies (`capturing`) and collect `allow`/`disallow` prefix rules in
order. -/
def parseRobotsLines (ua : Str) : List Str → Bool → List RRule → List RRule
  | [], _, rules => rules
  | line :: rest, capturing, rules =>
    let lower := lowerStr line
    if strPrefix (str "user-agent:") lower then
      parseRobotsLines ua rest
        (let agent := trimWs (lower.drop 11)
         agent = str "*" || agent = ua || strInfix agent ua) rules
    else if !capturing then parseRobotsLines ua rest capturing rules
    else if strPrefix (str "disallow:") lower then
      parseRobotsLines ua rest capturing
        (let path := trimWs ((line.drop 9).dropWhile isWs)
         if path.isEmpty then rules else rules ++ [⟨RuleType.disallow, path⟩])
    else if strPrefix (str "allow:") lower then
      parseRobotsLines ua rest capturing
        (let path := trimWs ((line.drop 6).dropWhile isWs)
         if path.isEmpty then rules else rules ++ [⟨RuleType.allow, path⟩])
    else parseRobotsLines ua rest capturing rules

/-- `parseRobotsTxt(robotsTxt, userAgent)`: split into trimmed lines and
collect the rules of the sections that apply to the user agent. -/
def parseRobotsTxt (robotsTxt userAgent : Str) : List RRule :=
  parseRobotsLines (lowerStr userAgent)
    ((splitOnChar '\n' robotsTxt).map trimWs) false []

/-- The fold inside the returned `isAllowed` closure: best match so far is a
`(type, matched-prefix-length)` pair starting from the default
`(allow, 0)`; a rule only replaces it when its prefix match is strictly
longer. -/
def isAllowedGo (urlPath : Str) : List RRule → RuleType × Nat → RuleType × Nat
  | [], best => best
  | r :: rs, best =>
    isAllowedGo urlPath rs
      (if strPrefix r.path urlPath ∧ r.path.length > best.2 then
        (r.rtype, r.path.length)
       else best)

/-- The `isAllowed(urlPath)` closure returned by `parseRobotsTxt`. -/
def isAllowed (rules : List RRule) (urlPath : Str) : Bool :=
  decide ((isAllowedGo urlPath rules (RuleType.allow, 0)).1 = RuleType.allow)

/-- The robots gate the crawl holds: either the always-allow closure
(`() => true`) or the closure over a parsed rule list. -/
inductive Gate where
  | allowAll
  | fromRules (rules : List RRule)
deriving Repr

def gateAllows : Gate → Str → Bool
  | Gate.allowAll, _ => true
  | Gate.fromRules rules, p => isAllowed rules p

/-- The possible outcomes of one `fetch` call, as the crawler observes them:
a thrown error (with its `AbortError` flag and message) or a settled
response with status, content type and body text. -/
inductive FetchOutcome where
  | fetchErr (abort : Bool) (msg : Str)
  | resp (status : Nat) (contentType : Str) (body : Str)
deriving DecidableEq, Repr

/-- The network, as a pure oracle from URL to outcome. -/
abbrev Net := Str → FetchOutcome

/-- `Response.ok`: status in the range 200–299. -/
def respOk (status : Nat) : Bool := 200 ≤ status && status ≤ 299

/-- `loadRobotsTxt(origin, userAgent, timeout)` given the fetch outcome for
`{origin}/robots.txt`: a thrown fetch or a non-2xx response yields the
always-allow gate (fail-open); a 2xx response yields the parsed gate and
the first 1000 characters of the body. -/
def loadRobotsTxt (outcome : FetchOutcome) (userAgent : Str) :
    Gate × Option Str :=
  match outcome with
  | FetchOutcome.resp status _ body =>
    if respOk status then
      (Gate.fromRules (parseRobotsTxt body userAgent), some (body.take 1000))
    else (Gate.allowAll, none)
  | FetchOutcome.fetchErr _ _ => (Gate.allowAll, none)

/-! ## Link extractor (`extractInternalLinks`) and canonical extractor
(`extractCanonical`) from `src/server/routes/seo-site-crawler.js` -/

def quoteCh (c : Char) : Bool := c = '"' || c = '\''

/-- Match `href=["']([^"'#]+)["']` at the start of `s` (the scan regex of
`extractInternalLinks`, flag `i`): after `href=` and a quote, the capture is
the maximal nonempty run of characters other than quotes and `#`, and must
be terminated by a quote (either kind).  Returns the capture and the rest of
the input after the closing quote. -/
def matchHref (s : Str) : Option (Str × Str) :=
  match pmLit (str "href=") s with
  | none => none
  | some r1 =>
    match r1 with
    | q :: r2 =>
      if quoteCh q then
        let cap := r2.takeWhile (fun c => !(quoteCh c || c = '#'))
        let r3 := r2.dropWhile (fun c => !(quoteCh c || c = '#'))
        if cap.isEmpty then none
        else
          match r3 with
          | c :: r4 => if quoteCh c then some (cap, r4) else none
          | [] => none
      else none
    | [] => none

/-- All captures of the global `href` scan in input order (`regex.exec` in a
loop: on a match continue after it, otherwise advance one position).  Fuel-
structured; `fuel = length` suffices since every step consumes input. -/
def scanHrefsGo : Nat → Str → List Str
  | 0, _ => []
  | _ + 1, [] => []
  | fuel + 1, c :: cs =>
    match matchHref (c :: cs) with
    | some (cap, rest) => cap :: scanHrefsGo fuel rest
    | none => scanHrefsGo fuel cs

def scanHrefs (html : Str) : List Str := scanHrefsGo html.length html

/-- The body of the `while` loop of `extractInternalLinks`, one pass:
`links` is the `Set` as an insertion-ordered list. -/
def extractGo (baseUrl origin : Str) : Nat → Str → List Str → List Str
  | 0, _, links => links
  | _ + 1, [], links => links
  | fuel + 1, c :: cs, links =>
    match matchHref (c :: cs) with
    | none => extractGo baseUrl origin fuel cs links
    | some (cap, rest) =>
      let raw := trimWs cap
      if raw.isEmpty || strPrefix (str "javascript:") raw ||
          strPrefix (str "mailto:") raw || strPrefix (str "tel:") raw then
        extractGo baseUrl origin fuel rest links
      else
        match normalizeUrl raw baseUrl with
        | none => extractGo baseUrl origin fuel rest links
        | some normalized =>
          match originOf normalized with
          | none => extractGo baseUrl origin fuel rest links
          | some o =>
            if o = origin then
              if links.contains normalized then
                extractGo baseUrl origin fuel rest links
              else extractGo baseUrl origin fuel rest (links ++ [normalized])
            else extractGo baseUrl origin fuel rest links

/-- `extractInternalLinks(html, baseUrl, origin)`. -/
def extractInternalLinks (html baseUrl origin : Str) : List Str :=
  extractGo baseUrl origin html.length html []

/-- The per-capture pipeline of `extractInternalLinks`: trim, skip
empty/`javascript:`/`mailto:`/`tel:`, normalize, keep only same-origin. -/
def processHref (baseUrl origin : Str) (cap : Str) : Option Str :=
  let raw := trimWs cap
  if raw.isEmpty || strPrefix (str "javascript:") raw ||
      strPrefix (str "mailto:") raw || strPrefix (str "tel:") raw then none
  else
    match normalizeUrl raw baseUrl with
    | none => none
    | some normalized =>
      match originOf normalized with
      | none => none
      | some o => if o = origin then some normalized else none

/-- Keep the first occurrence of each element (`Set` insertion order). -/
def dedupGo (seen : List Str) : List Str → List Str
  | [] => []
  | x :: xs =>
    if seen.contains x then dedupGo seen xs
    else x :: dedupGo (seen ++ [x]) xs

def dedupKeepFirst (l : List Str) : List Str := dedupGo [] l

/-- Try decreasing star lengths `n, n-1, …, 0` (greedy star with
backtracking). -/
def tryFrom {α : Type} (f : Nat → Option α) : Nat → Option α
  | 0 => f 0
  | n + 1 =>
    match f (n + 1) with
    | some r => some r
    | none => tryFrom f n

/-- Greedy `[^>]*` followed by continuation `k`, with backtracking. -/
def starThenNotGt {α : Type} (k : Str → Option α) (s : Str) : Option α :=
  tryFrom (fun j => k (s.drop j)) (s.takeWhile (fun c => c ≠ '>')).length

/-- The tail `href=["']([^"']*)["']` of the first canonical regex: the
capture may be empty and runs to the first quote of either kind. -/
def matchCanonTail (s : Str) : Option Str :=
  match pmLit (str "href=") s with
  | none => none
  | some r1 =>
    match r1 with
    | q :: r2 =>
      if quoteCh q then
        let cap := r2.takeWhile (fun c => !quoteCh c)
        match r2.dropWhile (fun c => !quoteCh c) with
        | c :: _ => if quoteCh c then some cap else none
        | [] => none
      else none
    | [] => none

/-- `<link[^>]*rel=["']canonical["'][^>]*href=["']([^"']*)["']` (flag `i`)
matched at the start of `s`. -/
def matchCanonA (s : Str) : Option Str :=
  match pmLit (str "<link") s with
  | none => none
  | some r1 =>
    starThenNotGt (fun s2 =>
      match pmLit (str "rel=") s2 with
      | none => none
      | some r2 =>
        match r2 with
        | q :: r3 =>
          if quoteCh q then
            match pmLit (str "canonical") r3 with
            | none => none
            | some r4 =>
              match r4 with
              | q2 :: r5 =>
                if quoteCh q2 then starThenNotGt matchCanonTail r5 else none
              | [] => none
          else none
        | [] => none) r1

/-- `<link[^>]*href=["']([^"']*)["'][^>]*rel=["']canonical["']` (flag `i`)
matched at the start of `s`. -/
def matchCanonB (s : Str) : Option Str :=
  match pmLit (str "<link") s with
  | none => none
  | some r1 =>
    starThenNotGt (fun s2 =>
      match pmLit (str "href=") s2 with
      | none => none
      | some r2 =>
        match r2 with
        | q :: r3 =>
          if quoteCh q then
            let cap := r3.takeWhile (fun c => !quoteCh c)
            match r3.dropWhile (fun c => !quoteCh c) with
            | q2 :: r5 =>
              if quoteCh q2 then
                starThenNotGt (fun s3 =>
                  match pmLit (str "rel=") s3 with
                  | none => none
                  | some r6 =>
                    match r6 with
                    | q3 :: r7 =>
                      if quoteCh q3 then
                        match pmLit (str "canonical") r7 with
                        | none => none
                        | some r8 =>
                          match r8 with
                          | q4 :: _ => if quoteCh q4 then some cap else none
                          | [] => none
                      else none
                    | [] => none) r5
              else none
            | [] => none
          else none
        | [] => none) r1

/-- Leftmost match of a matcher over all start positions
(`String.prototype.match` without the global flag). -/
def findFirstMatch (m : Str → Option Str) : Str → Option Str
  | [] => m []
  | c :: cs =>
    match m (c :: cs) with
    | some r => some r
    | none => findFirstMatch m cs

/-- `extractCanonical(html, baseUrl)`: first canonical regex, then the
reversed-attribute one; the capture is normalized against the base. -/
def extractCanonical (html baseUrl : Str) : Option Str :=
  match findFirstMatch matchCanonA html with
  | some cap => normalizeUrl cap baseUrl
  | none =>
    match findFirstMatch matchCanonB html with
    | some cap => normalizeUrl cap baseUrl
    | none => none

/-! ## The crawl engine (`crawl` in `src/server/routes/seo-site-crawler.js`)

The engine is a batch loop: form a batch of up to `concurrency` entries from
the frontier head (applying visited / depth / robots / pattern checks, some
of which append results directly), fetch the batch, classify each outcome,
and enqueue newly discovered links.  `Promise.allSettled` collects results
in batch order and the per-item callbacks never read `pages`, so processing
the batch items sequentially in batch order is state-identical to the
source's fetch-all-then-collect shape.  The model additionally emits an
event trace (dequeue / visited-insert / duplicate-hit / fetch) used to state
the at-most-once properties. -/

inductive PStatus where
  | success
  | http_error
  | fetch_error
  | skipped_non_html
  | duplicate_canonical
  | blocked_robots
  | blocked_pattern
deriving DecidableEq, Repr

/-- One PageResult.  Fields the source leaves `undefined` are `none`/`[]`. -/
structure Page where
  url : Str
  status : PStatus
  http_status : Option Nat
  internal_links : List Str
  depth : Nat
  error : Option Str
deriving DecidableEq, Repr

structure CrawlConfig where
  maxPages : Nat
  maxDepth : Int
  concurrency : Int
  userAgent : Str
  allowPatterns : List (Str → Bool)
  denyPatterns : List (Str → Bool)

/-- `DEFAULTS.maxQueueSize`. -/
def maxQueueSize : Nat := 10000

/-- A frontier entry `{url, depth}`. -/
abbrev Frontier := Str × Nat

structure CrawlSt where
  visited : List Str
  canonicalSeen : List Str
  queue : List Frontier
  pages : List Page
  errorCount : Nat
  blockedCount : Nat
  duplicateCount : Nat
deriving DecidableEq, Repr

/-- Observable events of a crawl run. -/
inductive Ev where
  | dequeue (url : Str) (depth : Nat)
  | visit (url : Str)
  | dupVisit (url : Str)
  | fetchEv (url : Str)
  | dupCanon (url : Str)
deriving DecidableEq, Repr

/-- JS `Set.prototype.add` on an insertion-ordered list. -/
def addSet (x : Str) (l : List Str) : List Str :=
  if l.contains x then l else l ++ [x]

/-- Accumulator of the batch-formation inner `while` loop. -/
structure FormAcc where
  visited : List Str
  pages : List Page
  blockedCount : Nat
  duplicateCount : Nat
  batch : List Frontier
  trace : List Ev
deriving Repr

/-- The batch-formation loop (`while (batch.length < concurrency && …)`):
shift the queue head; a visited URL counts as a duplicate; otherwise the
URL is inserted into the visited set, then dropped if past `maxDepth`,
recorded as `blocked_robots`/`blocked_pattern` (without fetching) if a check
fails, and added to the batch otherwise. -/
def formBatchGo (cfg : CrawlConfig) (gate : Gate) :
    List Frontier → FormAcc → List Frontier × FormAcc
  | [], acc => ([], acc)
  | item :: rest, acc =>
    if (acc.batch.length : Int) < cfg.concurrency ∧
        acc.pages.length + acc.batch.length < cfg.maxPages then
      if acc.visited.contains item.1 then
        formBatchGo cfg gate rest
          { acc with duplicateCount := acc.duplicateCount + 1,
                     trace := acc.trace ++ [Ev.dequeue item.1 item.2, Ev.dupVisit item.1] }
      else
        let acc1 := { acc with visited := item.1 :: acc.visited,
                               trace := acc.trace ++ [Ev.dequeue item.1 item.2, Ev.visit item.1] }
        if (item.2 : Int) > cfg.maxDepth then formBatchGo cfg gate rest acc1
        else
          if (match parseAbs item.1 with
              | some r => !gateAllows gate r.path
              | none => false) then
            formBatchGo cfg gate rest
              { acc1 with blockedCount := acc1.blockedCount + 1,
                          pages := acc1.pages ++ [⟨item.1, PStatus.blocked_robots, none, [], item.2, none⟩] }
          else if shouldDenyUrl item.1 cfg.denyPatterns cfg.allowPatterns then
            formBatchGo cfg gate rest
              { acc1 with blockedCount := acc1.blockedCount + 1,
                          pages := acc1.pages ++ [⟨item.1, PStatus.blocked_pattern, none, [], item.2, none⟩] }
          else formBatchGo cfg gate rest { acc1 with batch := acc1.batch ++ [item] }
    else (item :: rest, acc)

/-- The link-enqueue loop after a successful parse: push `(link, depth+1)`
for each extracted link that is not visited, while the queue is below the
hard cap. -/
def enqueueLinks (visited : List Str) (depth : Nat) :
    List Str → List Frontier → List Frontier
  | [], queue => queue
  | link :: links, queue =>
    if !visited.contains link ∧ queue.length < maxQueueSize then
      enqueueLinks visited depth links (queue ++ [(link, depth + 1)])
    else enqueueLinks visited depth links queue

/-- The state a batch item's callback can read and mutate (everything except
the visited set, which is only read). -/
structure ProcSt where
  canonicalSeen : List Str
  queue : List Frontier
  pages : List Page
  errorCount : Nat
  duplicateCount : Nat
deriving DecidableEq, Repr

/-- One batch item: fetch, classify (`http_error` / `skipped_non_html` /
`fetch_error`), run the canonical logic, extract and enqueue links, and
append the PageResult. -/
def processItem (net : Net) (origin : Str) (visited : List Str)
    (st : ProcSt) (item : Frontier) : ProcSt × List Ev :=
  let u := item.1
  let d := item.2
  match net u with
  | FetchOutcome.fetchErr abort msg =>
    ({ st with
        pages := st.pages ++
          [⟨u, PStatus.fetch_error, none, [], d,
            some (if abort then str "Timeout" else msg)⟩],
        errorCount := st.errorCount + 1 }, [Ev.fetchEv u])
  | FetchOutcome.resp status ct body =>
    if !respOk status then
      ({ st with
          pages := st.pages ++
            [⟨u, PStatus.http_error, some status, [], d,
              some (str "HTTP " ++ natToChars status)⟩],
          errorCount := st.errorCount + 1 }, [Ev.fetchEv u])
    else if !strInfix (str "text/html") ct then
      ({ st with
          pages := st.pages ++
            [⟨u, PStatus.skipped_non_html, some status, [], d, none⟩] },
       [Ev.fetchEv u])
    else
      let success := fun (seen1 : List Str) =>
        let links := extractInternalLinks body u origin
        ({ st with
            canonicalSeen := seen1,
            queue := enqueueLinks visited d links st.queue,
            pages := st.pages ++
              [⟨u, PStatus.success, some status, links, d, none⟩] },
         [Ev.fetchEv u])
      match extractCanonical body u with
      | some c =>
        if c ≠ u ∧ st.canonicalSeen.contains c then
          ({ st with
              pages := st.pages ++
                [⟨u, PStatus.duplicate_canonical, some status, [], d, none⟩],
              duplicateCount := st.duplicateCount + 1 },
           [Ev.fetchEv u, Ev.dupCanon u])
        else success (addSet c st.canonicalSeen)
      | none => success st.canonicalSeen

/-- Process a batch in order (see the section comment for why sequential
processing is faithful). -/
def processBatch (net : Net) (origin : Str) (visited : List Str) :
    List Frontier → ProcSt → ProcSt × List Ev
  | [], st => (st, [])
  | item :: items, st =>
    let r := processItem net origin visited st item
    let rest := processBatch net origin visited items r.1
    (rest.1, r.2 ++ rest.2)

/-- One iteration of the outer `while` loop: form a batch, and if it is
nonempty fetch and process it. -/
def crawlStep (cfg : CrawlConfig) (gate : Gate) (net : Net) (origin : Str)
    (st : CrawlSt) : CrawlSt × List Ev :=
  let fb := formBatchGo cfg gate st.queue
    ⟨st.visited, st.pages, st.blockedCount, st.duplicateCount, [], []⟩
  let q1 := fb.1
  let acc := fb.2
  if acc.batch.isEmpty then
    ({ st with visited := acc.visited, queue := q1, pages := acc.pages,
               blockedCount := acc.blockedCount,
               duplicateCount := acc.duplicateCount }, acc.trace)
  else
    let pr := processBatch net origin acc.visited acc.batch
      ⟨st.canonicalSeen, q1, acc.pages, st.errorCount, acc.duplicateCount⟩
    (⟨acc.visited, pr.1.canonicalSeen, pr.1.queue, pr.1.pages,
      pr.1.errorCount, acc.blockedCount, pr.1.duplicateCount⟩,
     acc.trace ++ pr.2)

/-- The loop guard: the crawl is done when the frontier is empty or the page
budget is reached. -/
def isDone (cfg : CrawlConfig) (st : CrawlSt) : Bool :=
  st.queue.isEmpty || decide (st.pages.length ≥ cfg.maxPages)

/-- The outer `while (queue.length > 0 && pages.length < maxPages)` loop,
fuel-structured, also returning the emitted event trace. -/
def crawlLoop (cfg : CrawlConfig) (gate : Gate) (net : Net) (origin : Str) :
    Nat → CrawlSt → CrawlSt × List Ev
  | 0, st => (st, [])
  | fuel + 1, st =>
    if isDone cfg st then (st, [])
    else
      let s1 := crawlStep cfg gate net origin st
      let s2 := crawlLoop cfg gate net origin fuel s1.1
      (s2.1, s1.2 ++ s2.2)

/-- The initial crawl state: empty sets, the seed at depth 0, no results. -/
def initSt (startNormalized : Str) : CrawlSt :=
  ⟨[], [], [(startNormalized, 0)], [], 0, 0, 0⟩

/-- The crawl's final output object (the fields the claims mention). -/
structure CrawlOut where
  start_url : Str
  total_pages_crawled : Nat
  pages : List Page
  errors : Nat
  blocked : Nat
  duplicates : Nat
  robots_found : Bool
  invalid : Bool
deriving Repr

/-- `crawl(config)` end to end, given `fuel` outer-loop iterations:
normalize the seed against itself, derive the origin, load the robots gate
from the oracle's answer for `{origin}/robots.txt`, then run the loop.
`invalid` models the `error: 'Invalid start_url'` early returns. -/
def crawlMain (cfg : CrawlConfig) (net : Net) (startUrl : Str) (fuel : Nat) :
    CrawlOut :=
  match normalizeUrl startUrl startUrl with
  | none => ⟨startUrl, 0, [], 0, 0, 0, false, true⟩
  | some ns =>
    match originOf ns with
    | none => ⟨startUrl, 0, [], 0, 0, 0, false, true⟩
    | some origin =>
      let rg := loadRobotsTxt (net (origin ++ str "/robots.txt")) cfg.userAgent
      let fin := crawlLoop cfg rg.1 net origin fuel (initSt ns)
      ⟨ns, fin.1.pages.length, fin.1.pages, fin.1.errorCount,
       fin.1.blockedCount, fin.1.duplicateCount, rg.2.isSome, false⟩

/-! ## Route-handler clamps (`seoCrawlerRouter.post`)

`body.*` values are JS numbers; absent or `NaN` inputs are modelled as
`none` (both behave as the `||` default). -/

/-- `Number(body.max_pages || 50)` then clamp to `[1, 2000]` (`0` is falsy
and also takes the default). -/
def routeMaxPages (body : Option Int) : Nat :=
  let x : Int := match body with
    | none => 50
    | some v => if v = 0 then 50 else v
  if x < 1 then 1 else if x > 2000 then 2000 else x.toNat

/-- `Math.min(Number(body.concurrency) || 3, 10)` — an upper clamp only. -/
def routeConcurrency (body : Option Int) : Int :=
  min (match body with
       | none => 3
       | some v => if v = 0 then 3 else v) 10

/-- `Number(body.max_depth) || 10`. -/
def routeMaxDepth (body : Option Int) : Int :=
  match body with
  | none => 10
  | some v => if v = 0 then 10 else v

/-! ## Definitions used only to state the claims -/

/-- Number of `fetch` events in a trace (network GETs for page URLs). -/
def fetchCount (u : Str) (t : List Ev) : Nat := t.count (Ev.fetchEv u)

/-- Number of visited-set insertions of `u` in a trace. -/
def visitCount (u : Str) (t : List Ev) : Nat := t.count (Ev.visit u)

/-- Number of dequeues of `u` in a trace (any depth). -/
def dequeueCount (u : Str) (t : List Ev) : Nat :=
  (t.filter (fun e => match e with
    | Ev.dequeue v _ => decide (v = u)
    | _ => false)).length

/-- Number of already-visited duplicate hits of `u` in a trace. -/
def dupVisitCount (u : Str) (t : List Ev) : Nat := t.count (Ev.dupVisit u)

/-- Total fetch events in a trace. -/
def fetchTotal (t : List Ev) : Nat :=
  (t.filter (fun e => match e with
    | Ev.fetchEv _ => true
    | _ => false)).length

/-- Total duplicate-counter increments recorded in a trace (visited-hit plus
canonical duplicates). -/
def dupTotal (t : List Ev) : Nat :=
  (t.filter (fun e => match e with
    | Ev.dupVisit _ => true
    | Ev.dupCanon _ => true
    | _ => false)).length

/-- In every prefix of the trace, `u` has at least as many visited-set
insertions as fetches: a fetch of `u` can only happen after `u` was marked
visited. -/
def FetchAfterVisit (u : Str) (t : List Ev) : Prop :=
  ∀ n, fetchCount u (t.take n) ≤ visitCount u (t.take n)

/-- Rules whose path is a literal prefix of the queried path. -/
def matchingRules (rules : List RRule) (p : Str) : List RRule :=
  rules.filter (fun r => strPrefix r.path p)

/-- The greatest rule-path length in a list. -/
def maxRuleLen (rules : List RRule) : Nat :=
  rules.foldr (fun r a => max r.path.length a) 0

/-- The specification-side robots decision: among matching rules, the first
rule of maximal prefix length decides (allow iff its type is allow); with no
matching rule the default is allow. -/
def longestDecision (rules : List RRule) (p : Str) : Bool :=
  let m := matchingRules rules p
  match m.find? (fun r => decide (r.path.length = maxRuleLen m)) with
  | none => true
  | some r => decide (r.rtype = RuleType.allow)

/-- No two adjacent slashes. -/
def noDupSlash : Str → Bool
  | [] => true
  | [_] => true
  | c :: d :: rest => !(c = '/' && d = '/') && noDupSlash (d :: rest)

/-- Drop empty segments except a final one (effect of slash-collapsing on
the segment list after the leading slash). -/
def dropEmptySegs : List Str → List Str
  | [] => []
  | [x] => [x]
  | x :: rest => if x.isEmpty then dropEmptySegs rest else x :: dropEmptySegs rest

/-- Query pair lists sorted by key (adjacent keys never strictly
decreasing). -/
def pairsSorted (q : List (Str × Str)) : Prop :=
  List.Chain' (fun a b : Str × Str => lexLt b.1 a.1 = false) q

/-- The invariants of a normalized URL record: everything `normalizeUrl`
guarantees about its output, and exactly what is needed for parsing the
serialization to round-trip. -/
structure UrlInv (r : URLRec) : Prop where
  scheme_eq : r.scheme = str "http" ∨ r.scheme = str "https"
  host_ne : r.host ≠ []
  host_nodelim : ∀ c ∈ r.host, hostDelim c = false
  host_lower : lowerStr r.host = r.host
  port_le : ∀ n, r.port = some n → n ≤ 65535
  port_nondef : ¬ ((r.scheme = str "http" ∧ r.port = some 80) ∨
                   (r.scheme = str "https" ∧ r.port = some 443))
  path_head : r.path.head? = some '/'
  path_nq : '?' ∉ r.path
  path_nh : '#' ∉ r.path
  path_nodots : ∀ s ∈ pathSegs r.path, s ≠ str "." ∧ s ≠ str ".."
  path_nodup : noDupSlash r.path = true
  path_notrail : r.path = str "/" ∨ r.path.getLast? ≠ some '/'
  query_chars : ∀ kv ∈ r.query,
    '&' ∉ kv.1 ∧ '=' ∉ kv.1 ∧ '#' ∉ kv.1 ∧ '&' ∉ kv.2 ∧ '#' ∉ kv.2
  query_kept : ∀ kv ∈ r.query,
    (!STRIP_PARAMS.contains (lowerStr kv.1)) = true
  query_sorted : pairsSorted r.query
  frag_none : r.frag = none

/-! # Theorems -/

/-! ## Trace-count helpers -/

theorem visitCount_append (u : Str) (a b : List Ev) :
    visitCount u (a ++ b) = visitCount u a + visitCount u b := by
  simp [visitCount, List.count_append]

theorem fetchCount_append (u : Str) (a b : List Ev) :
    fetchCount u (a ++ b) = fetchCount u a + fetchCount u b := by
  simp [fetchCount, List.count_append]

theorem dupVisitCount_append (u : Str) (a b : List Ev) :
    dupVisitCount u (a ++ b) = dupVisitCount u a + dupVisitCount u b := by
  simp [dupVisitCount, List.count_append]

theorem dequeueCount_append (u : Str) (a b : List Ev) :
    dequeueCount u (a ++ b) = dequeueCount u a + dequeueCount u b := by
  simp [dequeueCount, List.filter_append]

theorem fetchTotal_append (a b : List Ev) :
    fetchTotal (a ++ b) = fetchTotal a + fetchTotal b := by
  simp [fetchTotal, List.filter_append]

theorem dupTotal_append (a b : List Ev) :
    dupTotal (a ++ b) = dupTotal a + dupTotal b := by
  simp [dupTotal, List.filter_append]

theorem fetchCount_le_take (u : Str) (t : List Ev) (n : Nat) :
    fetchCount u (t.take n) ≤ fetchCount u t := by
  simpa [fetchCount] using (t.take_sublist n).count_le (Ev.fetchEv u)

/-- `FetchAfterVisit` is closed under concatenation. -/
theorem fetchAfterVisit_append {u : Str} {a b : List Ev}
    (ha : FetchAfterVisit u a) (hb : FetchAfterVisit u b) :
    FetchAfterVisit u (a ++ b) := by
  intro n
  rw [List.take_append_eq_append_take, fetchCount_append, visitCount_append]
  exact Nat.add_le_add (ha n) (hb (n - a.length))

/-- A trace with no `u`-fetch events satisfies `FetchAfterVisit`. -/
theorem fetchAfterVisit_of_no_fetch {u : Str} {t : List Ev}
    (h : fetchCount u t = 0) : FetchAfterVisit u t := by
  intro n
  have := fetchCount_le_take u t n
  omega

/-! ## Batch-formation lemmas -/

/-- Counts over the `[dequeue, dupVisit]` block a visited-hit emits. -/
theorem counts_dup_block (u v : Str) (dep : Nat) :
    visitCount u [Ev.dequeue v dep, Ev.dupVisit v] = 0 ∧
    dupVisitCount u [Ev.dequeue v dep, Ev.dupVisit v] = (if v = u then 1 else 0) ∧
    dequeueCount u [Ev.dequeue v dep, Ev.dupVisit v] = (if v = u then 1 else 0) ∧
    fetchCount u [Ev.dequeue v dep, Ev.dupVisit v] = 0 ∧
    fetchTotal [Ev.dequeue v dep, Ev.dupVisit v] = 0 ∧
    dupTotal [Ev.dequeue v dep, Ev.dupVisit v] = 1 := by
  by_cases h : v = u <;>
    simp [h, visitCount, dupVisitCount, dequeueCount, fetchCount, fetchTotal,
      dupTotal, List.count_cons]

/-- Counts over the `[dequeue, visit]` block a fresh dequeue emits. -/
theorem counts_visit_block (u v : Str) (dep : Nat) :
    visitCount u [Ev.dequeue v dep, Ev.visit v] = (if v = u then 1 else 0) ∧
    dupVisitCount u [Ev.dequeue v dep, Ev.visit v] = 0 ∧
    dequeueCount u [Ev.dequeue v dep, Ev.visit v] = (if v = u then 1 else 0) ∧
    fetchCount u [Ev.dequeue v dep, Ev.visit v] = 0 ∧
    fetchTotal [Ev.dequeue v dep, Ev.visit v] = 0 ∧
    dupTotal [Ev.dequeue v dep, Ev.visit v] = 0 := by
  by_cases h : v = u <;>
    simp [h, visitCount, dupVisitCount, dequeueCount, fetchCount, fetchTotal,
      dupTotal, List.count_cons]

/-- Trace and counter bookkeeping of the batch-formation loop: dequeues
balance against visit/dupVisit events, no fetch events are emitted, and the
duplicate counter tracks duplicate events. -/
theorem formBatchGo_counts (cfg : CrawlConfig) (gate : Gate) (u : Str) :
    ∀ (q : List Frontier) (acc : FormAcc),
      dequeueCount u ((formBatchGo cfg gate q acc).2).trace + visitCount u acc.trace
          + dupVisitCount u acc.trace
        = dequeueCount u acc.trace + visitCount u ((formBatchGo cfg gate q acc).2).trace
          + dupVisitCount u ((formBatchGo cfg gate q acc).2).trace
      ∧ fetchCount u ((formBatchGo cfg gate q acc).2).trace = fetchCount u acc.trace
      ∧ fetchTotal ((formBatchGo cfg gate q acc).2).trace = fetchTotal acc.trace
      ∧ ((formBatchGo cfg gate q acc).2).duplicateCount + dupTotal acc.trace
        = acc.duplicateCount + dupTotal ((formBatchGo cfg gate q acc).2).trace := by
  intro q
  induction q with
  | nil => intro acc; simp [formBatchGo]
  | cons item rest ih =>
    intro acc
    simp only [formBatchGo]
    split
    · split
      · -- already visited: counted as a duplicate
        have H := ih ⟨acc.visited, acc.pages, acc.blockedCount,
          acc.duplicateCount + 1, acc.batch,
          acc.trace ++ [Ev.dequeue item.1 item.2, Ev.dupVisit item.1]⟩
        obtain ⟨B1, B2, B3, B4, B5, B6⟩ := counts_dup_block u item.1 item.2
        simp only [dequeueCount_append, visitCount_append, dupVisitCount_append,
          fetchCount_append, fetchTotal_append, dupTotal_append] at H ⊢
        omega
      · -- fresh dequeue
        split
        · -- dropped: past max depth
          have H := ih ⟨item.1 :: acc.visited, acc.pages, acc.blockedCount,
            acc.duplicateCount, acc.batch,
            acc.trace ++ [Ev.dequeue item.1 item.2, Ev.visit item.1]⟩
          obtain ⟨B1, B2, B3, B4, B5, B6⟩ := counts_visit_block u item.1 item.2
          simp only [dequeueCount_append, visitCount_append, dupVisitCount_append,
            fetchCount_append, fetchTotal_append, dupTotal_append] at H ⊢
          omega
        · split
          · -- blocked by robots
            have H := ih ⟨item.1 :: acc.visited,
              acc.pages ++ [⟨item.1, PStatus.blocked_robots, none, [], item.2, none⟩],
              acc.blockedCount + 1, acc.duplicateCount, acc.batch,
              acc.trace ++ [Ev.dequeue item.1 item.2, Ev.visit item.1]⟩
            obtain ⟨B1, B2, B3, B4, B5, B6⟩ := counts_visit_block u item.1 item.2
            simp only [dequeueCount_append, visitCount_append, dupVisitCount_append,
              fetchCount_append, fetchTotal_append, dupTotal_append] at H ⊢
            omega
          · split
            · -- blocked by pattern
              have H := ih ⟨item.1 :: acc.visited,
                acc.pages ++ [⟨item.1, PStatus.blocked_pattern, none, [], item.2, none⟩],
                acc.blockedCount + 1, acc.duplicateCount, acc.batch,
                acc.trace ++ [Ev.dequeue item.1 item.2, Ev.visit item.1]⟩
              obtain ⟨B1, B2, B3, B4, B5, B6⟩ := counts_visit_block u item.1 item.2
              simp only [dequeueCount_append, visitCount_append, dupVisitCount_append,
                fetchCount_append, fetchTotal_append, dupTotal_append] at H ⊢
              omega
            · -- added to the batch
              have H := ih ⟨item.1 :: acc.visited, acc.pages, acc.blockedCount,
                acc.duplicateCount, acc.batch ++ [item],
                acc.trace ++ [Ev.dequeue item.1 item.2, Ev.visit item.1]⟩
              obtain ⟨B1, B2, B3, B4, B5, B6⟩ := counts_visit_block u item.1 item.2
              simp only [dequeueCount_append, visitCount_append, dupVisitCount_append,
                fetchCount_append, fetchTotal_append, dupTotal_append] at H ⊢
              omega
    · simp

/-- Visited-set membership corresponds to `visit` events: a URL already
visited stays visited and gets no further `visit` event; a fresh URL gets
exactly one `visit` event iff it ends up in the visited set. -/
theorem formBatchGo_visited (cfg : CrawlConfig) (gate : Gate) (u : Str) :
    ∀ (q : List Frontier) (acc : FormAcc),
      (u ∈ acc.visited → u ∈ ((formBatchGo cfg gate q acc).2).visited ∧
        visitCount u ((formBatchGo cfg gate q acc).2).trace = visitCount u acc.trace)
      ∧ (u ∉ acc.visited →
          visitCount u ((formBatchGo cfg gate q acc).2).trace
            = visitCount u acc.trace
              + (if u ∈ ((formBatchGo cfg gate q acc).2).visited then 1 else 0)) := by
  intro q
  induction q with
  | nil =>
    intro acc
    refine ⟨fun h => ⟨h, rfl⟩, fun h => ?_⟩
    simp [formBatchGo, h]
  | cons item rest ih =>
    intro acc
    simp only [formBatchGo]
    split
    · split
      case isTrue hvis =>
        have H := ih ⟨acc.visited, acc.pages, acc.blockedCount,
          acc.duplicateCount + 1, acc.batch,
          acc.trace ++ [Ev.dequeue item.1 item.2, Ev.dupVisit item.1]⟩
        obtain ⟨B1, _, _, _, _, _⟩ := counts_dup_block u item.1 item.2
        simp only [visitCount_append] at H ⊢
        rw [B1] at H
        simpa using H
      case isFalse hvis =>
        have hvm : item.1 ∉ acc.visited := by
          intro hm
          exact hvis (by simpa [List.contains, List.elem_iff] using hm)
        obtain ⟨B1, _, _, _, _, _⟩ := counts_visit_block u item.1 item.2
        by_cases hu : item.1 = u
        · -- the freshly dequeued URL is `u`
          refine ⟨fun hmem => absurd hmem (hu ▸ hvm), fun _ => ?_⟩
          split
          · have H := (ih ⟨item.1 :: acc.visited, acc.pages, acc.blockedCount,
              acc.duplicateCount, acc.batch,
              acc.trace ++ [Ev.dequeue item.1 item.2, Ev.visit item.1]⟩).1 (by simp [hu])
            simp only [visitCount_append] at H
            rw [H.2, B1, if_pos hu, if_pos H.1]
          · split
            · have H := (ih ⟨item.1 :: acc.visited,
                acc.pages ++ [⟨item.1, PStatus.blocked_robots, none, [], item.2, none⟩],
                acc.blockedCount + 1, acc.duplicateCount, acc.batch,
                acc.trace ++ [Ev.dequeue item.1 item.2, Ev.visit item.1]⟩).1 (by simp [hu])
              simp only [visitCount_append] at H
              rw [H.2, B1, if_pos hu, if_pos H.1]
            · split
              · have H := (ih ⟨item.1 :: acc.visited,
                  acc.pages ++ [⟨item.1, PStatus.blocked_pattern, none, [], item.2, none⟩],
                  acc.blockedCount + 1, acc.duplicateCount, acc.batch,
                  acc.trace ++ [Ev.dequeue item.1 item.2, Ev.visit item.1]⟩).1 (by simp [hu])
                simp only [visitCount_append] at H
                rw [H.2, B1, if_pos hu, if_pos H.1]
              · have H := (ih ⟨item.1 :: acc.visited, acc.pages, acc.blockedCount,
                  acc.duplicateCount, acc.batch ++ [item],
                  acc.trace ++ [Ev.dequeue item.1 item.2, Ev.visit item.1]⟩).1 (by simp [hu])
                simp only [visitCount_append] at H
                rw [H.2, B1, if_pos hu, if_pos H.1]
        · -- another URL was dequeued: `u`'s status is unchanged
          have hins : ∀ (l : List Str), u ∈ item.1 :: l ↔ u ∈ l := by
            intro l; simp [Ne.symm hu]
          split
          · have H := ih ⟨item.1 :: acc.visited, acc.pages, acc.blockedCount,
              acc.duplicateCount, acc.batch,
              acc.trace ++ [Ev.dequeue item.1 item.2, Ev.visit item.1]⟩
            simp only [visitCount_append, B1, if_neg hu, hins, Nat.add_zero] at H
            exact H
          · split
            · have H := ih ⟨item.1 :: acc.visited,
                acc.pages ++ [⟨item.1, PStatus.blocked_robots, none, [], item.2, none⟩],
                acc.blockedCount + 1, acc.duplicateCount, acc.batch,
                acc.trace ++ [Ev.dequeue item.1 item.2, Ev.visit item.1]⟩
              simp only [visitCount_append, B1, if_neg hu, hins, Nat.add_zero] at H
              exact H
            · split
              · have H := ih ⟨item.1 :: acc.visited,
                  acc.pages ++ [⟨item.1, PStatus.blocked_pattern, none, [], item.2, none⟩],
                  acc.blockedCount + 1, acc.duplicateCount, acc.batch,
                  acc.trace ++ [Ev.dequeue item.1 item.2, Ev.visit item.1]⟩
                simp only [visitCount_append, B1, if_neg hu, hins, Nat.add_zero] at H
                exact H
              · have H := ih ⟨item.1 :: acc.visited, acc.pages, acc.blockedCount,
                  acc.duplicateCount, acc.batch ++ [item],
                  acc.trace ++ [Ev.dequeue item.1 item.2, Ev.visit item.1]⟩
                simp only [visitCount_append, B1, if_neg hu, hins, Nat.add_zero] at H
                exact H
    · exact ⟨fun h => ⟨h, rfl⟩, fun h => by simp [h]⟩

theorem batchUrlCount_append (b : List Frontier) (it : Frontier) (u : Str) :
    ((b ++ [it]).map Prod.fst).count u
      = (b.map Prod.fst).count u + (if it.1 = u then 1 else 0) := by
  by_cases h : it.1 = u <;> simp [h, List.count_append, List.count_cons]

/-- Each URL enters the batch at most as often as it is freshly visited:
batch growth is covered by `visit` events. -/
theorem formBatchGo_batchCount (cfg : CrawlConfig) (gate : Gate) (u : Str) :
    ∀ (q : List Frontier) (acc : FormAcc),
      (((formBatchGo cfg gate q acc).2).batch.map Prod.fst).count u
          + visitCount u acc.trace
        ≤ ((acc.batch.map Prod.fst).count u)
          + visitCount u ((formBatchGo cfg gate q acc).2).trace := by
  intro q
  induction q with
  | nil => intro acc; simp [formBatchGo]
  | cons item rest ih =>
    intro acc
    simp only [formBatchGo]
    split
    · split
      · have H := ih ⟨acc.visited, acc.pages, acc.blockedCount,
          acc.duplicateCount + 1, acc.batch,
          acc.trace ++ [Ev.dequeue item.1 item.2, Ev.dupVisit item.1]⟩
        obtain ⟨B1, _, _, _, _, _⟩ := counts_dup_block u item.1 item.2
        simp only [visitCount_append, B1] at H ⊢
        omega
      · split
        · have H := ih ⟨item.1 :: acc.visited, acc.pages, acc.blockedCount,
            acc.duplicateCount, acc.batch,
            acc.trace ++ [Ev.dequeue item.1 item.2, Ev.visit item.1]⟩
          obtain ⟨B1, _, _, _, _, _⟩ := counts_visit_block u item.1 item.2
          simp only [visitCount_append, B1] at H ⊢
          omega
        · split
          · have H := ih ⟨item.1 :: acc.visited,
              acc.pages ++ [⟨item.1, PStatus.blocked_robots, none, [], item.2, none⟩],
              acc.blockedCount + 1, acc.duplicateCount, acc.batch,
              acc.trace ++ [Ev.dequeue item.1 item.2, Ev.visit item.1]⟩
            obtain ⟨B1, _, _, _, _, _⟩ := counts_visit_block u item.1 item.2
            simp only [visitCount_append, B1] at H ⊢
            omega
          · split
            · have H := ih ⟨item.1 :: acc.visited,
                acc.pages ++ [⟨item.1, PStatus.blocked_pattern, none, [], item.2, none⟩],
                acc.blockedCount + 1, acc.duplicateCount, acc.batch,
                acc.trace ++ [Ev.dequeue item.1 item.2, Ev.visit item.1]⟩
              obtain ⟨B1, _, _, _, _, _⟩ := counts_visit_block u item.1 item.2
              simp only [visitCount_append, B1] at H ⊢
              omega
            · have H := ih ⟨item.1 :: acc.visited, acc.pages, acc.blockedCount,
                acc.duplicateCount, acc.batch ++ [item],
                acc.trace ++ [Ev.dequeue item.1 item.2, Ev.visit item.1]⟩
              obtain ⟨B1, _, _, _, _, _⟩ := counts_visit_block u item.1 item.2
              simp only [visitCount_append, B1, batchUrlCount_append] at H ⊢
              omega
    · simp

/-- An already-visited URL gains no batch entries. -/
theorem formBatchGo_batchCount_visited (cfg : CrawlConfig) (gate : Gate) (u : Str) :
    ∀ (q : List Frontier) (acc : FormAcc), u ∈ acc.visited →
      (((formBatchGo cfg gate q acc).2).batch.map Prod.fst).count u
        = (acc.batch.map Prod.fst).count u := by
  intro q
  induction q with
  | nil => intro acc _; simp [formBatchGo]
  | cons item rest ih =>
    intro acc hu
    simp only [formBatchGo]
    split
    · split
      case isTrue =>
        exact ih ⟨acc.visited, acc.pages, acc.blockedCount,
          acc.duplicateCount + 1, acc.batch,
          acc.trace ++ [Ev.dequeue item.1 item.2, Ev.dupVisit item.1]⟩ hu
      case isFalse hvis =>
        have hvm : item.1 ∉ acc.visited := by
          intro hm
          exact hvis (by simpa [List.contains, List.elem_iff] using hm)
        have hne : item.1 ≠ u := fun h => hvm (h ▸ hu)
        have hu1 : u ∈ item.1 :: acc.visited := List.mem_cons_of_mem _ hu
        split
        · exact ih ⟨item.1 :: acc.visited, acc.pages, acc.blockedCount,
            acc.duplicateCount, acc.batch,
            acc.trace ++ [Ev.dequeue item.1 item.2, Ev.visit item.1]⟩ hu1
        · split
          · exact ih ⟨item.1 :: acc.visited,
              acc.pages ++ [⟨item.1, PStatus.blocked_robots, none, [], item.2, none⟩],
              acc.blockedCount + 1, acc.duplicateCount, acc.batch,
              acc.trace ++ [Ev.dequeue item.1 item.2, Ev.visit item.1]⟩ hu1
          · split
            · exact ih ⟨item.1 :: acc.visited,
                acc.pages ++ [⟨item.1, PStatus.blocked_pattern, none, [], item.2, none⟩],
                acc.blockedCount + 1, acc.duplicateCount, acc.batch,
                acc.trace ++ [Ev.dequeue item.1 item.2, Ev.visit item.1]⟩ hu1
            · have H := ih ⟨item.1 :: acc.visited, acc.pages, acc.blockedCount,
                acc.duplicateCount, acc.batch ++ [item],
                acc.trace ++ [Ev.dequeue item.1 item.2, Ev.visit item.1]⟩ hu1
              rw [H, batchUrlCount_append, if_neg hne, Nat.add_zero]
    · rfl

/-- Page-list length bookkeeping: the `pages + batch` total never exceeds
the larger of its initial value and the page budget, and `pages` only
grows. -/
theorem formBatchGo_pages (cfg : CrawlConfig) (gate : Gate) :
    ∀ (q : List Frontier) (acc : FormAcc),
      (((formBatchGo cfg gate q acc).2).pages.length
            + ((formBatchGo cfg gate q acc).2).batch.length
          ≤ acc.pages.length + acc.batch.length ∨
        ((formBatchGo cfg gate q acc).2).pages.length
            + ((formBatchGo cfg gate q acc).2).batch.length
          ≤ cfg.maxPages)
      ∧ acc.pages.length ≤ ((formBatchGo cfg gate q acc).2).pages.length := by
  intro q
  induction q with
  | nil => intro acc; simp [formBatchGo]
  | cons item rest ih =>
    intro acc
    simp only [formBatchGo]
    split
    case isTrue hg =>
      have hsum : acc.pages.length + acc.batch.length < cfg.maxPages := hg.2
      split
      · have H := ih ⟨acc.visited, acc.pages, acc.blockedCount,
          acc.duplicateCount + 1, acc.batch,
          acc.trace ++ [Ev.dequeue item.1 item.2, Ev.dupVisit item.1]⟩
        simpa using H
      · split
        · have H := ih ⟨item.1 :: acc.visited, acc.pages, acc.blockedCount,
            acc.duplicateCount, acc.batch,
            acc.trace ++ [Ev.dequeue item.1 item.2, Ev.visit item.1]⟩
          simpa using H
        · split
          · have H := ih ⟨item.1 :: acc.visited,
              acc.pages ++ [⟨item.1, PStatus.blocked_robots, none, [], item.2, none⟩],
              acc.blockedCount + 1, acc.duplicateCount, acc.batch,
              acc.trace ++ [Ev.dequeue item.1 item.2, Ev.visit item.1]⟩
            simp only [List.length_append, List.length_cons, List.length_nil] at H ⊢
            omega
          · split
            · have H := ih ⟨item.1 :: acc.visited,
                acc.pages ++ [⟨item.1, PStatus.blocked_pattern, none, [], item.2, none⟩],
                acc.blockedCount + 1, acc.duplicateCount, acc.batch,
                acc.trace ++ [Ev.dequeue item.1 item.2, Ev.visit item.1]⟩
              simp only [List.length_append, List.length_cons, List.length_nil] at H ⊢
              omega
            · have H := ih ⟨item.1 :: acc.visited, acc.pages, acc.blockedCount,
                acc.duplicateCount, acc.batch ++ [item],
                acc.trace ++ [Ev.dequeue item.1 item.2, Ev.visit item.1]⟩
              simp only [List.length_append, List.length_cons, List.length_nil] at H ⊢
              omega
    case isFalse => simp

/-- Once a URL is visited, the formation loop appends no page for it. -/
theorem formBatchGo_pages_visited (cfg : CrawlConfig) (gate : Gate) (u : Str) :
    ∀ (q : List Frontier) (acc : FormAcc), u ∈ acc.visited →
      ∀ p ∈ ((formBatchGo cfg gate q acc).2).pages, p ∈ acc.pages ∨ p.url ≠ u := by
  intro q
  induction q with
  | nil => intro acc _ p hp; exact Or.inl (by simpa [formBatchGo] using hp)
  | cons item rest ih =>
    intro acc hu
    simp only [formBatchGo]
    split
    · split
      case isTrue =>
        exact ih ⟨acc.visited, acc.pages, acc.blockedCount,
          acc.duplicateCount + 1, acc.batch,
          acc.trace ++ [Ev.dequeue item.1 item.2, Ev.dupVisit item.1]⟩ hu
      case isFalse hvis =>
        have hvm : item.1 ∉ acc.visited := by
          intro hm
          exact hvis (by simpa [List.contains, List.elem_iff] using hm)
        have hne : item.1 ≠ u := fun h => hvm (h ▸ hu)
        have hu1 : u ∈ item.1 :: acc.visited := List.mem_cons_of_mem _ hu
        split
        · exact ih ⟨item.1 :: acc.visited, acc.pages, acc.blockedCount,
            acc.duplicateCount, acc.batch,
            acc.trace ++ [Ev.dequeue item.1 item.2, Ev.visit item.1]⟩ hu1
        · split
          · intro p hp
            have H := ih ⟨item.1 :: acc.visited,
              acc.pages ++ [⟨item.1, PStatus.blocked_robots, none, [], item.2, none⟩],
              acc.blockedCount + 1, acc.duplicateCount, acc.batch,
              acc.trace ++ [Ev.dequeue item.1 item.2, Ev.visit item.1]⟩ hu1 p hp
            rcases H with h | h
            · rcases List.mem_append.mp h with h2 | h2
              · exact Or.inl h2
              · simp only [List.mem_singleton] at h2
                subst h2
                exact Or.inr hne
            · exact Or.inr h
          · split
            · intro p hp
              have H := ih ⟨item.1 :: acc.visited,
                acc.pages ++ [⟨item.1, PStatus.blocked_pattern, none, [], item.2, none⟩],
                acc.blockedCount + 1, acc.duplicateCount, acc.batch,
                acc.trace ++ [Ev.dequeue item.1 item.2, Ev.visit item.1]⟩ hu1 p hp
              rcases H with h | h
              · rcases List.mem_append.mp h with h2 | h2
                · exact Or.inl h2
                · simp only [List.mem_singleton] at h2
                  subst h2
                  exact Or.inr hne
              · exact Or.inr h
            · exact ih ⟨item.1 :: acc.visited, acc.pages, acc.blockedCount,
                acc.duplicateCount, acc.batch ++ [item],
                acc.trace ++ [Ev.dequeue item.1 item.2, Ev.visit item.1]⟩ hu1
    · intro p hp; exact Or.inl hp

/-- The queue only shrinks during batch formation. -/
theorem formBatchGo_queueLen (cfg : CrawlConfig) (gate : Gate) :
    ∀ (q : List Frontier) (acc : FormAcc),
      ((formBatchGo cfg gate q acc).1).length ≤ q.length := by
  intro q
  induction q with
  | nil => intro acc; simp [formBatchGo]
  | cons item rest ih =>
    intro acc
    simp only [formBatchGo]
    split
    · split
      · exact Nat.le_succ_of_le (ih _)
      · split
        · exact Nat.le_succ_of_le (ih _)
        · split
          · exact Nat.le_succ_of_le (ih _)
          · split
            · exact Nat.le_succ_of_le (ih _)
            · exact Nat.le_succ_of_le (ih _)
    · exact Nat.le_refl _

/-- When the inner loop guard holds on a nonempty queue, at least the head
is consumed. -/
theorem formBatchGo_progress (cfg : CrawlConfig) (gate : Gate)
    (item : Frontier) (rest : List Frontier) (acc : FormAcc)
    (h1 : (acc.batch.length : Int) < cfg.concurrency)
    (h2 : acc.pages.length + acc.batch.length < cfg.maxPages) :
    ((formBatchGo cfg gate (item :: rest) acc).1).length < (item :: rest).length := by
  simp only [formBatchGo, if_pos (And.intro h1 h2)]
  split
  · exact Nat.lt_succ_of_le (formBatchGo_queueLen cfg gate _ _)
  · split
    · exact Nat.lt_succ_of_le (formBatchGo_queueLen cfg gate _ _)
    · split
      · exact Nat.lt_succ_of_le (formBatchGo_queueLen cfg gate _ _)
      · split
        · exact Nat.lt_succ_of_le (formBatchGo_queueLen cfg gate _ _)
        · exact Nat.lt_succ_of_le (formBatchGo_queueLen cfg gate _ _)

/-- The mechanism of the silent depth drop: a fresh head entry past
`maxDepth` is inserted into the visited set before the depth check, then
dropped — it never reaches the batch and produces no PageResult. -/
theorem formBatchGo_dropdepth (cfg : CrawlConfig) (gate : Gate)
    (u : Str) (d : Nat) (rest : List Frontier) (acc : FormAcc)
    (h1 : (acc.batch.length : Int) < cfg.concurrency)
    (h2 : acc.pages.length + acc.batch.length < cfg.maxPages)
    (hfresh : u ∉ acc.visited)
    (hdepth : (d : Int) > cfg.maxDepth) :
    u ∈ ((formBatchGo cfg gate ((u, d) :: rest) acc).2).visited
    ∧ (((formBatchGo cfg gate ((u, d) :: rest) acc).2).batch.map Prod.fst).count u
        = (acc.batch.map Prod.fst).count u
    ∧ ∀ p ∈ ((formBatchGo cfg gate ((u, d) :: rest) acc).2).pages,
        p ∈ acc.pages ∨ p.url ≠ u := by
  have hcont : ¬ (acc.visited.contains (u, d).1 = true) := by
    intro hc
    exact hfresh (by simpa [List.contains, List.elem_iff] using hc)
  simp only [formBatchGo, if_pos (And.intro h1 h2), if_neg hcont, if_pos hdepth]
  have hu1 : u ∈ (u, d).1 :: acc.visited := List.mem_cons_self _ _
  refine ⟨((formBatchGo_visited cfg gate u rest _).1 hu1).1,
    formBatchGo_batchCount_visited cfg gate u rest _ hu1,
    formBatchGo_pages_visited cfg gate u rest _ hu1⟩

/-! ## Batch-processing lemmas -/

theorem counts_fetch_block (u v : Str) :
    fetchCount u [Ev.fetchEv v] = (if v = u then 1 else 0) ∧
    visitCount u [Ev.fetchEv v] = 0 ∧
    dequeueCount u [Ev.fetchEv v] = 0 ∧
    dupVisitCount u [Ev.fetchEv v] = 0 ∧
    fetchTotal [Ev.fetchEv v] = 1 ∧
    dupTotal [Ev.fetchEv v] = 0 := by
  by_cases h : v = u <;>
    simp [h, visitCount, dupVisitCount, dequeueCount, fetchCount, fetchTotal,
      dupTotal, List.count_cons]

theorem counts_fetchdup_block (u v : Str) :
    fetchCount u [Ev.fetchEv v, Ev.dupCanon v] = (if v = u then 1 else 0) ∧
    visitCount u [Ev.fetchEv v, Ev.dupCanon v] = 0 ∧
    dequeueCount u [Ev.fetchEv v, Ev.dupCanon v] = 0 ∧
    dupVisitCount u [Ev.fetchEv v, Ev.dupCanon v] = 0 ∧
    fetchTotal [Ev.fetchEv v, Ev.dupCanon v] = 1 ∧
    dupTotal [Ev.fetchEv v, Ev.dupCanon v] = 1 := by
  by_cases h : v = u <;>
    simp [h, visitCount, dupVisitCount, dequeueCount, fetchCount, fetchTotal,
      dupTotal, List.count_cons]

/-- Every processed batch item appends exactly one PageResult carrying the
item's URL, emits one fetch event (plus possibly a canonical-duplicate
event), and the duplicate counter tracks the duplicate events. -/
theorem processItem_shape (net : Net) (origin : Str) (visited : List Str)
    (st : ProcSt) (item : Frontier) :
    ∃ pg : Page,
      (processItem net origin visited st item).1.pages = st.pages ++ [pg]
      ∧ pg.url = item.1
      ∧ ((processItem net origin visited st item).2 = [Ev.fetchEv item.1] ∨
         (processItem net origin visited st item).2
           = [Ev.fetchEv item.1, Ev.dupCanon item.1])
      ∧ (processItem net origin visited st item).1.duplicateCount
          = st.duplicateCount
            + dupTotal (processItem net origin visited st item).2 := by
  simp only [processItem]
  cases net item.1 with
  | fetchErr ab msg =>
    exact ⟨_, rfl, rfl, Or.inl rfl, by simp [dupTotal]⟩
  | resp status ct body =>
    simp only []
    split
    · exact ⟨_, rfl, rfl, Or.inl rfl, by simp [dupTotal]⟩
    · split
      · exact ⟨_, rfl, rfl, Or.inl rfl, by simp [dupTotal]⟩
      · split
        · split
          · refine ⟨_, rfl, rfl, Or.inr rfl, ?_⟩
            simp [dupTotal]
          · exact ⟨_, rfl, rfl, Or.inl rfl, by simp [dupTotal]⟩
        · exact ⟨_, rfl, rfl, Or.inl rfl, by simp [dupTotal]⟩

theorem processBatch_pages_len (net : Net) (origin : Str) (visited : List Str) :
    ∀ (batch : List Frontier) (st : ProcSt),
      (processBatch net origin visited batch st).1.pages.length
        = st.pages.length + batch.length := by
  intro batch
  induction batch with
  | nil => intro st; simp [processBatch]
  | cons item items ih =>
    intro st
    obtain ⟨pg, hp, _, _, _⟩ := processItem_shape net origin visited st item
    simp only [processBatch]
    rw [ih, hp]
    simp only [List.length_append, List.length_cons, List.length_nil]
    omega

/-- Trace counts of batch processing: one fetch event per batch entry (so
`u` is fetched as often as it occurs in the batch), no dequeue/visit events,
and the duplicate counter tracks canonical-duplicate events. -/
theorem processBatch_trace (net : Net) (origin : Str) (visited : List Str)
    (u : Str) :
    ∀ (batch : List Frontier) (st : ProcSt),
      fetchCount u (processBatch net origin visited batch st).2
          = (batch.map Prod.fst).count u
      ∧ visitCount u (processBatch net origin visited batch st).2 = 0
      ∧ dequeueCount u (processBatch net origin visited batch st).2 = 0
      ∧ dupVisitCount u (processBatch net origin visited batch st).2 = 0
      ∧ fetchTotal (processBatch net origin visited batch st).2 = batch.length
      ∧ (processBatch net origin visited batch st).1.duplicateCount
          = st.duplicateCount
            + dupTotal (processBatch net origin visited batch st).2 := by
  intro batch
  induction batch with
  | nil =>
    intro st
    simp [processBatch, fetchCount, visitCount, dequeueCount, dupVisitCount,
      fetchTotal, dupTotal]
  | cons item items ih =>
    intro st
    obtain ⟨pg, hp, hurl, htr, hdup⟩ := processItem_shape net origin visited st item
    obtain ⟨I1, I2, I3, I4, I5, I6⟩ := ih (processItem net origin visited st item).1
    simp only [processBatch, fetchCount_append, visitCount_append,
      dequeueCount_append, dupVisitCount_append, fetchTotal_append,
      dupTotal_append, List.map_cons, List.length_cons]
    have hcnt : ((item.1 :: items.map Prod.fst).count u)
        = (items.map Prod.fst).count u + (if item.1 = u then 1 else 0) := by
      by_cases h : item.1 = u <;> simp [h, List.count_cons]
    rcases htr with h | h
    · obtain ⟨B1, B2, B3, B4, B5, B6⟩ := counts_fetch_block u item.1
      rw [h] at hdup ⊢
      refine ⟨?_, ?_, ?_, ?_, ?_, ?_⟩ <;> omega
    · obtain ⟨B1, B2, B3, B4, B5, B6⟩ := counts_fetchdup_block u item.1
      rw [h] at hdup ⊢
      refine ⟨?_, ?_, ?_, ?_, ?_, ?_⟩ <;> omega

/-- Every page appended by batch processing carries a batch URL. -/
theorem processBatch_pages_mem (net : Net) (origin : Str) (visited : List Str) :
    ∀ (batch : List Frontier) (st : ProcSt),
      ∀ p ∈ (processBatch net origin visited batch st).1.pages,
        p ∈ st.pages ∨ p.url ∈ batch.map Prod.fst := by
  intro batch
  induction batch with
  | nil => intro st p hp; exact Or.inl (by simpa [processBatch] using hp)
  | cons item items ih =>
    intro st p hp
    obtain ⟨pg, hpg, hurl, _, _⟩ := processItem_shape net origin visited st item
    simp only [processBatch] at hp
    rcases ih (processItem net origin visited st item).1 p hp with h | h
    · rw [hpg] at h
      rcases List.mem_append.mp h with h2 | h2
      · exact Or.inl h2
      · simp only [List.mem_singleton] at h2
        subst h2
        exact Or.inr (by simp [hurl])
    · exact Or.inr (by simp [h])

/-! ## Crawl-step lemmas -/

theorem visitCount_nil (u : Str) : visitCount u [] = 0 := rfl
theorem fetchCount_nil (u : Str) : fetchCount u [] = 0 := rfl
theorem dupVisitCount_nil (u : Str) : dupVisitCount u [] = 0 := rfl
theorem dequeueCount_nil (u : Str) : dequeueCount u [] = 0 := rfl
theorem fetchTotal_nil : fetchTotal [] = 0 := rfl
theorem dupTotal_nil : dupTotal [] = 0 := rfl

/-- A trace of the shape the crawl step emits — a formation segment without
fetches followed by a processing segment without visits whose fetches are
covered by the formation's visits — satisfies `FetchAfterVisit`. -/
theorem fetchAfterVisit_form_proc {u : Str} {a b : List Ev}
    (hfa : fetchCount u a = 0)
    (hfb : fetchCount u b ≤ visitCount u a)
    (_hvb : visitCount u b = 0) : FetchAfterVisit u (a ++ b) := by
  intro n
  rw [List.take_append_eq_append_take, fetchCount_append, visitCount_append]
  by_cases hn : n ≤ a.length
  · have hz : n - a.length = 0 := Nat.sub_eq_zero_of_le hn
    have h1 : fetchCount u (a.take n) = 0 :=
      Nat.le_zero.mp (hfa ▸ fetchCount_le_take u a n)
    rw [hz, List.take_zero, h1, fetchCount_nil]
    omega
  · have hta : a.take n = a := List.take_of_length_le (Nat.le_of_not_le hn)
    have h2 : fetchCount u (b.take (n - a.length)) ≤ fetchCount u b :=
      fetchCount_le_take u b _
    rw [hta, hfa]
    omega

/-- Dequeue/duplicate balance and the duplicates counter, per step. -/
theorem crawlStep_counts (cfg : CrawlConfig) (gate : Gate) (net : Net)
    (origin : Str) (st : CrawlSt) (u : Str) :
    dequeueCount u (crawlStep cfg gate net origin st).2
      = visitCount u (crawlStep cfg gate net origin st).2
        + dupVisitCount u (crawlStep cfg gate net origin st).2
    ∧ (crawlStep cfg gate net origin st).1.duplicateCount
      = st.duplicateCount + dupTotal (crawlStep cfg gate net origin st).2 := by
  obtain ⟨F1, F2, F3, F4⟩ := formBatchGo_counts cfg gate u st.queue
    ⟨st.visited, st.pages, st.blockedCount, st.duplicateCount, [], []⟩
  simp only [visitCount_nil, fetchCount_nil, dupVisitCount_nil,
    dequeueCount_nil, fetchTotal_nil, dupTotal_nil, Nat.add_zero] at F1 F2 F3 F4
  simp only [crawlStep]
  split
  · dsimp only
    exact ⟨by omega, by omega⟩
  · obtain ⟨P1, P2, P3, P4, P5, P6⟩ := processBatch_trace net origin
      ((formBatchGo cfg gate st.queue
        ⟨st.visited, st.pages, st.blockedCount, st.duplicateCount, [], []⟩).2).visited u
      ((formBatchGo cfg gate st.queue
        ⟨st.visited, st.pages, st.blockedCount, st.duplicateCount, [], []⟩).2).batch
      ⟨st.canonicalSeen,
       (formBatchGo cfg gate st.queue
         ⟨st.visited, st.pages, st.blockedCount, st.duplicateCount, [], []⟩).1,
       ((formBatchGo cfg gate st.queue
         ⟨st.visited, st.pages, st.blockedCount, st.duplicateCount, [], []⟩).2).pages,
       st.errorCount,
       ((formBatchGo cfg gate st.queue
         ⟨st.visited, st.pages, st.blockedCount, st.duplicateCount, [], []⟩).2).duplicateCount⟩
    dsimp only
    simp only [dequeueCount_append, visitCount_append, dupVisitCount_append,
      dupTotal_append]
    dsimp only at P1 P2 P3 P4 P5 P6
    exact ⟨by omega, by omega⟩

/-- Visited-set membership against visit events, per step: a visited URL
stays visited and is never re-inserted; a fresh URL is inserted at most
once, exactly when it ends up visited. -/
theorem crawlStep_visited (cfg : CrawlConfig) (gate : Gate) (net : Net)
    (origin : Str) (st : CrawlSt) (u : Str) :
    (u ∈ st.visited → u ∈ (crawlStep cfg gate net origin st).1.visited ∧
      visitCount u (crawlStep cfg gate net origin st).2 = 0)
    ∧ (u ∉ st.visited →
        visitCount u (crawlStep cfg gate net origin st).2 ≤ 1 ∧
        (u ∈ (crawlStep cfg gate net origin st).1.visited ↔
          visitCount u (crawlStep cfg gate net origin st).2 = 1)) := by
  obtain ⟨V1, V2⟩ := formBatchGo_visited cfg gate u st.queue
    ⟨st.visited, st.pages, st.blockedCount, st.duplicateCount, [], []⟩
  dsimp only at V1 V2
  simp only [visitCount_nil] at V1 V2
  simp only [crawlStep]
  split
  · dsimp only
    constructor
    · intro h
      exact ⟨(V1 h).1, (V1 h).2⟩
    · intro h
      have h2 := V2 h
      constructor
      · rw [h2]; split <;> simp
      · rw [h2]; split <;> simp_all
  · obtain ⟨P1, P2, P3, P4, P5, P6⟩ := processBatch_trace net origin
      ((formBatchGo cfg gate st.queue
        ⟨st.visited, st.pages, st.blockedCount, st.duplicateCount, [], []⟩).2).visited u
      ((formBatchGo cfg gate st.queue
        ⟨st.visited, st.pages, st.blockedCount, st.duplicateCount, [], []⟩).2).batch
      ⟨st.canonicalSeen,
       (formBatchGo cfg gate st.queue
         ⟨st.visited, st.pages, st.blockedCount, st.duplicateCount, [], []⟩).1,
       ((formBatchGo cfg gate st.queue
         ⟨st.visited, st.pages, st.blockedCount, st.duplicateCount, [], []⟩).2).pages,
       st.errorCount,
       ((formBatchGo cfg gate st.queue
         ⟨st.visited, st.pages, st.blockedCount, st.duplicateCount, [], []⟩).2).duplicateCount⟩
    dsimp only
    simp only [visitCount_append, P2, Nat.add_zero]
    constructor
    · intro h
      exact ⟨(V1 h).1, (V1 h).2⟩
    · intro h
      have h2 := V2 h
      constructor
      · rw [h2]; split <;> simp
      · rw [h2]; split <;> simp_all


/-- A step's trace fetches a URL only after inserting it into the visited
set. -/
theorem crawlStep_good (cfg : CrawlConfig) (gate : Gate) (net : Net)
    (origin : Str) (st : CrawlSt) (u : Str) :
    FetchAfterVisit u (crawlStep cfg gate net origin st).2 := by
  obtain ⟨F1, F2, F3, F4⟩ := formBatchGo_counts cfg gate u st.queue
    ⟨st.visited, st.pages, st.blockedCount, st.duplicateCount, [], []⟩
  have FB := formBatchGo_batchCount cfg gate u st.queue
    ⟨st.visited, st.pages, st.blockedCount, st.duplicateCount, [], []⟩
  dsimp only at F2 FB
  simp only [visitCount_nil, fetchCount_nil, Nat.add_zero, Nat.zero_add,
    List.map_nil, List.count_nil] at F2 FB
  simp only [crawlStep]
  split
  · dsimp only
    exact fetchAfterVisit_of_no_fetch F2
  · obtain ⟨P1, P2, P3, P4, P5, P6⟩ := processBatch_trace net origin
      ((formBatchGo cfg gate st.queue
        ⟨st.visited, st.pages, st.blockedCount, st.duplicateCount, [], []⟩).2).visited u
      ((formBatchGo cfg gate st.queue
        ⟨st.visited, st.pages, st.blockedCount, st.duplicateCount, [], []⟩).2).batch
      ⟨st.canonicalSeen,
       (formBatchGo cfg gate st.queue
         ⟨st.visited, st.pages, st.blockedCount, st.duplicateCount, [], []⟩).1,
       ((formBatchGo cfg gate st.queue
         ⟨st.visited, st.pages, st.blockedCount, st.duplicateCount, [], []⟩).2).pages,
       st.errorCount,
       ((formBatchGo cfg gate st.queue
         ⟨st.visited, st.pages, st.blockedCount, st.duplicateCount, [], []⟩).2).duplicateCount⟩
    dsimp only
    refine fetchAfterVisit_form_proc F2 ?_ P2
    rw [P1]
    exact FB

/-- Page-budget accounting per step: pages only grow, the total stays within
the larger of its previous value and `maxPages`, and every fetch event is
matched by a new page. -/
theorem crawlStep_pages (cfg : CrawlConfig) (gate : Gate) (net : Net)
    (origin : Str) (st : CrawlSt) :
    st.pages.length ≤ (crawlStep cfg gate net origin st).1.pages.length
    ∧ ((crawlStep cfg gate net origin st).1.pages.length ≤ st.pages.length ∨
       (crawlStep cfg gate net origin st).1.pages.length ≤ cfg.maxPages)
    ∧ st.pages.length + fetchTotal (crawlStep cfg gate net origin st).2
        ≤ (crawlStep cfg gate net origin st).1.pages.length := by
  obtain ⟨F1, F2, F3, F4⟩ := formBatchGo_counts cfg gate (str "") st.queue
    ⟨st.visited, st.pages, st.blockedCount, st.duplicateCount, [], []⟩
  obtain ⟨D1, D2⟩ := formBatchGo_pages cfg gate st.queue
    ⟨st.visited, st.pages, st.blockedCount, st.duplicateCount, [], []⟩
  dsimp only at F3 D1 D2
  simp only [fetchTotal_nil, List.length_nil, Nat.add_zero] at F3 D1 D2
  simp only [crawlStep]
  split
  case isTrue hb =>
    dsimp only
    exact ⟨D2, by omega, by omega⟩
  case isFalse hb =>
    obtain ⟨P1, P2, P3, P4, P5, P6⟩ := processBatch_trace net origin
      ((formBatchGo cfg gate st.queue
        ⟨st.visited, st.pages, st.blockedCount, st.duplicateCount, [], []⟩).2).visited (str "")
      ((formBatchGo cfg gate st.queue
        ⟨st.visited, st.pages, st.blockedCount, st.duplicateCount, [], []⟩).2).batch
      ⟨st.canonicalSeen,
       (formBatchGo cfg gate st.queue
         ⟨st.visited, st.pages, st.blockedCount, st.duplicateCount, [], []⟩).1,
       ((formBatchGo cfg gate st.queue
         ⟨st.visited, st.pages, st.blockedCount, st.duplicateCount, [], []⟩).2).pages,
       st.errorCount,
       ((formBatchGo cfg gate st.queue
         ⟨st.visited, st.pages, st.blockedCount, st.duplicateCount, [], []⟩).2).duplicateCount⟩
    have hlen := processBatch_pages_len net origin
      ((formBatchGo cfg gate st.queue
        ⟨st.visited, st.pages, st.blockedCount, st.duplicateCount, [], []⟩).2).visited
      ((formBatchGo cfg gate st.queue
        ⟨st.visited, st.pages, st.blockedCount, st.duplicateCount, [], []⟩).2).batch
      ⟨st.canonicalSeen,
       (formBatchGo cfg gate st.queue
         ⟨st.visited, st.pages, st.blockedCount, st.duplicateCount, [], []⟩).1,
       ((formBatchGo cfg gate st.queue
         ⟨st.visited, st.pages, st.blockedCount, st.duplicateCount, [], []⟩).2).pages,
       st.errorCount,
       ((formBatchGo cfg gate st.queue
         ⟨st.visited, st.pages, st.blockedCount, st.duplicateCount, [], []⟩).2).duplicateCount⟩
    dsimp only
    dsimp only at hlen
    simp only [fetchTotal_append]
    exact ⟨by omega, by omega, by omega⟩

/-- Once a URL is visited, a step appends no page for it and never fetches
it. -/
theorem crawlStep_visited_frozen (cfg : CrawlConfig) (gate : Gate) (net : Net)
    (origin : Str) (st : CrawlSt) (u : Str) (hu : u ∈ st.visited) :
    (∀ p ∈ (crawlStep cfg gate net origin st).1.pages,
      p ∈ st.pages ∨ p.url ≠ u)
    ∧ fetchCount u (crawlStep cfg gate net origin st).2 = 0 := by
  obtain ⟨F1, F2, F3, F4⟩ := formBatchGo_counts cfg gate u st.queue
    ⟨st.visited, st.pages, st.blockedCount, st.duplicateCount, [], []⟩
  have FPV := formBatchGo_pages_visited cfg gate u st.queue
    ⟨st.visited, st.pages, st.blockedCount, st.duplicateCount, [], []⟩ hu
  have FBV := formBatchGo_batchCount_visited cfg gate u st.queue
    ⟨st.visited, st.pages, st.blockedCount, st.duplicateCount, [], []⟩ hu
  dsimp only at F2 FPV FBV
  simp only [fetchCount_nil, List.map_nil, List.count_nil] at F2 FBV
  simp only [crawlStep]
  split
  · dsimp only
    exact ⟨FPV, F2⟩
  · obtain ⟨P1, P2, P3, P4, P5, P6⟩ := processBatch_trace net origin
      ((formBatchGo cfg gate st.queue
        ⟨st.visited, st.pages, st.blockedCount, st.duplicateCount, [], []⟩).2).visited u
      ((formBatchGo cfg gate st.queue
        ⟨st.visited, st.pages, st.blockedCount, st.duplicateCount, [], []⟩).2).batch
      ⟨st.canonicalSeen,
       (formBatchGo cfg gate st.queue
         ⟨st.visited, st.pages, st.blockedCount, st.duplicateCount, [], []⟩).1,
       ((formBatchGo cfg gate st.queue
         ⟨st.visited, st.pages, st.blockedCount, st.duplicateCount, [], []⟩).2).pages,
       st.errorCount,
       ((formBatchGo cfg gate st.queue
         ⟨st.visited, st.pages, st.blockedCount, st.duplicateCount, [], []⟩).2).duplicateCount⟩
    have hmem := processBatch_pages_mem net origin
      ((formBatchGo cfg gate st.queue
        ⟨st.visited, st.pages, st.blockedCount, st.duplicateCount, [], []⟩).2).visited
      ((formBatchGo cfg gate st.queue
        ⟨st.visited, st.pages, st.blockedCount, st.duplicateCount, [], []⟩).2).batch
      ⟨st.canonicalSeen,
       (formBatchGo cfg gate st.queue
         ⟨st.visited, st.pages, st.blockedCount, st.duplicateCount, [], []⟩).1,
       ((formBatchGo cfg gate st.queue
         ⟨st.visited, st.pages, st.blockedCount, st.duplicateCount, [], []⟩).2).pages,
       st.errorCount,
       ((formBatchGo cfg gate st.queue
         ⟨st.visited, st.pages, st.blockedCount, st.duplicateCount, [], []⟩).2).duplicateCount⟩
    have hnb : u ∉ ((formBatchGo cfg gate st.queue
        ⟨st.visited, st.pages, st.blockedCount, st.duplicateCount, [], []⟩).2).batch.map
          Prod.fst := by
      intro hmem2
      have := List.count_pos_iff.mpr hmem2
      omega
    dsimp only
    dsimp only at hmem
    simp only [fetchCount_append]
    constructor
    · intro p hp
      rcases hmem p hp with h | h
      · exact FPV p h
      · exact Or.inr (fun hequ => hnb (hequ ▸ h))
    · have hzero : List.count u (List.map Prod.fst ((formBatchGo cfg gate st.queue
          ⟨st.visited, st.pages, st.blockedCount, st.duplicateCount, [], []⟩).2).batch) = 0 :=
        FBV
      omega

/-- A step under the loop guard with positive concurrency makes progress:
either the page list grows, or it stays put and the queue shrinks. -/
theorem crawlStep_progress (cfg : CrawlConfig) (gate : Gate) (net : Net)
    (origin : Str) (st : CrawlSt)
    (hdone : isDone cfg st = false) (hc : 1 ≤ cfg.concurrency) :
    st.pages.length < (crawlStep cfg gate net origin st).1.pages.length ∨
    ((crawlStep cfg gate net origin st).1.pages.length = st.pages.length ∧
      (crawlStep cfg gate net origin st).1.queue.length < st.queue.length) := by
  have hq : st.queue ≠ [] := by
    intro h
    simp [isDone, h] at hdone
  have hp : st.pages.length < cfg.maxPages := by
    simp only [isDone, Bool.or_eq_false_iff, decide_eq_false_iff_not] at hdone
    omega
  obtain ⟨item, rest, hqe⟩ : ∃ it r, st.queue = it :: r := by
    cases hqc : st.queue with
    | nil => exact absurd hqc hq
    | cons a b => exact ⟨a, b, rfl⟩
  have hprog := formBatchGo_progress cfg gate item rest
    ⟨st.visited, st.pages, st.blockedCount, st.duplicateCount, [], []⟩
    (by simpa using hc) (by simpa using hp)
  obtain ⟨D1, D2⟩ := formBatchGo_pages cfg gate st.queue
    ⟨st.visited, st.pages, st.blockedCount, st.duplicateCount, [], []⟩
  dsimp only at D2
  rw [← hqe] at hprog
  simp only [crawlStep]
  split
  case isTrue hb =>
    dsimp only
    rcases Nat.lt_or_ge st.pages.length
      ((formBatchGo cfg gate st.queue
        ⟨st.visited, st.pages, st.blockedCount, st.duplicateCount, [], []⟩).2).pages.length
      with h | h
    · exact Or.inl h
    · refine Or.inr ⟨by omega, ?_⟩
      rw [hqe] at hprog ⊢
      simpa [hqe] using hprog
  case isFalse hb =>
    have hlen := processBatch_pages_len net origin
      ((formBatchGo cfg gate st.queue
        ⟨st.visited, st.pages, st.blockedCount, st.duplicateCount, [], []⟩).2).visited
      ((formBatchGo cfg gate st.queue
        ⟨st.visited, st.pages, st.blockedCount, st.duplicateCount, [], []⟩).2).batch
      ⟨st.canonicalSeen,
       (formBatchGo cfg gate st.queue
         ⟨st.visited, st.pages, st.blockedCount, st.duplicateCount, [], []⟩).1,
       ((formBatchGo cfg gate st.queue
         ⟨st.visited, st.pages, st.blockedCount, st.duplicateCount, [], []⟩).2).pages,
       st.errorCount,
       ((formBatchGo cfg gate st.queue
         ⟨st.visited, st.pages, st.blockedCount, st.duplicateCount, [], []⟩).2).duplicateCount⟩
    have hbne : ((formBatchGo cfg gate st.queue
        ⟨st.visited, st.pages, st.blockedCount, st.duplicateCount, [], []⟩).2).batch ≠ [] := by
      intro h
      simp [h] at hb
    have hbpos : 1 ≤ ((formBatchGo cfg gate st.queue
        ⟨st.visited, st.pages, st.blockedCount, st.duplicateCount, [], []⟩).2).batch.length :=
      Nat.one_le_iff_ne_zero.mpr (fun h => hbne (List.length_eq_zero.mp h))
    dsimp only
    dsimp only at hlen
    exact Or.inl (by omega)

/-! ## Loop lemmas -/

theorem crawlLoop_counts (cfg : CrawlConfig) (gate : Gate) (net : Net)
    (origin : Str) (u : Str) :
    ∀ (fuel : Nat) (st : CrawlSt),
      dequeueCount u (crawlLoop cfg gate net origin fuel st).2
        = visitCount u (crawlLoop cfg gate net origin fuel st).2
          + dupVisitCount u (crawlLoop cfg gate net origin fuel st).2
      ∧ (crawlLoop cfg gate net origin fuel st).1.duplicateCount
        = st.duplicateCount + dupTotal (crawlLoop cfg gate net origin fuel st).2 := by
  intro fuel
  induction fuel with
  | zero =>
    intro st
    simp [crawlLoop, dequeueCount_nil, visitCount_nil, dupVisitCount_nil,
      dupTotal_nil]
  | succ n ih =>
    intro st
    simp only [crawlLoop]
    split
    · simp [dequeueCount_nil, visitCount_nil, dupVisitCount_nil, dupTotal_nil]
    · obtain ⟨S1, S2⟩ := crawlStep_counts cfg gate net origin st u
      obtain ⟨I1, I2⟩ := ih (crawlStep cfg gate net origin st).1
      dsimp only
      simp only [dequeueCount_append, visitCount_append, dupVisitCount_append,
        dupTotal_append]
      exact ⟨by omega, by omega⟩

theorem crawlLoop_visited (cfg : CrawlConfig) (gate : Gate) (net : Net)
    (origin : Str) (u : Str) :
    ∀ (fuel : Nat) (st : CrawlSt),
      (u ∈ st.visited →
        u ∈ (crawlLoop cfg gate net origin fuel st).1.visited ∧
        visitCount u (crawlLoop cfg gate net origin fuel st).2 = 0)
      ∧ (u ∉ st.visited →
          visitCount u (crawlLoop cfg gate net origin fuel st).2 ≤ 1) := by
  intro fuel
  induction fuel with
  | zero =>
    intro st
    exact ⟨fun h => ⟨h, rfl⟩, fun _ => by simp [crawlLoop, visitCount_nil]⟩
  | succ n ih =>
    intro st
    simp only [crawlLoop]
    split
    · exact ⟨fun h => ⟨h, rfl⟩, fun _ => by simp [visitCount_nil]⟩
    · obtain ⟨SV1, SV2⟩ := crawlStep_visited cfg gate net origin st u
      obtain ⟨IV1, IV2⟩ := ih (crawlStep cfg gate net origin st).1
      dsimp only
      simp only [visitCount_append]
      constructor
      · intro h
        obtain ⟨hm1, hc1⟩ := SV1 h
        obtain ⟨hm2, hc2⟩ := IV1 hm1
        exact ⟨hm2, by omega⟩
      · intro h
        obtain ⟨hle, hiff⟩ := SV2 h
        by_cases hm : u ∈ (crawlStep cfg gate net origin st).1.visited
        · have hc1 : visitCount u (crawlStep cfg gate net origin st).2 = 1 :=
            hiff.mp hm
          have hc2 := (IV1 hm).2
          omega
        · have hc1 : visitCount u (crawlStep cfg gate net origin st).2 = 0 := by
            rcases Nat.lt_or_ge (visitCount u (crawlStep cfg gate net origin st).2) 1
              with h1 | h1
            · omega
            · exact absurd (hiff.mpr (by omega)) hm
          have hc2 := IV2 hm
          omega

theorem crawlLoop_good (cfg : CrawlConfig) (gate : Gate) (net : Net)
    (origin : Str) (u : Str) :
    ∀ (fuel : Nat) (st : CrawlSt),
      FetchAfterVisit u (crawlLoop cfg gate net origin fuel st).2 := by
  intro fuel
  induction fuel with
  | zero => intro st n; simp [crawlLoop, fetchCount_nil, visitCount_nil]
  | succ n ih =>
    intro st
    simp only [crawlLoop]
    split
    · intro k; simp [fetchCount_nil, visitCount_nil]
    · dsimp only
      exact fetchAfterVisit_append (crawlStep_good cfg gate net origin st u)
        (ih (crawlStep cfg gate net origin st).1)

theorem crawlLoop_pages (cfg : CrawlConfig) (gate : Gate) (net : Net)
    (origin : Str) :
    ∀ (fuel : Nat) (st : CrawlSt),
      st.pages.length ≤ (crawlLoop cfg gate net origin fuel st).1.pages.length
      ∧ ((crawlLoop cfg gate net origin fuel st).1.pages.length ≤ st.pages.length ∨
         (crawlLoop cfg gate net origin fuel st).1.pages.length ≤ cfg.maxPages)
      ∧ st.pages.length + fetchTotal (crawlLoop cfg gate net origin fuel st).2
          ≤ (crawlLoop cfg gate net origin fuel st).1.pages.length := by
  intro fuel
  induction fuel with
  | zero => intro st; simp [crawlLoop, fetchTotal_nil]
  | succ n ih =>
    intro st
    simp only [crawlLoop]
    split
    · simp [fetchTotal_nil]
    · obtain ⟨S1, S2, S3⟩ := crawlStep_pages cfg gate net origin st
      obtain ⟨I1, I2, I3⟩ := ih (crawlStep cfg gate net origin st).1
      dsimp only
      simp only [fetchTotal_append]
      exact ⟨by omega, by omega, by omega⟩

/-- Permanent exclusion: from any state where `u` is visited and has no
PageResult, the rest of the run never creates a PageResult for `u`, never
fetches it, and never re-inserts it into the visited set. -/
theorem crawlLoop_visited_frozen (cfg : CrawlConfig) (gate : Gate) (net : Net)
    (origin : Str) (u : Str) :
    ∀ (fuel : Nat) (st : CrawlSt), u ∈ st.visited →
      (∀ p ∈ st.pages, p.url ≠ u) →
      (∀ p ∈ (crawlLoop cfg gate net origin fuel st).1.pages, p.url ≠ u)
      ∧ fetchCount u (crawlLoop cfg gate net origin fuel st).2 = 0
      ∧ visitCount u (crawlLoop cfg gate net origin fuel st).2 = 0 := by
  intro fuel
  induction fuel with
  | zero => intro st hu hp; exact ⟨hp, rfl, rfl⟩
  | succ n ih =>
    intro st hu hp
    simp only [crawlLoop]
    split
    · exact ⟨hp, rfl, rfl⟩
    · obtain ⟨SF1, SF2⟩ := crawlStep_visited_frozen cfg gate net origin st u hu
      obtain ⟨SV1, _⟩ := crawlStep_visited cfg gate net origin st u
      obtain ⟨hm1, hc1⟩ := SV1 hu
      have hp1 : ∀ p ∈ (crawlStep cfg gate net origin st).1.pages, p.url ≠ u := by
        intro p hpp
        rcases SF1 p hpp with h | h
        · exact hp p h
        · exact h
      obtain ⟨I1, I2, I3⟩ := ih (crawlStep cfg gate net origin st).1 hm1 hp1
      dsimp only
      simp only [fetchCount_append, visitCount_append]
      exact ⟨I1, by omega, by omega⟩

/-- With positive concurrency, every crawl state reaches a done state with
enough fuel: every guarded iteration either grows the page list (bounded by
`maxPages`) or shrinks the queue. -/
theorem crawlLoop_reaches_done (cfg : CrawlConfig) (gate : Gate) (net : Net)
    (origin : Str) (hc : 1 ≤ cfg.concurrency) :
    ∀ (st : CrawlSt),
      ∃ n, isDone cfg (crawlLoop cfg gate net origin n st).1 = true := by
  suffices H : ∀ (k q : Nat) (st : CrawlSt),
      cfg.maxPages - st.pages.length ≤ k → st.queue.length ≤ q →
      ∃ n, isDone cfg (crawlLoop cfg gate net origin n st).1 = true by
    intro st
    exact H (cfg.maxPages - st.pages.length) st.queue.length st (Nat.le_refl _)
      (Nat.le_refl _)
  intro k
  induction k with
  | zero =>
    intro q st hk _
    refine ⟨0, ?_⟩
    have h0 : (crawlLoop cfg gate net origin 0 st).1 = st := rfl
    rw [h0]
    simp only [isDone, Bool.or_eq_true, decide_eq_true_eq]
    exact Or.inr (by omega)
  | succ k ihk =>
    intro q
    induction q with
    | zero =>
      intro st _ hq
      refine ⟨0, ?_⟩
      have h0 : (crawlLoop cfg gate net origin 0 st).1 = st := rfl
      have hqe : st.queue = [] := List.length_eq_zero.mp (Nat.le_zero.mp hq)
      rw [h0]
      simp [isDone, hqe]
    | succ q ihq =>
      intro st hk hq
      by_cases hdone : isDone cfg st = true
      · exact ⟨0, hdone⟩
      · have hdf : isDone cfg st = false := by
          cases h : isDone cfg st
          · rfl
          · exact absurd h hdone
        have hplt : st.pages.length < cfg.maxPages := by
          simp only [isDone, Bool.or_eq_false_iff, decide_eq_false_iff_not] at hdf
          omega
        rcases crawlStep_progress cfg gate net origin st hdf hc with hcase | hcase
        · obtain ⟨n, hn⟩ := ihk (crawlStep cfg gate net origin st).1.queue.length
            (crawlStep cfg gate net origin st).1 (by omega) (Nat.le_refl _)
          refine ⟨n + 1, ?_⟩
          simp only [crawlLoop, if_neg hdone]
          exact hn
        · obtain ⟨n, hn⟩ := ihq (crawlStep cfg gate net origin st).1
            (by omega) (by omega)
          refine ⟨n + 1, ?_⟩
          simp only [crawlLoop, if_neg hdone]
          exact hn

/-! ## The claims -/

/-- C1: in every crawl run from the initial state, each URL is inserted into
the VisitedSet at most once; it is fetched at most as often as it is
inserted (hence at most once); in every trace prefix the insertion precedes
any fetch (the insertion happens at dequeue time, before any network I/O);
every dequeue is either the unique insertion or a duplicate hit; and the
run's `duplicates` counter counts exactly those duplicate events, each
once. -/
theorem visited_at_most_once (cfg : CrawlConfig) (gate : Gate) (net : Net)
    (origin s0 u : Str) (fuel : Nat) :
    visitCount u (crawlLoop cfg gate net origin fuel (initSt s0)).2 ≤ 1
    ∧ fetchCount u (crawlLoop cfg gate net origin fuel (initSt s0)).2
        ≤ visitCount u (crawlLoop cfg gate net origin fuel (initSt s0)).2
    ∧ (∀ n, fetchCount u ((crawlLoop cfg gate net origin fuel (initSt s0)).2.take n)
          ≤ visitCount u ((crawlLoop cfg gate net origin fuel (initSt s0)).2.take n))
    ∧ dequeueCount u (crawlLoop cfg gate net origin fuel (initSt s0)).2
        = visitCount u (crawlLoop cfg gate net origin fuel (initSt s0)).2
          + dupVisitCount u (crawlLoop cfg gate net origin fuel (initSt s0)).2
    ∧ (crawlLoop cfg gate net origin fuel (initSt s0)).1.duplicateCount
        = dupTotal (crawlLoop cfg gate net origin fuel (initSt s0)).2 := by
  have hv := (crawlLoop_visited cfg gate net origin u fuel (initSt s0)).2
    (by simp [initSt])
  have hg := crawlLoop_good cfg gate net origin u fuel (initSt s0)
  obtain ⟨hc1, hc2⟩ := crawlLoop_counts cfg gate net origin u fuel (initSt s0)
  have hfull := hg (crawlLoop cfg gate net origin fuel (initSt s0)).2.length
  rw [List.take_length] at hfull
  refine ⟨hv, hfull, hg, hc1, ?_⟩
  simpa [initSt] using hc2

/-- C2: the final `total_pages_crawled` (the length of the result list)
never exceeds `maxPages`, and no more than `maxPages` fetches are ever
issued — frontier entries beyond the budget are never fetched, even though
`blocked_robots`/`blocked_pattern` results are appended during batch
formation before the batch's fetches run. -/
theorem page_budget_respected (cfg : CrawlConfig) (gate : Gate) (net : Net)
    (origin s0 startUrl : Str) (fuel : Nat) :
    (crawlLoop cfg gate net origin fuel (initSt s0)).1.pages.length ≤ cfg.maxPages
    ∧ fetchTotal (crawlLoop cfg gate net origin fuel (initSt s0)).2 ≤ cfg.maxPages
    ∧ (crawlMain cfg net startUrl fuel).total_pages_crawled ≤ cfg.maxPages := by
  have main : ∀ (g : Gate) (o s1 : Str),
      (crawlLoop cfg g net o fuel (initSt s1)).1.pages.length ≤ cfg.maxPages ∧
      fetchTotal (crawlLoop cfg g net o fuel (initSt s1)).2 ≤ cfg.maxPages := by
    intro g o s1
    obtain ⟨I1, I2, I3⟩ := crawlLoop_pages cfg g net o fuel (initSt s1)
    have h0 : (initSt s1).pages.length = 0 := rfl
    exact ⟨by omega, by omega⟩
  refine ⟨(main gate origin s0).1, (main gate origin s0).2, ?_⟩
  cases hn : normalizeUrl startUrl startUrl with
  | none => simp [crawlMain, hn]
  | some ns =>
    cases ho : originOf ns with
    | none => simp [crawlMain, hn, ho]
    | some o =>
      simp only [crawlMain, hn, ho]
      exact (main (loadRobotsTxt (net (o ++ str "/robots.txt")) cfg.userAgent).1
        o ns).1

/-- C3 (amended): with an effective concurrency of at least 1, the crawl
loop terminates — some finite fuel reaches a state where the frontier is
empty or the page budget is met — and a loop entered in a done state stops
immediately, so the loop ends exactly when the budget is reached or the
frontier empties and the caller receives the completed result object.  The
interface clamp `Math.min(Number(body.concurrency) || 3, 10)` bounds the
concurrency only from above; the amendment excludes the negative values it
lets through (see the counterexample). -/
theorem crawl_loop_terminates (cfg : CrawlConfig) (gate : Gate) (net : Net)
    (origin : Str) (st : CrawlSt) (hc : 1 ≤ cfg.concurrency) :
    (∃ n, isDone cfg (crawlLoop cfg gate net origin n st).1 = true)
    ∧ (∀ (n : Nat) (st2 : CrawlSt), isDone cfg st2 = true →
        crawlLoop cfg gate net origin n st2 = (st2, [])) := by
  refine ⟨crawlLoop_reaches_done cfg gate net origin hc st, ?_⟩
  intro n st2 h
  cases n with
  | zero => rfl
  | succ m => simp [crawlLoop, h]

/-- C3 witness. -/
theorem crawl_loop_terminates_witness :
    1 ≤ (⟨50, 10, 3, str "ua", [], []⟩ : CrawlConfig).concurrency
    ∧ ((∃ n, isDone (⟨50, 10, 3, str "ua", [], []⟩ : CrawlConfig)
          ((crawlLoop ⟨50, 10, 3, str "ua", [], []⟩ Gate.allowAll
            (fun _ => FetchOutcome.fetchErr false []) (str "https://x.com")
            n (initSt (str "https://x.com/"))).1) = true)
        ∧ (∀ (n : Nat) (st2 : CrawlSt),
            isDone (⟨50, 10, 3, str "ua", [], []⟩ : CrawlConfig) st2 = true →
            crawlLoop ⟨50, 10, 3, str "ua", [], []⟩ Gate.allowAll
              (fun _ => FetchOutcome.fetchErr false []) (str "https://x.com")
              n st2 = (st2, []))) :=
  ⟨by decide,
   crawl_loop_terminates ⟨50, 10, 3, str "ua", [], []⟩ Gate.allowAll
     (fun _ => FetchOutcome.fetchErr false []) (str "https://x.com")
     (initSt (str "https://x.com/")) (by decide)⟩

/-- C3 counterexample: the route clamp accepts `concurrency = -5`
(`Math.min(-5, 10) = -5`), and with a negative concurrency the loop guard
holds while the batch stays empty forever — the crawl loop never reaches a
done state with any amount of fuel, contradicting the claim that every
configuration accepted at the interface terminates. -/
theorem crawl_loop_nontermination_cex :
    routeConcurrency (some (-5)) = -5
    ∧ ¬ (∃ n, isDone (⟨50, 10, -5, str "ua", [], []⟩ : CrawlConfig)
          ((crawlLoop ⟨50, 10, -5, str "ua", [], []⟩ Gate.allowAll
            (fun _ => FetchOutcome.fetchErr false []) (str "https://x.com")
            n (initSt (str "https://x.com/"))).1) = true) := by
  constructor
  · decide
  · have hfix : ∀ n, crawlLoop ⟨50, 10, -5, str "ua", [], []⟩ Gate.allowAll
        (fun _ => FetchOutcome.fetchErr false []) (str "https://x.com")
        n (initSt (str "https://x.com/"))
        = (initSt (str "https://x.com/"), []) := by
      intro n
      induction n with
      | zero => rfl
      | succ m ih =>
        have hstep : crawlStep ⟨50, 10, -5, str "ua", [], []⟩ Gate.allowAll
            (fun _ => FetchOutcome.fetchErr false []) (str "https://x.com")
            (initSt (str "https://x.com/"))
            = (initSt (str "https://x.com/"), []) := rfl
        have hnotdone : isDone (⟨50, 10, -5, str "ua", [], []⟩ : CrawlConfig)
            (initSt (str "https://x.com/")) = false := rfl
        simp only [crawlLoop, hnotdone, Bool.false_eq_true, if_false, hstep, ih,
          List.nil_append]
    intro ⟨n, hn⟩
    rw [hfix n] at hn
    exact absurd hn (by decide)

/-- C10: a frontier entry is inserted into the VisitedSet before the depth
check, so a URL whose first dequeue happens past `maxDepth` is silently
dropped (no batch entry, no PageResult) yet marked visited; and from any
state where a URL is visited with no PageResult, the rest of the run
produces no PageResult for it, never fetches it, and counts every further
dequeue of it as a duplicate. -/
theorem depth_drop_permanent_exclusion (cfg : CrawlConfig) (gate : Gate)
    (net : Net) (origin u : Str) (d : Nat) (rest : List Frontier)
    (acc : FormAcc) (st : CrawlSt) (fuel : Nat)
    (hg1 : (acc.batch.length : Int) < cfg.concurrency)
    (hg2 : acc.pages.length + acc.batch.length < cfg.maxPages)
    (hfresh : u ∉ acc.visited)
    (hdepth : (d : Int) > cfg.maxDepth)
    (hvis : u ∈ st.visited)
    (hpages : ∀ p ∈ st.pages, p.url ≠ u) :
    (u ∈ ((formBatchGo cfg gate ((u, d) :: rest) acc).2).visited
      ∧ (((formBatchGo cfg gate ((u, d) :: rest) acc).2).batch.map Prod.fst).count u
          = (acc.batch.map Prod.fst).count u
      ∧ (∀ p ∈ ((formBatchGo cfg gate ((u, d) :: rest) acc).2).pages,
          p ∈ acc.pages ∨ p.url ≠ u))
    ∧ ((∀ p ∈ (crawlLoop cfg gate net origin fuel st).1.pages, p.url ≠ u)
      ∧ fetchCount u (crawlLoop cfg gate net origin fuel st).2 = 0
      ∧ dequeueCount u (crawlLoop cfg gate net origin fuel st).2
          = dupVisitCount u (crawlLoop cfg gate net origin fuel st).2) := by
  refine ⟨formBatchGo_dropdepth cfg gate u d rest acc hg1 hg2 hfresh hdepth, ?_⟩
  obtain ⟨I1, I2, I3⟩ := crawlLoop_visited_frozen cfg gate net origin u fuel st
    hvis hpages
  obtain ⟨C1, _⟩ := crawlLoop_counts cfg gate net origin u fuel st
  exact ⟨I1, I2, by omega⟩

/-- C10 witness. -/
theorem depth_drop_permanent_exclusion_witness :
    ((((⟨[], [], 0, 0, [], []⟩ : FormAcc).batch.length : Int)
        < (⟨2, 0, 3, str "ua", [], []⟩ : CrawlConfig).concurrency)
      ∧ ((⟨[], [], 0, 0, [], []⟩ : FormAcc).pages.length
          + (⟨[], [], 0, 0, [], []⟩ : FormAcc).batch.length
          < (⟨2, 0, 3, str "ua", [], []⟩ : CrawlConfig).maxPages)
      ∧ str "u" ∉ (⟨[], [], 0, 0, [], []⟩ : FormAcc).visited
      ∧ ((1 : Nat) : Int) > (⟨2, 0, 3, str "ua", [], []⟩ : CrawlConfig).maxDepth
      ∧ str "u" ∈ (⟨[str "u"], [], [], [], 0, 0, 0⟩ : CrawlSt).visited
      ∧ (∀ p ∈ (⟨[str "u"], [], [], [], 0, 0, 0⟩ : CrawlSt).pages,
          p.url ≠ str "u"))
    ∧ ((str "u" ∈ ((formBatchGo ⟨2, 0, 3, str "ua", [], []⟩ Gate.allowAll
          ((str "u", 1) :: []) ⟨[], [], 0, 0, [], []⟩).2).visited
      ∧ (((formBatchGo ⟨2, 0, 3, str "ua", [], []⟩ Gate.allowAll
          ((str "u", 1) :: []) ⟨[], [], 0, 0, [], []⟩).2).batch.map Prod.fst).count
            (str "u")
          = (((⟨[], [], 0, 0, [], []⟩ : FormAcc).batch.map Prod.fst).count (str "u"))
      ∧ (∀ p ∈ ((formBatchGo ⟨2, 0, 3, str "ua", [], []⟩ Gate.allowAll
          ((str "u", 1) :: []) ⟨[], [], 0, 0, [], []⟩).2).pages,
          p ∈ (⟨[], [], 0, 0, [], []⟩ : FormAcc).pages ∨ p.url ≠ str "u"))
    ∧ ((∀ p ∈ (crawlLoop ⟨2, 0, 3, str "ua", [], []⟩ Gate.allowAll
          (fun _ => FetchOutcome.fetchErr false []) (str "https://x.com") 1
          ⟨[str "u"], [], [], [], 0, 0, 0⟩).1.pages, p.url ≠ str "u")
      ∧ fetchCount (str "u") (crawlLoop ⟨2, 0, 3, str "ua", [], []⟩ Gate.allowAll
          (fun _ => FetchOutcome.fetchErr false []) (str "https://x.com") 1
          ⟨[str "u"], [], [], [], 0, 0, 0⟩).2 = 0
      ∧ dequeueCount (str "u") (crawlLoop ⟨2, 0, 3, str "ua", [], []⟩ Gate.allowAll
          (fun _ => FetchOutcome.fetchErr false []) (str "https://x.com") 1
          ⟨[str "u"], [], [], [], 0, 0, 0⟩).2
        = dupVisitCount (str "u") (crawlLoop ⟨2, 0, 3, str "ua", [], []⟩ Gate.allowAll
          (fun _ => FetchOutcome.fetchErr false []) (str "https://x.com") 1
          ⟨[str "u"], [], [], [], 0, 0, 0⟩).2)) :=
  ⟨⟨by decide, by decide, by decide, by decide, by decide, by decide⟩,
   depth_drop_permanent_exclusion ⟨2, 0, 3, str "ua", [], []⟩ Gate.allowAll
     (fun _ => FetchOutcome.fetchErr false []) (str "https://x.com") (str "u")
     1 [] ⟨[], [], 0, 0, [], []⟩ ⟨[str "u"], [], [], [], 0, 0, 0⟩ 1
     (by decide) (by decide) (by decide) (by decide) (by decide) (by decide)⟩

/-- C9: when the allow list is non-empty it is exclusive — a URL that
matches no allow pattern is denied immediately, regardless of the deny
patterns (which are quantified over arbitrarily here). -/
theorem allow_list_exclusive (url : Str)
    (denyPatterns allowPatterns : List (Str → Bool))
    (hne : allowPatterns ≠ [])
    (hmiss : ∀ p ∈ allowPatterns, p url = false) :
    shouldDenyUrl url denyPatterns allowPatterns = true := by
  have h1 : 0 < allowPatterns.length := List.length_pos.mpr hne
  have h2 : allowPatterns.any (fun p => p url) = false := by
    simp only [List.any_eq_false]
    intro p hp
    simp [hmiss p hp]
  simp [shouldDenyUrl, h1, h2]

/-- C9 witness: `allowPatterns = [/news/]` denies `/sports/x` even though
no deny pattern matches it. -/
theorem allow_list_exclusive_witness :
    ([fun s => strInfix (str "/news/") s] : List (Str → Bool)) ≠ []
    ∧ shouldDenyUrl (str "https://x.com/sports/x") []
        [fun s => strInfix (str "/news/") s] = true :=
  ⟨by simp,
   allow_list_exclusive (str "https://x.com/sports/x") []
     [fun s => strInfix (str "/news/") s] (by simp)
     (by
       intro p hp
       simp only [List.mem_singleton] at hp
       subst hp
       rfl)⟩

/-- C6: the robots gate fails open — a thrown fetch yields the always-allow
gate, a non-2xx response yields the always-allow gate, and a parse yielding
zero applicable rules allows every path. -/
theorem robots_fail_open (ua p txt msg ct body : Str) (ab : Bool)
    (status : Nat) (hok : respOk status = false)
    (hz : parseRobotsTxt txt ua = []) :
    gateAllows (loadRobotsTxt (FetchOutcome.fetchErr ab msg) ua).1 p = true
    ∧ gateAllows (loadRobotsTxt (FetchOutcome.resp status ct body) ua).1 p = true
    ∧ gateAllows (Gate.fromRules (parseRobotsTxt txt ua)) p = true := by
  refine ⟨rfl, ?_, ?_⟩
  · simp [loadRobotsTxt, hok, gateAllows]
  · rw [hz]
    rfl

/-- C6 witness. -/
theorem robots_fail_open_witness :
    respOk 404 = false ∧ parseRobotsTxt (str "User-agent: *") (str "bot") = []
    ∧ (gateAllows (loadRobotsTxt (FetchOutcome.fetchErr true (str "net down"))
          (str "bot")).1 (str "/a") = true
      ∧ gateAllows (loadRobotsTxt (FetchOutcome.resp 404 (str "text/plain")
          (str "nope")) (str "bot")).1 (str "/a") = true
      ∧ gateAllows (Gate.fromRules (parseRobotsTxt (str "User-agent: *")
          (str "bot"))) (str "/a") = true) :=
  ⟨by decide, by decide,
   robots_fail_open (str "bot") (str "/a") (str "User-agent: *")
     (str "net down") (str "text/plain") (str "nope") true 404
     (by decide) (by decide)⟩

/-! ## Robots longest-prefix resolution (C5) -/

theorem maxRuleLen_mem_le : ∀ (l : List RRule), ∀ r ∈ l,
    r.path.length ≤ maxRuleLen l := by
  intro l
  induction l with
  | nil => intro r hr; cases hr
  | cons a rest ih =>
    intro r hr
    rcases List.mem_cons.mp hr with h | h
    · subst h
      exact Nat.le_max_left _ _
    · exact Nat.le_trans (ih r h) (Nat.le_max_right _ _)

theorem maxRuleLen_attained : ∀ (l : List RRule), l ≠ [] →
    ∃ r ∈ l, r.path.length = maxRuleLen l := by
  intro l
  induction l with
  | nil => intro h; exact absurd rfl h
  | cons a rest ih =>
    intro _
    have hm : maxRuleLen (a :: rest) = max a.path.length (maxRuleLen rest) := rfl
    by_cases hrest : rest = []
    · subst hrest
      exact ⟨a, List.mem_cons_self _ _, by simp [maxRuleLen]⟩
    · obtain ⟨r, hr, hlen⟩ := ih hrest
      rcases Nat.le_total (maxRuleLen rest) a.path.length with h | h
      · exact ⟨a, List.mem_cons_self _ _, by rw [hm]; omega⟩
      · exact ⟨r, List.mem_cons_of_mem _ hr, by rw [hm]; omega⟩

theorem isAllowedGo_cons (p : Str) (r : RRule) (rs : List RRule)
    (b : RuleType × Nat) :
    isAllowedGo p (r :: rs) b
      = isAllowedGo p rs
          (if strPrefix r.path p = true ∧ r.path.length > b.2 then
            (r.rtype, r.path.length)
           else b) := rfl

theorem maxRuleLen_cons (r : RRule) (l : List RRule) :
    maxRuleLen (r :: l) = max r.path.length (maxRuleLen l) := rfl

/-- Characterization of the `isAllowed` fold: starting from a best length
`n`, the fold returns the accumulator unchanged when no matching rule
exceeds `n`, and otherwise returns the type and length of the first
matching rule of maximal length. -/
theorem isAllowedGo_spec (p : Str) :
    ∀ (rules : List RRule) (t : RuleType) (n : Nat),
      (maxRuleLen (matchingRules rules p) ≤ n →
        isAllowedGo p rules (t, n) = (t, n))
      ∧ (n < maxRuleLen (matchingRules rules p) →
        ∀ r, (matchingRules rules p).find?
            (fun r => decide (r.path.length
              = maxRuleLen (matchingRules rules p))) = some r →
          isAllowedGo p rules (t, n) = (r.rtype, r.path.length)) := by
  intro rules
  induction rules with
  | nil =>
    intro t n
    exact ⟨fun _ => rfl, fun h => by simp [matchingRules, maxRuleLen] at h⟩
  | cons rule rest ih =>
    intro t n
    by_cases hpre : strPrefix rule.path p = true
    · have hM : matchingRules (rule :: rest) p = rule :: matchingRules rest p := by
        simp [matchingRules, hpre]
      have hmax : maxRuleLen (matchingRules (rule :: rest) p)
          = max rule.path.length (maxRuleLen (matchingRules rest p)) := by
        rw [hM, maxRuleLen_cons]
      constructor
      · intro hle
        rw [hmax] at hle
        have hcond : ¬ (strPrefix rule.path p = true
            ∧ rule.path.length > (t, n).2) := by
          intro hand
          have h2 : rule.path.length > n := hand.2
          omega
        rw [isAllowedGo_cons, if_neg hcond]
        exact (ih t n).1 (by omega)
      · intro hlt r hfind
        rw [hmax] at hlt
        rw [hM, maxRuleLen_cons] at hfind
        by_cases hL : rule.path.length
            = max rule.path.length (maxRuleLen (matchingRules rest p))
        · -- the head rule is the first of maximal length
          have hr : r = rule := by
            rw [List.find?_cons_of_pos _ (by simpa using hL)] at hfind
            exact (Option.some_inj.mp hfind).symm
          subst hr
          have hgt : r.path.length > (t, n).2 := by
            show r.path.length > n
            omega
          rw [isAllowedGo_cons, if_pos ⟨hpre, hgt⟩]
          exact (ih r.rtype r.path.length).1 (by omega)
        · -- the head rule is shorter than the maximum
          have hle2 : rule.path.length
              ≤ max rule.path.length (maxRuleLen (matchingRules rest p)) :=
            Nat.le_max_left _ _
          have heq : max rule.path.length (maxRuleLen (matchingRules rest p))
              = maxRuleLen (matchingRules rest p) := by omega
          rw [List.find?_cons_of_neg _ (by simpa using hL), heq] at hfind
          rw [isAllowedGo_cons]
          by_cases hgt : rule.path.length > n
          · rw [if_pos ⟨hpre, show rule.path.length > (t, n).2 from hgt⟩]
            exact (ih rule.rtype rule.path.length).2 (by omega) r hfind
          · rw [if_neg (fun hand => hgt hand.2)]
            exact (ih t n).2 (by omega) r hfind
    · have hM : matchingRules (rule :: rest) p = matchingRules rest p := by
        simp [matchingRules, hpre]
      have hcond : ¬ (strPrefix rule.path p = true
          ∧ rule.path.length > (t, n).2) :=
        fun hand => hpre hand.1
      constructor
      · intro hle
        rw [hM] at hle
        rw [isAllowedGo_cons, if_neg hcond]
        exact (ih t n).1 hle
      · intro hlt r hfind
        rw [hM] at hlt hfind
        rw [isAllowedGo_cons, if_neg hcond]
        exact (ih t n).2 hlt r hfind

/-- Paths collected by the robots parser are never empty (`if (path)` in the
source). -/
theorem parseRobotsLines_paths (ua : Str) :
    ∀ (lines : List Str) (capturing : Bool) (rules : List RRule),
      (∀ r ∈ rules, r.path ≠ []) →
      ∀ r ∈ parseRobotsLines ua lines capturing rules, r.path ≠ [] := by
  intro lines
  induction lines with
  | nil =>
    intro c rules h
    simpa [parseRobotsLines] using h
  | cons line rest ih =>
    intro c rules h
    simp only [parseRobotsLines]
    split
    · exact ih _ _ h
    · split
      · exact ih _ _ h
      · split
        · apply ih
          split
          case isTrue => exact h
          case isFalse hne =>
            intro r hr
            rcases List.mem_append.mp hr with h2 | h2
            · exact h r h2
            · simp only [List.mem_singleton] at h2
              subst h2
              dsimp only
              intro habs
              exact hne (by rw [habs]; rfl)
        · split
          · apply ih
            split
            case isTrue => exact h
            case isFalse hne =>
              intro r hr
              rcases List.mem_append.mp hr with h2 | h2
              · exact h r h2
              · simp only [List.mem_singleton] at h2
                subst h2
                dsimp only
                intro habs
                exact hne (by rw [habs]; rfl)
          · exact ih _ _ h

/-- C5: for every parsed robots rule set and queried path, `isAllowed`
resolves by longest literal prefix match — among the rules whose path is a
prefix of the queried path, the first rule of maximal length decides (allow
iff its type is allow), and with no matching rule the default is allow. -/
theorem robots_longest_prefix (txt ua p : Str) :
    isAllowed (parseRobotsTxt txt ua) p
      = longestDecision (parseRobotsTxt txt ua) p := by
  have hne : ∀ r ∈ parseRobotsTxt txt ua, r.path ≠ [] :=
    parseRobotsLines_paths (lowerStr ua) _ false [] (by intro r hr; cases hr)
  by_cases hM : matchingRules (parseRobotsTxt txt ua) p = []
  · have hmax : maxRuleLen (matchingRules (parseRobotsTxt txt ua) p) = 0 := by
      rw [hM]; rfl
    have hgo := (isAllowedGo_spec p (parseRobotsTxt txt ua) RuleType.allow 0).1
      (by omega)
    simp [isAllowed, longestDecision, hgo, hM]
  · obtain ⟨r0, hr0, hlen0⟩ := maxRuleLen_attained _ hM
    have hpos : 0 < maxRuleLen (matchingRules (parseRobotsTxt txt ua) p) := by
      have hr0r : r0 ∈ parseRobotsTxt txt ua :=
        List.mem_of_mem_filter hr0
      have : r0.path ≠ [] := hne r0 hr0r
      have : 0 < r0.path.length := List.length_pos.mpr this
      omega
    have hfind : ((matchingRules (parseRobotsTxt txt ua) p).find?
        (fun r => decide (r.path.length
          = maxRuleLen (matchingRules (parseRobotsTxt txt ua) p)))).isSome := by
      rw [List.find?_isSome]
      exact ⟨r0, hr0, by simpa using hlen0⟩
    obtain ⟨r1, hr1⟩ := Option.isSome_iff_exists.mp hfind
    have hgo := (isAllowedGo_spec p (parseRobotsTxt txt ua) RuleType.allow 0).2
      hpos r1 hr1
    simp [isAllowed, longestDecision, hgo, hr1]

/-! ## Canonical duplicate suppression (C4) -/

/-- C4 (amended): once a canonical URL is recorded in the CanonicalSeenSet,
any subsequently processed page whose declared canonical (normalized)
matches it *and differs from the page's own normalized URL* is marked
`duplicate_canonical`, counted once in the duplicates counter, and its
outgoing links are not used to grow the frontier (the queue is untouched).
A page whose declared canonical equals its own URL is exempt even when that
canonical is already recorded — see the counterexample. -/
theorem canonical_duplicate_suppression (net : Net) (origin : Str)
    (visited : List Str) (st : ProcSt) (u : Str) (d : Nat)
    (status : Nat) (ct body c : Str)
    (hnet : net u = FetchOutcome.resp status ct body)
    (hok : respOk status = true)
    (hhtml : strInfix (str "text/html") ct = true)
    (hcanon : extractCanonical body u = some c)
    (hne : c ≠ u)
    (hseen : st.canonicalSeen.contains c = true) :
    processItem net origin visited st (u, d)
      = ({ st with
            pages := st.pages ++
              [⟨u, PStatus.duplicate_canonical, some status, [], d, none⟩],
            duplicateCount := st.duplicateCount + 1 },
         [Ev.fetchEv u, Ev.dupCanon u]) := by
  simp only [processItem]
  rw [hnet]
  dsimp only
  rw [hok, hhtml]
  simp only [Bool.not_true, Bool.false_eq_true, if_false]
  rw [hcanon]
  dsimp only
  rw [if_pos ⟨hne, hseen⟩]

/-- C4 witness. -/
theorem canonical_duplicate_suppression_witness :
    ((fun _ => FetchOutcome.resp 200 (str "text/html")
        (str "<link rel=\"canonical\" href=\"/c\">") : Net)
          (str "https://s.example/u")
        = FetchOutcome.resp 200 (str "text/html")
            (str "<link rel=\"canonical\" href=\"/c\">")
      ∧ respOk 200 = true
      ∧ strInfix (str "text/html") (str "text/html") = true
      ∧ extractCanonical (str "<link rel=\"canonical\" href=\"/c\">")
          (str "https://s.example/u") = some (str "https://s.example/c")
      ∧ str "https://s.example/c" ≠ str "https://s.example/u"
      ∧ (([str "https://s.example/c"] : List Str).contains
          (str "https://s.example/c") = true))
    ∧ processItem
        (fun _ => FetchOutcome.resp 200 (str "text/html")
          (str "<link rel=\"canonical\" href=\"/c\">"))
        (str "https://s.example") [] ⟨[str "https://s.example/c"], [], [], 0, 0⟩
        (str "https://s.example/u", 1)
      = (⟨[str "https://s.example/c"], [],
          [⟨str "https://s.example/u", PStatus.duplicate_canonical, some 200,
            [], 1, none⟩], 0, 1⟩,
         [Ev.fetchEv (str "https://s.example/u"),
          Ev.dupCanon (str "https://s.example/u")]) :=
  ⟨⟨rfl, by decide, by decide, by decide, by decide, by decide⟩,
   canonical_duplicate_suppression
     (fun _ => FetchOutcome.resp 200 (str "text/html")
       (str "<link rel=\"canonical\" href=\"/c\">"))
     (str "https://s.example") [] ⟨[str "https://s.example/c"], [], [], 0, 0⟩
     (str "https://s.example/u") 1 200 (str "text/html")
     (str "<link rel=\"canonical\" href=\"/c\">") (str "https://s.example/c")
     rfl (by decide) (by decide) (by decide) (by decide) (by decide)⟩

/-- C4 counterexample: a run in which the seed page declares canonical `/u`
(recording it) and links to `/u`, whose page declares itself canonical.
When `/u` is processed, its declared canonical matches the already-recorded
canonical, yet because it equals the page's own URL the page is *not*
marked `duplicate_canonical`: it ends with status `success`, its links
grow the frontier, and `duplicates` stays 0 — refuting the claim as
stated. -/
theorem canonical_duplicate_cex :
    ((crawlLoop ⟨2, 10, 3, str "ua", [], []⟩ Gate.allowAll
        (fun x =>
          if x = str "https://s.example/" then
            FetchOutcome.resp 200 (str "text/html")
              (str "<html><link rel=\"canonical\" href=\"/u\"><a href=\"/u\">u</a></html>")
          else if x = str "https://s.example/u" then
            FetchOutcome.resp 200 (str "text/html")
              (str "<html><link rel=\"canonical\" href=\"/u\"><a href=\"/w\">w</a></html>")
          else FetchOutcome.resp 404 (str "text/html") [])
        (str "https://s.example") 1
        (initSt (str "https://s.example/"))).1.canonicalSeen
      = [str "https://s.example/u"])
    ∧ extractCanonical
        (str "<html><link rel=\"canonical\" href=\"/u\"><a href=\"/w\">w</a></html>")
        (str "https://s.example/u") = some (str "https://s.example/u")
    ∧ ((crawlLoop ⟨2, 10, 3, str "ua", [], []⟩ Gate.allowAll
        (fun x =>
          if x = str "https://s.example/" then
            FetchOutcome.resp 200 (str "text/html")
              (str "<html><link rel=\"canonical\" href=\"/u\"><a href=\"/u\">u</a></html>")
          else if x = str "https://s.example/u" then
            FetchOutcome.resp 200 (str "text/html")
              (str "<html><link rel=\"canonical\" href=\"/u\"><a href=\"/w\">w</a></html>")
          else FetchOutcome.resp 404 (str "text/html") [])
        (str "https://s.example") 3
        (initSt (str "https://s.example/"))).1.pages.map
          (fun p => (p.url, p.status))
      = [(str "https://s.example/", PStatus.success),
         (str "https://s.example/u", PStatus.success)])
    ∧ ((crawlLoop ⟨2, 10, 3, str "ua", [], []⟩ Gate.allowAll
        (fun x =>
          if x = str "https://s.example/" then
            FetchOutcome.resp 200 (str "text/html")
              (str "<html><link rel=\"canonical\" href=\"/u\"><a href=\"/u\">u</a></html>")
          else if x = str "https://s.example/u" then
            FetchOutcome.resp 200 (str "text/html")
              (str "<html><link rel=\"canonical\" href=\"/u\"><a href=\"/w\">w</a></html>")
          else FetchOutcome.resp 404 (str "text/html") [])
        (str "https://s.example") 3
        (initSt (str "https://s.example/"))).1.duplicateCount = 0)
    ∧ ((crawlLoop ⟨2, 10, 3, str "ua", [], []⟩ Gate.allowAll
        (fun x =>
          if x = str "https://s.example/" then
            FetchOutcome.resp 200 (str "text/html")
              (str "<html><link rel=\"canonical\" href=\"/u\"><a href=\"/u\">u</a></html>")
          else if x = str "https://s.example/u" then
            FetchOutcome.resp 200 (str "text/html")
              (str "<html><link rel=\"canonical\" href=\"/u\"><a href=\"/w\">w</a></html>")
          else FetchOutcome.resp 404 (str "text/html") [])
        (str "https://s.example") 3
        (initSt (str "https://s.example/"))).1.queue
      = [(str "https://s.example/w", 2)]) := by
  refine ⟨by decide, by decide, by decide, by decide, by decide⟩

/-! ## Link extraction (C7) -/

/-- A successful href match captures a nonempty run of characters free of
quotes and `#`. -/
theorem matchHref_sound (s cap rest : Str) (h : matchHref s = some (cap, rest)) :
    cap ≠ [] ∧ ∀ ch ∈ cap, quoteCh ch = false ∧ ch ≠ '#' := by
  simp only [matchHref] at h
  split at h
  · simp at h
  · split at h
    · split at h
      · split at h
        · simp at h
        · split at h
          · split at h
            · rename_i hne r3 c2 r4 hd hq2
              simp only [Option.some.injEq, Prod.mk.injEq] at h
              obtain ⟨hcap, -⟩ := h
              constructor
              · intro habs
                rw [habs] at hcap
                rw [hcap] at hne
                exact hne rfl
              · intro ch hch
                rw [← hcap] at hch
                have hmem := List.mem_takeWhile_imp hch
                simp only [Bool.not_eq_true', Bool.or_eq_false_iff] at hmem
                exact ⟨hmem.1, by simpa using hmem.2⟩
            · simp at h
          · simp at h
      · simp at h
    · simp at h

/-- The single extraction loop equals scan-then-filter-then-dedup: the
monolithic `while` loop of `extractInternalLinks` is the composition of the
href scan, the per-capture pipeline and first-occurrence dedup. -/
theorem extractGo_spec (baseUrl origin : Str) :
    ∀ (fuel : Nat) (s : Str) (links : List Str),
      extractGo baseUrl origin fuel s links
        = links ++ dedupGo links ((scanHrefsGo fuel s).filterMap
            (processHref baseUrl origin)) := by
  intro fuel
  induction fuel with
  | zero => intro s links; simp [extractGo, scanHrefsGo, dedupGo]
  | succ n ih =>
    intro s links
    cases s with
    | nil => simp [extractGo, scanHrefsGo, dedupGo]
    | cons c cs =>
      cases hm : matchHref (c :: cs) with
      | none =>
        simp only [extractGo, scanHrefsGo, hm]
        exact ih cs links
      | some capRest =>
        obtain ⟨cap, rest⟩ := capRest
        by_cases hskip : ((trimWs cap).isEmpty
            || strPrefix (str "javascript:") (trimWs cap)
            || strPrefix (str "mailto:") (trimWs cap)
            || strPrefix (str "tel:") (trimWs cap)) = true
        · have hph : processHref baseUrl origin cap = none := by
            simp only [processHref, hskip, eq_self_iff_true, if_true]
          simp only [extractGo, scanHrefsGo, hm, hskip, eq_self_iff_true,
            if_true, List.filterMap_cons, hph]
          exact ih rest links
        · simp only [Bool.not_eq_true] at hskip
          cases hn : normalizeUrl (trimWs cap) baseUrl with
          | none =>
            have hph : processHref baseUrl origin cap = none := by
              simp only [processHref, hskip, Bool.false_eq_true, if_false, hn]
            simp only [extractGo, scanHrefsGo, hm, hskip, Bool.false_eq_true,
              if_false, hn, List.filterMap_cons, hph]
            exact ih rest links
          | some normalized =>
            cases ho : originOf normalized with
            | none =>
              have hph : processHref baseUrl origin cap = none := by
                simp only [processHref, hskip, Bool.false_eq_true, if_false,
                  hn, ho]
              simp only [extractGo, scanHrefsGo, hm, hskip, Bool.false_eq_true,
                if_false, hn, ho, List.filterMap_cons, hph]
              exact ih rest links
            | some o =>
              by_cases ho2 : o = origin
              · have hph : processHref baseUrl origin cap = some normalized := by
                  simp only [processHref, hskip, Bool.false_eq_true, if_false,
                    hn, ho, ho2, eq_self_iff_true, if_true]
                by_cases hc : links.contains normalized = true
                · simp only [extractGo, scanHrefsGo, hm, hskip,
                    Bool.false_eq_true, if_false, hn, ho, ho2, eq_self_iff_true,
                    if_true, hc, List.filterMap_cons, hph, dedupGo]
                  exact ih rest links
                · simp only [Bool.not_eq_true] at hc
                  simp only [extractGo, scanHrefsGo, hm, hskip,
                    Bool.false_eq_true, if_false, hn, ho, ho2, eq_self_iff_true,
                    if_true, hc, List.filterMap_cons, hph, dedupGo]
                  rw [ih rest (links ++ [normalized])]
                  simp [List.append_assoc]
              · have hph : processHref baseUrl origin cap = none := by
                  simp only [processHref, hskip, Bool.false_eq_true, if_false,
                    hn, ho, ho2, if_false]
                simp only [extractGo, scanHrefsGo, hm, hskip,
                  Bool.false_eq_true, if_false, hn, ho, ho2,
                  List.filterMap_cons, hph]
                exact ih rest links

/-- C7 (amended): `extractInternalLinks` considers exactly the captures of
the `href=["']([^"'#]+)["']` scan — maximal nonempty runs of characters
other than quotes and `#`, so fragment-carrying or quote-carrying hrefs
never match and are skipped entirely — drops captures that trim to empty or
start with `javascript:`/`mailto:`/`tel:`, resolves and normalizes each
survivor against the page URL, keeps it only if normalization succeeds and
its origin equals the filter, and returns first occurrences in insertion
order. -/
theorem extract_links_pipeline (html baseUrl origin : Str) :
    extractInternalLinks html baseUrl origin
      = dedupKeepFirst ((scanHrefs html).filterMap (processHref baseUrl origin))
    ∧ ∀ cap ∈ scanHrefs html, cap ≠ [] ∧ ∀ ch ∈ cap, quoteCh ch = false ∧ ch ≠ '#' := by
  constructor
  · have h := extractGo_spec baseUrl origin html.length html []
    simpa [extractInternalLinks, dedupKeepFirst] using h
  · have main : ∀ (fuel : Nat) (s : Str), ∀ cap ∈ scanHrefsGo fuel s,
        cap ≠ [] ∧ ∀ ch ∈ cap, quoteCh ch = false ∧ ch ≠ '#' := by
      intro fuel
      induction fuel with
      | zero => intro s cap hcap; cases hcap
      | succ n ih =>
        intro s cap hcap
        cases s with
        | nil => cases hcap
        | cons c cs =>
          cases hm : matchHref (c :: cs) with
          | none =>
            simp only [scanHrefsGo, hm] at hcap
            exact ih cs cap hcap
          | some capRest =>
            obtain ⟨cap0, rest⟩ := capRest
            simp only [scanHrefsGo, hm] at hcap
            rcases List.mem_cons.mp hcap with h | h
            · subst h
              exact matchHref_sound _ _ _ hm
            · exact ih rest cap h
    exact main html.length html

/-- C7 witness: a concrete page exercising the pipeline equality. -/
theorem extract_links_pipeline_witness :
    extractInternalLinks
        (str "<a href=\"/a\">x</a><a href=\"/b?utm_source=z\">y</a><a href=\"/a\">d</a>")
        (str "https://x.com/") (str "https://x.com")
      = dedupKeepFirst (((scanHrefs
          (str "<a href=\"/a\">x</a><a href=\"/b?utm_source=z\">y</a><a href=\"/a\">d</a>"))).filterMap
            (processHref (str "https://x.com/") (str "https://x.com")))
    ∧ ∀ cap ∈ scanHrefs
        (str "<a href=\"/a\">x</a><a href=\"/b?utm_source=z\">y</a><a href=\"/a\">d</a>"),
        cap ≠ [] ∧ ∀ ch ∈ cap, quoteCh ch = false ∧ ch ≠ '#' :=
  extract_links_pipeline
    (str "<a href=\"/a\">x</a><a href=\"/b?utm_source=z\">y</a><a href=\"/a\">d</a>")
    (str "https://x.com/") (str "https://x.com")

/-- C7 counterexample: the page holds the occurrence `href="/a#b"`, whose
target is non-empty and is no `javascript:`/`mailto:`/`tel:` link, and
which normalizes successfully (the fragment is stripped) to a URL of the
filter origin — by the claim it should be extracted — yet the scanner's
character class rejects `#`, the occurrence never matches, and the result
is empty. -/
theorem extract_links_fragment_cex :
    extractInternalLinks (str "<a href=\"/a#b\">x</a>") (str "https://x.com/")
        (str "https://x.com") = []
    ∧ trimWs (str "/a#b") = str "/a#b"
    ∧ (str "/a#b").isEmpty = false
    ∧ strPrefix (str "javascript:") (str "/a#b") = false
    ∧ strPrefix (str "mailto:") (str "/a#b") = false
    ∧ strPrefix (str "tel:") (str "/a#b") = false
    ∧ normalizeUrl (str "/a#b") (str "https://x.com/")
        = some (str "https://x.com/a")
    ∧ originOf (str "https://x.com/a") = some (str "https://x.com") := by
  refine ⟨by decide, by decide, by decide, by decide, by decide, by decide,
    by decide, by decide⟩

/-! ## Character arithmetic helpers (for C8) -/

theorem char_le_iff (a b : Char) : a ≤ b ↔ a.toNat ≤ b.toNat := by
  rw [Char.le_def, UInt32.le_def, BitVec.le_def]
  exact Iff.rfl

theorem char_eq_iff (a b : Char) : a = b ↔ a.toNat = b.toNat := by
  constructor
  · intro h; rw [h]
  · intro h
    exact Char.ext (UInt32.eq_of_toBitVec_eq (BitVec.eq_of_toNat_eq h))

theorem char_toNat_ofNat {n : Nat} (h : n < 55296) : (Char.ofNat n).toNat = n := by
  have hv : n.isValidChar := Or.inl h
  simp only [Char.ofNat]
  rw [dif_pos hv]
  rfl

theorem lowerChar_toNat (c : Char) :
    (lowerChar c).toNat =
      if 65 ≤ c.toNat ∧ c.toNat ≤ 90 then c.toNat + 32 else c.toNat := by
  simp only [lowerChar]
  by_cases h : 'A' ≤ c ∧ c ≤ 'Z'
  · have h1 : 65 ≤ c.toNat := (char_le_iff 'A' c).mp h.1
    have h2 : c.toNat ≤ 90 := (char_le_iff c 'Z').mp h.2
    rw [if_pos h, if_pos ⟨h1, h2⟩, char_toNat_ofNat (by omega)]
  · have hc : ¬(65 ≤ c.toNat ∧ c.toNat ≤ 90) := by
      intro hcon
      exact h ⟨(char_le_iff 'A' c).mpr hcon.1, (char_le_iff c 'Z').mpr hcon.2⟩
    rw [if_neg h, if_neg hc]

theorem lowerChar_not_upper {c : Char} (h : ¬('A' ≤ c ∧ c ≤ 'Z')) :
    lowerChar c = c := by
  simp only [lowerChar, if_neg h]

theorem lowerChar_idem (c : Char) : lowerChar (lowerChar c) = lowerChar c := by
  by_cases h : 'A' ≤ c ∧ c ≤ 'Z'
  · have h1 : 65 ≤ c.toNat := (char_le_iff 'A' c).mp h.1
    have h2 : c.toNat ≤ 90 := (char_le_iff c 'Z').mp h.2
    have h3 : (lowerChar c).toNat = c.toNat + 32 := by
      rw [lowerChar_toNat, if_pos ⟨h1, h2⟩]
    apply lowerChar_not_upper
    intro hcon
    have h4 : (lowerChar c).toNat ≤ 90 := (char_le_iff _ 'Z').mp hcon.2
    omega
  · simp [lowerChar_not_upper h]

theorem hostDelim_of_between {x : Char} (h1 : 97 ≤ x.toNat) (h2 : x.toNat ≤ 122) :
    hostDelim x = false := by
  simp only [hostDelim, Bool.or_eq_false_iff, decide_eq_false_iff_not]
  have e1 : ('/' : Char).toNat = 47 := rfl
  have e2 : (':' : Char).toNat = 58 := rfl
  have e3 : ('?' : Char).toNat = 63 := rfl
  have e4 : ('#' : Char).toNat = 35 := rfl
  refine ⟨⟨⟨?_, ?_⟩, ?_⟩, ?_⟩
  · intro hc; rw [char_eq_iff, e1] at hc; omega
  · intro hc; rw [char_eq_iff, e2] at hc; omega
  · intro hc; rw [char_eq_iff, e3] at hc; omega
  · intro hc; rw [char_eq_iff, e4] at hc; omega

theorem hostDelim_lowerChar {c : Char} (h : hostDelim c = false) :
    hostDelim (lowerChar c) = false := by
  by_cases hA : 'A' ≤ c ∧ c ≤ 'Z'
  · have h1 : 65 ≤ c.toNat := (char_le_iff 'A' c).mp hA.1
    have h2 : c.toNat ≤ 90 := (char_le_iff c 'Z').mp hA.2
    have h3 : (lowerChar c).toNat = c.toNat + 32 := by
      rw [lowerChar_toNat, if_pos ⟨h1, h2⟩]
    exact hostDelim_of_between (by omega) (by omega)
  · rw [lowerChar_not_upper hA]; exact h

theorem lowerStr_idem (s : Str) : lowerStr (lowerStr s) = lowerStr s := by
  simp only [lowerStr, List.map_map]
  exact List.map_congr_left (fun c _ => lowerChar_idem c)

theorem lowerStr_ne_nil {s : Str} (h : s ≠ []) : lowerStr s ≠ [] := by
  cases s with
  | nil => exact absurd rfl h
  | cons c cs => simp [lowerStr]

theorem mem_lowerStr {s : Str} {c : Char} (h : c ∈ lowerStr s) :
    ∃ c0 ∈ s, c = lowerChar c0 := by
  simp only [lowerStr, List.mem_map] at h
  obtain ⟨c0, hc0, h2⟩ := h
  exact ⟨c0, hc0, h2.symm⟩

/-! ## Splitting and joining helpers (for C8) -/

theorem takeWhile_dropWhile_app (p : Char → Bool) (a b : Str)
    (ha : ∀ c ∈ a, p c = true) (hb : ∀ c, b.head? = some c → p c = false) :
    (a ++ b).takeWhile p = a ∧ (a ++ b).dropWhile p = b := by
  induction a with
  | nil =>
    rw [List.nil_append]
    cases b with
    | nil => exact ⟨rfl, rfl⟩
    | cons c cs =>
      have hc := hb c rfl
      simp [List.takeWhile_cons, List.dropWhile_cons, hc]
  | cons c cs ih =>
    have hc : p c = true := ha c (List.mem_cons_self c cs)
    have ih2 := ih (fun x hx => ha x (List.mem_cons_of_mem c hx))
    simp [List.cons_append, List.takeWhile_cons, List.dropWhile_cons, hc,
      ih2.1, ih2.2]

theorem splitAtFirst_not_mem (sep : Char) : ∀ (s : Str), sep ∉ s →
    splitAtFirst sep s = (s, none) := by
  intro s
  induction s with
  | nil => intro h; rfl
  | cons c cs ih =>
    intro h
    have hc : ¬(c = sep) := fun hh => h (by rw [← hh]; exact List.mem_cons_self c cs)
    have ih2 := ih (fun hm => h (List.mem_cons_of_mem c hm))
    simp [splitAtFirst, hc, ih2]

theorem splitAtFirst_app (sep : Char) : ∀ (a b : Str), sep ∉ a →
    splitAtFirst sep (a ++ sep :: b) = (a, some b) := by
  intro a
  induction a with
  | nil => intro b h; simp [splitAtFirst]
  | cons c cs ih =>
    intro b h
    have hc : ¬(c = sep) := fun hh => h (by rw [← hh]; exact List.mem_cons_self c cs)
    have ih2 := ih b (fun hm => h (List.mem_cons_of_mem c hm))
    simp [splitAtFirst, hc, ih2]

theorem splitAtFirst_none_eq (sep : Char) :
    ∀ (s a : Str), splitAtFirst sep s = (a, none) → s = a ∧ sep ∉ a := by
  intro s
  induction s with
  | nil =>
    intro a h
    simp only [splitAtFirst, Prod.mk.injEq] at h
    obtain ⟨rfl, -⟩ := h
    exact ⟨rfl, by simp⟩
  | cons c cs ih =>
    intro a h
    simp only [splitAtFirst] at h
    by_cases hc : c = sep
    · rw [if_pos hc] at h
      simp at h
    · rw [if_neg hc] at h
      rw [Prod.mk.injEq] at h
      obtain ⟨h1, h2⟩ := h
      have hp : splitAtFirst sep cs = ((splitAtFirst sep cs).1, none) := by
        rw [← h2]
      obtain ⟨he, hnm⟩ := ih _ hp
      refine ⟨?_, ?_⟩
      · rw [← h1, ← he]
      · rw [← h1]
        intro hm
        rcases List.mem_cons.mp hm with h | h
        · exact hc h.symm
        · exact hnm h

theorem splitAtFirst_some_eq (sep : Char) :
    ∀ (s a b : Str), splitAtFirst sep s = (a, some b) →
      s = a ++ sep :: b ∧ sep ∉ a := by
  intro s
  induction s with
  | nil => intro a b h; simp [splitAtFirst] at h
  | cons c cs ih =>
    intro a b h
    simp only [splitAtFirst] at h
    by_cases hc : c = sep
    · rw [if_pos hc] at h
      rw [Prod.mk.injEq] at h
      obtain ⟨h1, h2⟩ := h
      obtain rfl : cs = b := Option.some_inj.mp h2
      refine ⟨?_, ?_⟩
      · rw [← h1, hc]; rfl
      · rw [← h1]; simp
    · rw [if_neg hc] at h
      rw [Prod.mk.injEq] at h
      obtain ⟨h1, h2⟩ := h
      have hp : splitAtFirst sep cs = ((splitAtFirst sep cs).1, some b) := by
        rw [← h2]
      obtain ⟨he, hnm⟩ := ih _ _ hp
      refine ⟨?_, ?_⟩
      · rw [← h1, List.cons_append, ← he]
      · rw [← h1]
        intro hm
        rcases List.mem_cons.mp hm with h | h
        · exact hc h.symm
        · exact hnm h

theorem splitOnChar_ne_nil (sep : Char) (s : Str) : splitOnChar sep s ≠ [] := by
  cases s with
  | nil => simp [splitOnChar]
  | cons c cs =>
    simp only [splitOnChar]
    by_cases hc : c = sep
    · rw [if_pos hc]; simp
    · rw [if_neg hc]
      cases splitOnChar sep cs with
      | nil => simp
      | cons r rs => simp

theorem splitOnChar_not_mem (sep : Char) : ∀ (s : Str), sep ∉ s →
    splitOnChar sep s = [s] := by
  intro s
  induction s with
  | nil => intro h; rfl
  | cons c cs ih =>
    intro h
    have hc : ¬(c = sep) := fun hh => h (by rw [← hh]; exact List.mem_cons_self c cs)
    have ih2 := ih (fun hm => h (List.mem_cons_of_mem c hm))
    simp [splitOnChar, hc, ih2]

theorem splitOnChar_app (sep : Char) : ∀ (a b : Str), sep ∉ a →
    splitOnChar sep (a ++ sep :: b) = a :: splitOnChar sep b := by
  intro a
  induction a with
  | nil => intro b h; simp [splitOnChar]
  | cons c cs ih =>
    intro b h
    have hc : ¬(c = sep) := fun hh => h (by rw [← hh]; exact List.mem_cons_self c cs)
    have ih2 := ih b (fun hm => h (List.mem_cons_of_mem c hm))
    simp only [List.cons_append, splitOnChar, if_neg hc]
    show (match splitOnChar sep (cs ++ sep :: b) with
      | [] => [[c]]
      | r :: rs => (c :: r) :: rs) = (c :: cs) :: splitOnChar sep b
    rw [ih2]

theorem mem_splitOnChar (sep : Char) :
    ∀ (s : Str), ∀ x ∈ splitOnChar sep s, sep ∉ x ∧ ∀ c ∈ x, c ∈ s := by
  intro s
  induction s with
  | nil =>
    intro x hx
    simp only [splitOnChar, List.mem_singleton] at hx
    subst hx
    exact ⟨by simp, by simp⟩
  | cons c cs ih =>
    intro x hx
    simp only [splitOnChar] at hx
    by_cases hc : c = sep
    · rw [if_pos hc] at hx
      rcases List.mem_cons.mp hx with h | h
      · subst h; exact ⟨by simp, by simp⟩
      · obtain ⟨h1, h2⟩ := ih x h
        exact ⟨h1, fun d hd => List.mem_cons_of_mem c (h2 d hd)⟩
    · rw [if_neg hc] at hx
      rcases hrest : splitOnChar sep cs with _ | ⟨r, rs⟩
      · exact absurd hrest (splitOnChar_ne_nil sep cs)
      · simp only [hrest] at hx
        rcases List.mem_cons.mp hx with h | h
        · subst h
          have hr : r ∈ splitOnChar sep cs := by
            rw [hrest]; exact List.mem_cons_self r rs
          obtain ⟨h1, h2⟩ := ih r hr
          constructor
          · intro hm
            rcases List.mem_cons.mp hm with h | h
            · exact hc h.symm
            · exact h1 h
          · intro d hd
            rcases List.mem_cons.mp hd with h | h
            · rw [h]; exact List.mem_cons_self c cs
            · exact List.mem_cons_of_mem c (h2 d h)
        · have hr : x ∈ splitOnChar sep cs := by
            rw [hrest]; exact List.mem_cons_of_mem r h
          obtain ⟨h1, h2⟩ := ih x hr
          exact ⟨h1, fun d hd => List.mem_cons_of_mem c (h2 d hd)⟩

theorem joinSep_splitOnChar (sep : Char) :
    ∀ (s : Str), joinSep sep (splitOnChar sep s) = s := by
  intro s
  induction s with
  | nil => rfl
  | cons c cs ih =>
    simp only [splitOnChar]
    by_cases hc : c = sep
    · rw [if_pos hc]
      rcases hrest : splitOnChar sep cs with _ | ⟨r, rs⟩
      · exact absurd hrest (splitOnChar_ne_nil sep cs)
      · rw [hrest] at ih
        show joinSep sep ([] :: r :: rs) = c :: cs
        show ([] : Str) ++ sep :: joinSep sep (r :: rs) = c :: cs
        rw [List.nil_append, ih, hc]
    · rw [if_neg hc]
      rcases hrest : splitOnChar sep cs with _ | ⟨r, rs⟩
      · exact absurd hrest (splitOnChar_ne_nil sep cs)
      · rw [hrest] at ih
        have hstep : joinSep sep ((c :: r) :: rs) = c :: joinSep sep (r :: rs) := by
          cases rs <;> rfl
        show joinSep sep ((c :: r) :: rs) = c :: cs
        rw [hstep, ih]

theorem splitOnChar_joinSep (sep : Char) :
    ∀ (l : List Str), l ≠ [] → (∀ x ∈ l, sep ∉ x) →
      splitOnChar sep (joinSep sep l) = l := by
  intro l
  induction l with
  | nil => intro h; exact absurd rfl h
  | cons x xs ih =>
    intro _ hx
    cases xs with
    | nil => exact splitOnChar_not_mem sep x (hx x (List.mem_cons_self x []))
    | cons y ys =>
      have h1 : splitOnChar sep (x ++ sep :: joinSep sep (y :: ys))
          = x :: splitOnChar sep (joinSep sep (y :: ys)) :=
        splitOnChar_app sep x _ (hx x (List.mem_cons_self x (y :: ys)))
      have h2 := ih (by simp) (fun z hz => hx z (List.mem_cons_of_mem x hz))
      show splitOnChar sep (x ++ sep :: joinSep sep (y :: ys)) = x :: y :: ys
      rw [h1, h2]

theorem splitOnChar_append_sep (sep : Char) :
    ∀ (a : Str), splitOnChar sep (a ++ [sep]) = splitOnChar sep a ++ [[]] := by
  intro a
  induction a with
  | nil => simp [splitOnChar]
  | cons c cs ih =>
    by_cases hc : c = sep
    · show splitOnChar sep (c :: (cs ++ [sep])) = _
      simp [splitOnChar, if_pos hc, ih]
    · show splitOnChar sep (c :: (cs ++ [sep])) = _
      simp only [splitOnChar, if_neg hc, ih]
      rcases hrest : splitOnChar sep cs with _ | ⟨r, rs⟩
      · exact absurd hrest (splitOnChar_ne_nil sep cs)
      · show ((c :: r) :: (rs ++ [[]])) = ((c :: r) :: rs) ++ [[]]
        simp

theorem mem_joinSep (sep : Char) :
    ∀ (l : List Str) (c : Char), c ∈ joinSep sep l → c = sep ∨ ∃ x ∈ l, c ∈ x := by
  intro l
  induction l with
  | nil => intro c hc; cases hc
  | cons x xs ih =>
    intro c hc
    cases xs with
    | nil => exact Or.inr ⟨x, List.mem_cons_self x [], hc⟩
    | cons y ys =>
      have hc2 : c ∈ x ++ sep :: joinSep sep (y :: ys) := hc
      rcases List.mem_append.mp hc2 with h | h
      · exact Or.inr ⟨x, List.mem_cons_self x _, h⟩
      · rcases List.mem_cons.mp h with h | h
        · exact Or.inl h
        · rcases ih c h with h | ⟨z, hz, hcz⟩
          · exact Or.inl h
          · exact Or.inr ⟨z, List.mem_cons_of_mem x hz, hcz⟩

/-! ## Decimal digit helpers (for C8) -/

theorem natToChars_ne_nil (n : Nat) : natToChars n ≠ [] := by
  simp only [natToChars, natToCharsAux]
  by_cases h : n < 10
  · rw [if_pos h]; simp
  · rw [if_neg h]; simp

theorem natToCharsAux_digits :
    ∀ (fuel n : Nat), ∀ c ∈ natToCharsAux fuel n, isDigitCh c = true := by
  intro fuel
  induction fuel with
  | zero => intro n c hc; cases hc
  | succ f ih =>
    intro n c hc
    simp only [natToCharsAux] at hc
    by_cases h : n < 10
    · rw [if_pos h] at hc
      rw [List.mem_singleton.mp hc]
      interval_cases n <;> decide
    · rw [if_neg h] at hc
      rcases List.mem_append.mp hc with h1 | h1
      · exact ih _ c h1
      · rw [List.mem_singleton.mp h1]
        obtain ⟨m, hmlt, hme⟩ : ∃ m, m < 10 ∧ n % 10 = m :=
          ⟨n % 10, Nat.mod_lt _ (by omega), rfl⟩
        rw [hme]
        interval_cases m <;> decide

theorem natToCharsAux_foldl :
    ∀ (fuel n : Nat), n < fuel → ∀ a : Nat, ∃ w : Nat,
      List.foldl (fun a c => a * 10 + (c.toNat - 48)) a (natToCharsAux fuel n)
        = a * w + n := by
  intro fuel
  induction fuel with
  | zero => intro n h; exact absurd h (Nat.not_lt_zero n)
  | succ f ih =>
    intro n h a
    simp only [natToCharsAux]
    by_cases h10 : n < 10
    · refine ⟨10, ?_⟩
      rw [if_pos h10]
      have hce : (Char.ofNat (48 + n)).toNat = 48 + n :=
        char_toNat_ofNat (by omega)
      simp only [List.foldl, hce]
      omega
    · have h1 : n / 10 < n := Nat.div_lt_self (by omega) (by omega)
      have hrec : n / 10 < f := by omega
      obtain ⟨w, hw⟩ := ih (n / 10) hrec a
      refine ⟨w * 10, ?_⟩
      rw [if_neg h10, List.foldl_append, hw]
      have hce : (Char.ofNat (48 + n % 10)).toNat = 48 + n % 10 := by
        have hmod : n % 10 < 10 := Nat.mod_lt _ (by omega)
        exact char_toNat_ofNat (by omega)
      simp only [List.foldl, hce]
      rw [Nat.add_mul, Nat.mul_assoc]
      omega

theorem charsToNat_natToChars (n : Nat) : charsToNat (natToChars n) = n := by
  obtain ⟨w, hw⟩ := natToCharsAux_foldl (n + 1) n (Nat.lt_succ_self n) 0
  simpa [charsToNat, natToChars] using hw

/-! ## Dot-segment removal helpers (for C8) -/

theorem rdsGo_id :
    ∀ (segs : List Str), (∀ s ∈ segs, s ≠ str "." ∧ s ≠ str "..") →
      ∀ stack, rdsGo stack segs = stack.reverse ++ segs := by
  intro segs
  induction segs with
  | nil => intro _ stack; simp [rdsGo]
  | cons s rest ih =>
    intro h stack
    have hs := h s (List.mem_cons_self s rest)
    cases rest with
    | nil =>
      simp only [rdsGo, if_neg hs.1, if_neg hs.2]
      simp
    | cons t ts =>
      simp only [rdsGo, if_neg hs.1, if_neg hs.2]
      rw [ih (fun x hx => h x (List.mem_cons_of_mem s hx)) (s :: stack)]
      simp

theorem rdsGo_nodots :
    ∀ (segs stack : List Str), (∀ s ∈ stack, s ≠ str "." ∧ s ≠ str "..") →
      ∀ s ∈ rdsGo stack segs, s ≠ str "." ∧ s ≠ str ".." := by
  intro segs
  induction segs with
  | nil =>
    intro stack hst s hs
    simp only [rdsGo, List.mem_reverse] at hs
    exact hst s hs
  | cons x rest ih =>
    intro stack hst s hs
    cases rest with
    | nil =>
      simp only [rdsGo] at hs
      by_cases h1 : x = str "."
      · rw [if_pos h1] at hs
        rcases List.mem_append.mp hs with h | h
        · exact hst s (List.mem_reverse.mp h)
        · rw [List.mem_singleton.mp h]; exact ⟨by decide, by decide⟩
      · rw [if_neg h1] at hs
        by_cases h2 : x = str ".."
        · rw [if_pos h2] at hs
          rcases List.mem_append.mp hs with h | h
          · exact hst s (List.mem_reverse.mp (List.Sublist.mem h
              (List.reverse_sublist.mpr (List.drop_sublist 1 stack))))
          · rw [List.mem_singleton.mp h]; exact ⟨by decide, by decide⟩
        · rw [if_neg h2] at hs
          rw [List.mem_reverse] at hs
          rcases List.mem_cons.mp hs with h | h
          · rw [h]; exact ⟨h1, h2⟩
          · exact hst s h
    | cons t ts =>
      simp only [rdsGo] at hs
      by_cases h1 : x = str "."
      · rw [if_pos h1] at hs
        exact ih stack hst s hs
      · rw [if_neg h1] at hs
        by_cases h2 : x = str ".."
        · rw [if_pos h2] at hs
          exact ih (stack.drop 1) (fun z hz => hst z (List.mem_of_mem_drop hz)) s hs
        · rw [if_neg h2] at hs
          refine ih (x :: stack) ?_ s hs
          intro z hz
          rcases List.mem_cons.mp hz with h | h
          · rw [h]; exact ⟨h1, h2⟩
          · exact hst z h

theorem rdsGo_mem :
    ∀ (segs stack : List Str), ∀ s ∈ rdsGo stack segs,
      s ∈ stack ∨ s ∈ segs ∨ s = [] := by
  intro segs
  induction segs with
  | nil =>
    intro stack s hs
    simp only [rdsGo, List.mem_reverse] at hs
    exact Or.inl hs
  | cons x rest ih =>
    intro stack s hs
    cases rest with
    | nil =>
      simp only [rdsGo] at hs
      by_cases h1 : x = str "."
      · rw [if_pos h1] at hs
        rcases List.mem_append.mp hs with h | h
        · exact Or.inl (List.mem_reverse.mp h)
        · exact Or.inr (Or.inr (List.mem_singleton.mp h))
      · rw [if_neg h1] at hs
        by_cases h2 : x = str ".."
        · rw [if_pos h2] at hs
          rcases List.mem_append.mp hs with h | h
          · exact Or.inl (List.Sublist.mem (List.mem_reverse.mp h)
              (List.drop_sublist 1 stack))
          · exact Or.inr (Or.inr (List.mem_singleton.mp h))
        · rw [if_neg h2] at hs
          rw [List.mem_reverse] at hs
          rcases List.mem_cons.mp hs with h | h
          · exact Or.inr (Or.inl (by rw [h]; exact List.mem_cons_self x []))
          · exact Or.inl h
    | cons t ts =>
      simp only [rdsGo] at hs
      by_cases h1 : x = str "."
      · rw [if_pos h1] at hs
        rcases ih stack s hs with h | h | h
        · exact Or.inl h
        · exact Or.inr (Or.inl (List.mem_cons_of_mem x h))
        · exact Or.inr (Or.inr h)
      · rw [if_neg h1] at hs
        by_cases h2 : x = str ".."
        · rw [if_pos h2] at hs
          rcases ih (stack.drop 1) s hs with h | h | h
          · exact Or.inl (List.mem_of_mem_drop h)
          · exact Or.inr (Or.inl (List.mem_cons_of_mem x h))
          · exact Or.inr (Or.inr h)
        · rw [if_neg h2] at hs
          rcases ih (x :: stack) s hs with h | h | h
          · rcases List.mem_cons.mp h with h | h
            · exact Or.inr (Or.inl (by rw [h]; exact List.mem_cons_self x _))
            · exact Or.inl h
          · exact Or.inr (Or.inl (List.mem_cons_of_mem x h))
          · exact Or.inr (Or.inr h)

theorem rdsGo_ne_nil :
    ∀ (segs stack : List Str), segs ≠ [] → rdsGo stack segs ≠ [] := by
  intro segs
  induction segs with
  | nil => intro stack h; exact absurd rfl h
  | cons x rest ih =>
    intro stack _
    cases rest with
    | nil =>
      simp only [rdsGo]
      by_cases h1 : x = str "."
      · rw [if_pos h1]; simp
      · rw [if_neg h1]
        by_cases h2 : x = str ".."
        · rw [if_pos h2]; simp
        · rw [if_neg h2]; simp
    | cons t ts =>
      simp only [rdsGo]
      by_cases h1 : x = str "."
      · rw [if_pos h1]; exact ih stack (by simp)
      · rw [if_neg h1]
        by_cases h2 : x = str ".."
        · rw [if_pos h2]; exact ih _ (by simp)
        · rw [if_neg h2]; exact ih _ (by simp)

theorem removeDotSegments_id (p : Str) (hh : p.head? = some '/')
    (hd : ∀ s ∈ pathSegs p, s ≠ str "." ∧ s ≠ str "..") :
    removeDotSegments p = p := by
  cases p with
  | nil => cases hh
  | cons c cs =>
    obtain rfl : c = '/' := by
      have : some c = some '/' := hh
      exact Option.some_inj.mp this
    have hsegs : pathSegs ('/' :: cs) = splitOnChar '/' cs := rfl
    rw [hsegs] at hd
    show unsegs (rdsGo [] (pathSegs ('/' :: cs))) = '/' :: cs
    rw [hsegs, rdsGo_id _ hd []]
    show '/' :: joinSep '/' ([].reverse ++ splitOnChar '/' cs) = '/' :: cs
    rw [List.reverse_nil, List.nil_append, joinSep_splitOnChar]

theorem removeDotSegments_head (p : Str) :
    (removeDotSegments p).head? = some '/' := rfl

theorem mem_removeDotSegments (p : Str) (c : Char) (h : c ∈ removeDotSegments p) :
    c = '/' ∨ c ∈ p := by
  simp only [removeDotSegments, unsegs] at h
  rcases List.mem_cons.mp h with h | h
  · exact Or.inl h
  · rcases mem_joinSep '/' _ c h with h | ⟨x, hx, hcx⟩
    · exact Or.inl h
    · rcases rdsGo_mem _ [] x hx with h | h | h
      · cases h
      · obtain ⟨-, h2⟩ := mem_splitOnChar '/' _ x h
        exact Or.inr (List.mem_of_mem_drop (h2 c hcx))
      · rw [h] at hcx; cases hcx

theorem nodots_removeDotSegments (p : Str) :
    ∀ s ∈ pathSegs (removeDotSegments p), s ≠ str "." ∧ s ≠ str ".." := by
  intro s hs
  have hnn : rdsGo [] (pathSegs p) ≠ [] :=
    rdsGo_ne_nil _ [] (splitOnChar_ne_nil '/' _)
  have hns : ∀ x ∈ rdsGo [] (pathSegs p), '/' ∉ x := by
    intro x hx
    rcases rdsGo_mem _ [] x hx with h | h | h
    · cases h
    · exact (mem_splitOnChar '/' _ x h).1
    · rw [h]; simp
  have hsegs : pathSegs (removeDotSegments p) = rdsGo [] (pathSegs p) := by
    show splitOnChar '/' (('/' :: joinSep '/' (rdsGo [] (pathSegs p))).drop 1)
      = rdsGo [] (pathSegs p)
    rw [List.drop_one, List.tail_cons]
    exact splitOnChar_joinSep '/' _ hnn hns
  rw [hsegs] at hs
  exact rdsGo_nodots _ [] (by intro z hz; cases hz) s hs

/-! ## Slash-collapse helpers (for C8) -/

theorem noDupSlash_cons_iff (c : Char) (s : Str) :
    noDupSlash (c :: s) = true ↔
      noDupSlash s = true ∧ (c = '/' → s.head? ≠ some '/') := by
  cases s with
  | nil => simp [noDupSlash]
  | cons d rest =>
    simp only [noDupSlash, Bool.and_eq_true, Bool.not_eq_true', Bool.and_eq_false_iff,
      List.head?_cons]
    constructor
    · rintro ⟨h1, h2⟩
      refine ⟨h2, ?_⟩
      intro hc hd
      rcases h1 with h | h
      · rw [hc] at h; simp at h
      · rw [Option.some_inj.mp hd] at h; simp at h
    · rintro ⟨h1, h2⟩
      refine ⟨?_, h1⟩
      by_cases hc : c = '/'
      · right
        have hd : d ≠ '/' := by
          intro hd
          exact h2 hc (by rw [hd])
        simp [hd]
      · left; simp [hc]

theorem collapseGo_true_head :
    ∀ (s : Str) (c : Char), (collapseGo true s).head? = some c → c ≠ '/' := by
  intro s
  induction s with
  | nil => intro c h; cases h
  | cons x xs ih =>
    intro c h
    by_cases hx : x = '/'
    · rw [show collapseGo true (x :: xs) = collapseGo true xs by
        simp [collapseGo, hx]] at h
      exact ih c h
    · rw [show collapseGo true (x :: xs) = x :: collapseGo false xs by
        simp [collapseGo, hx]] at h
      intro hc
      rw [hc] at h
      exact hx (Option.some_inj.mp h)

theorem noDupSlash_collapseGo : ∀ (s : Str) (b : Bool),
    noDupSlash (collapseGo b s) = true := by
  intro s
  induction s with
  | nil => intro b; rfl
  | cons x xs ih =>
    intro b
    by_cases hx : x = '/'
    · cases b with
      | true =>
        rw [show collapseGo true (x :: xs) = collapseGo true xs by
          simp [collapseGo, hx]]
        exact ih true
      | false =>
        rw [show collapseGo false (x :: xs) = '/' :: collapseGo true xs by
          simp [collapseGo, hx]]
        rw [noDupSlash_cons_iff]
        refine ⟨ih true, ?_⟩
        intro _ hh
        cases hh2 : (collapseGo true xs).head? with
        | none => rw [hh2] at hh; cases hh
        | some d =>
          rw [hh2] at hh
          exact collapseGo_true_head xs d hh2 (Option.some_inj.mp hh)
    · rw [show collapseGo b (x :: xs) = x :: collapseGo false xs by
        simp [collapseGo, hx]]
      rw [noDupSlash_cons_iff]
      exact ⟨ih false, fun hc => absurd hc hx⟩

theorem noDupSlash_collapseSlashes (s : Str) :
    noDupSlash (collapseSlashes s) = true :=
  noDupSlash_collapseGo s false

theorem collapseGo_eq_self : ∀ (s : Str), noDupSlash s = true →
    collapseGo false s = s ∧
      ((∀ c, s.head? = some c → c ≠ '/') → collapseGo true s = s) := by
  intro s
  induction s with
  | nil => intro _; exact ⟨rfl, fun _ => rfl⟩
  | cons x xs ih =>
    intro h
    obtain ⟨h1, h2⟩ := (noDupSlash_cons_iff x xs).mp h
    obtain ⟨ihf, iht⟩ := ih h1
    constructor
    · by_cases hx : x = '/'
      · rw [show collapseGo false (x :: xs) = '/' :: collapseGo true xs by
          simp [collapseGo, hx]]
        rw [iht, hx]
        intro c hc hcs
        exact h2 hx (by rw [hc, hcs])
      · rw [show collapseGo false (x :: xs) = x :: collapseGo false xs by
          simp [collapseGo, hx]]
        rw [ihf]
    · intro hhead
      have hx : x ≠ '/' := hhead x rfl
      rw [show collapseGo true (x :: xs) = x :: collapseGo false xs by
        simp [collapseGo, hx]]
      rw [ihf]

theorem collapseSlashes_eq_self (s : Str) (h : noDupSlash s = true) :
    collapseSlashes s = s :=
  (collapseGo_eq_self s h).1

theorem mem_collapseGo : ∀ (s : Str) (b : Bool) (c : Char),
    c ∈ collapseGo b s → c ∈ s := by
  intro s
  induction s with
  | nil => intro b c h; cases h
  | cons x xs ih =>
    intro b c h
    by_cases hx : x = '/'
    · cases b with
      | true =>
        rw [show collapseGo true (x :: xs) = collapseGo true xs by
          simp [collapseGo, hx]] at h
        exact List.mem_cons_of_mem x (ih true c h)
      | false =>
        rw [show collapseGo false (x :: xs) = '/' :: collapseGo true xs by
          simp [collapseGo, hx]] at h
        rcases List.mem_cons.mp h with h | h
        · rw [h, ← hx]; exact List.mem_cons_self x xs
        · exact List.mem_cons_of_mem x (ih true c h)
    · rw [show collapseGo b (x :: xs) = x :: collapseGo false xs by
        simp [collapseGo, hx]] at h
      rcases List.mem_cons.mp h with h | h
      · rw [h]; exact List.mem_cons_self x xs
      · exact List.mem_cons_of_mem x (ih false c h)

theorem noDupSlash_dropLast : ∀ (s : Str), noDupSlash s = true →
    noDupSlash s.dropLast = true := by
  intro s
  induction s with
  | nil => intro _; rfl
  | cons x xs ih =>
    intro h
    obtain ⟨h1, h2⟩ := (noDupSlash_cons_iff x xs).mp h
    cases xs with
    | nil => rfl
    | cons y ys =>
      rw [List.dropLast_cons₂, noDupSlash_cons_iff]
      refine ⟨ih h1, ?_⟩
      intro hx hh
      cases ys with
      | nil => cases hh
      | cons z zs =>
        rw [List.dropLast_cons₂, List.head?_cons] at hh
        exact h2 hx (by rw [Option.some_inj.mp hh]; rfl)

theorem noDupSlash_append_pair : ∀ (y : Str) (a b : Char),
    noDupSlash (y ++ [a, b]) = true → ¬(a = '/' ∧ b = '/') := by
  intro y
  induction y with
  | nil =>
    intro a b h hab
    obtain ⟨h1, h2⟩ := (noDupSlash_cons_iff a [b]).mp h
    exact h2 hab.1 (by rw [hab.2]; rfl)
  | cons x ys ih =>
    intro a b h hab
    rw [List.cons_append, noDupSlash_cons_iff] at h
    exact ih a b h.1 hab

/-! ## Query-sorting helpers (for C8) -/

theorem lexLt_asymm : ∀ (a b : Str), lexLt a b = true → lexLt b a = false := by
  intro a
  induction a with
  | nil =>
    intro b h
    cases b with
    | nil => cases h
    | cons c cs => rfl
  | cons x xs ih =>
    intro b h
    cases b with
    | nil => cases h
    | cons y ys =>
      simp only [lexLt] at h ⊢
      by_cases hxy : x = y
      · rw [if_pos hxy] at h
        rw [if_pos hxy.symm]
        exact ih ys h
      · rw [if_neg hxy] at h
        rw [if_neg (fun hh => hxy hh.symm)]
        have hlt : x < y := of_decide_eq_true h
        simp [not_lt_of_gt hlt, le_of_lt hlt]

theorem insertByKey_head (x : Str × Str) :
    ∀ (l : List (Str × Str)), (insertByKey x l).head? = some x ∨
      (insertByKey x l).head? = l.head? := by
  intro l
  cases l with
  | nil => exact Or.inl rfl
  | cons y ys =>
    simp only [insertByKey]
    by_cases h : lexLt y.1 x.1 = true
    · rw [if_pos h]; exact Or.inr rfl
    · rw [if_neg h]; exact Or.inl rfl

theorem mem_insertByKey (x : Str × Str) :
    ∀ (l : List (Str × Str)) (z : Str × Str), z ∈ insertByKey x l →
      z = x ∨ z ∈ l := by
  intro l
  induction l with
  | nil =>
    intro z hz
    exact Or.inl (List.mem_singleton.mp hz)
  | cons y ys ih =>
    intro z hz
    simp only [insertByKey] at hz
    by_cases h : lexLt y.1 x.1 = true
    · rw [if_pos h] at hz
      rcases List.mem_cons.mp hz with h1 | h1
      · exact Or.inr (by rw [h1]; exact List.mem_cons_self y ys)
      · rcases ih z h1 with h2 | h2
        · exact Or.inl h2
        · exact Or.inr (List.mem_cons_of_mem y h2)
    · rw [if_neg h] at hz
      rcases List.mem_cons.mp hz with h1 | h1
      · exact Or.inl h1
      · exact Or.inr h1

theorem mem_sortByKey : ∀ (l : List (Str × Str)) (z : Str × Str),
    z ∈ sortByKey l → z ∈ l := by
  intro l
  induction l with
  | nil => intro z hz; cases hz
  | cons x xs ih =>
    intro z hz
    simp only [sortByKey] at hz
    rcases mem_insertByKey x _ z hz with h | h
    · rw [h]; exact List.mem_cons_self x xs
    · exact List.mem_cons_of_mem x (ih z h)

theorem insertByKey_sorted (x : Str × Str) :
    ∀ (l : List (Str × Str)), pairsSorted l → pairsSorted (insertByKey x l) := by
  intro l
  induction l with
  | nil => intro _; simp [insertByKey, pairsSorted]
  | cons y ys ih =>
    intro h
    obtain ⟨h1, h2⟩ := List.chain'_cons'.mp h
    simp only [insertByKey]
    by_cases hk : lexLt y.1 x.1 = true
    · rw [if_pos hk]
      rw [pairsSorted, List.chain'_cons']
      refine ⟨?_, ih h2⟩
      intro z hz
      rcases insertByKey_head x ys with hh | hh
      · rw [hh] at hz
        rw [Option.mem_def] at hz
        rw [Option.some_inj.mp hz.symm]
        exact lexLt_asymm _ _ hk
      · rw [hh] at hz
        exact h1 z hz
    · rw [if_neg hk]
      rw [pairsSorted, List.chain'_cons']
      refine ⟨?_, h⟩
      intro z hz
      rw [List.head?_cons, Option.mem_def] at hz
      rw [Option.some_inj.mp hz.symm]
      exact Bool.not_eq_true _ ▸ hk

theorem sortByKey_sorted : ∀ (l : List (Str × Str)), pairsSorted (sortByKey l) := by
  intro l
  induction l with
  | nil => simp [sortByKey, pairsSorted]
  | cons x xs ih => exact insertByKey_sorted x _ ih

theorem sortByKey_eq_self : ∀ (l : List (Str × Str)), pairsSorted l →
    sortByKey l = l := by
  intro l
  induction l with
  | nil => intro _; rfl
  | cons x xs ih =>
    intro h
    obtain ⟨h1, h2⟩ := List.chain'_cons'.mp h
    simp only [sortByKey]
    rw [ih h2]
    cases xs with
    | nil => rfl
    | cons y ys =>
      simp only [insertByKey]
      rw [if_neg ?hny]
      case hny =>
        have := h1 y (by rw [List.head?_cons]; rfl)
        simp [this]

/-! ## Empty-segment helpers (for C8) -/

theorem dropEmptySegs_ne_nil : ∀ (l : List Str), l ≠ [] →
    dropEmptySegs l ≠ [] := by
  intro l
  induction l with
  | nil => intro h; exact absurd rfl h
  | cons x xs ih =>
    intro _
    cases xs with
    | nil => simp [dropEmptySegs]
    | cons y ys =>
      simp only [dropEmptySegs]
      by_cases hx : x.isEmpty = true
      · rw [if_pos hx]; exact ih (by simp)
      · rw [if_neg hx]; simp

theorem mem_dropEmptySegs : ∀ (l : List Str) (x : Str),
    x ∈ dropEmptySegs l → x ∈ l := by
  intro l
  induction l with
  | nil => intro x hx; cases hx
  | cons y ys ih =>
    intro x hx
    cases ys with
    | nil => exact hx
    | cons z zs =>
      simp only [dropEmptySegs] at hx
      by_cases hy : y.isEmpty = true
      · rw [if_pos hy] at hx
        exact List.mem_cons_of_mem y (ih x hx)
      · rw [if_neg hy] at hx
        rcases List.mem_cons.mp hx with h | h
        · rw [h]; exact List.mem_cons_self y _
        · exact List.mem_cons_of_mem y (ih x h)

theorem dropEmptySegs_init_ne : ∀ (l : List Str),
    ∀ x ∈ (dropEmptySegs l).dropLast, x ≠ [] := by
  intro l
  induction l with
  | nil => intro x hx; cases hx
  | cons y ys ih =>
    intro x hx
    cases ys with
    | nil =>
      simp only [dropEmptySegs, List.dropLast_single] at hx
      cases hx
    | cons z zs =>
      simp only [dropEmptySegs] at hx
      by_cases hy : y.isEmpty = true
      · rw [if_pos hy] at hx
        exact ih x hx
      · rw [if_neg hy] at hx
        rcases hde : dropEmptySegs (z :: zs) with _ | ⟨w, ws⟩
        · exact absurd hde (dropEmptySegs_ne_nil (z :: zs) (by simp))
        · rw [hde] at hx
          rw [List.dropLast_cons₂] at hx
          rcases List.mem_cons.mp hx with h | h
          · rw [h]
            intro habs
            rw [habs] at hy
            exact hy rfl
          · rw [← hde] at h
            exact ih x h

theorem collapseGo_slashfree_prefix :
    ∀ (x : Str), x ≠ [] → ('/' ∉ x) → ∀ (r : Str) (b : Bool),
      collapseGo b (x ++ r) = x ++ collapseGo false r := by
  intro x
  induction x with
  | nil => intro h; exact absurd rfl h
  | cons c cs ih =>
    intro _ hnf r b
    have hc : c ≠ '/' := fun hh => hnf (by rw [← hh]; exact List.mem_cons_self c cs)
    rw [List.cons_append,
      show collapseGo b (c :: (cs ++ r)) = c :: collapseGo false (cs ++ r) by
        simp [collapseGo, hc]]
    cases cs with
    | nil => rfl
    | cons d ds =>
      rw [ih (by simp) (fun hm => hnf (List.mem_cons_of_mem c hm)) r false]
      rfl

theorem collapse_unsegs :
    ∀ (segs : List Str), (∀ x ∈ segs, '/' ∉ x) →
      collapseGo true (joinSep '/' segs) = joinSep '/' (dropEmptySegs segs) := by
  intro segs
  induction segs with
  | nil => intro _; rfl
  | cons x xs ih =>
    intro h
    cases xs with
    | nil =>
      show collapseGo true x = x
      cases hx : x with
      | nil => rfl
      | cons c cs =>
        rw [← hx]
        have := collapseGo_slashfree_prefix x (by rw [hx]; simp)
          (h x (List.mem_cons_self x [])) [] true
        simpa [collapseGo] using this
    | cons y ys =>
      have hx := h x (List.mem_cons_self x _)
      have ihr := ih (fun z hz => h z (List.mem_cons_of_mem x hz))
      by_cases hxe : x = []
      · subst hxe
        show collapseGo true ('/' :: joinSep '/' (y :: ys)) = _
        rw [show collapseGo true ('/' :: joinSep '/' (y :: ys))
            = collapseGo true (joinSep '/' (y :: ys)) by simp [collapseGo]]
        rw [ihr]
        show _ = joinSep '/' (dropEmptySegs (y :: ys))
        rfl
      · have hstep : joinSep '/' (x :: y :: ys) = x ++ '/' :: joinSep '/' (y :: ys) := rfl
        rw [hstep, collapseGo_slashfree_prefix x hxe hx _ true]
        rw [show collapseGo false ('/' :: joinSep '/' (y :: ys))
            = '/' :: collapseGo true (joinSep '/' (y :: ys)) by simp [collapseGo]]
        rw [ihr]
        have hne : dropEmptySegs (y :: ys) ≠ [] :=
          dropEmptySegs_ne_nil (y :: ys) (by simp)
        have hde : dropEmptySegs (x :: y :: ys) = x :: dropEmptySegs (y :: ys) := by
          simp only [dropEmptySegs]
          rw [if_neg ?hxe2]
          case hxe2 =>
            intro habs
            exact hxe (List.isEmpty_iff.mp habs)
        rw [hde]
        rcases hd2 : dropEmptySegs (y :: ys) with _ | ⟨w, ws⟩
        · exact absurd hd2 hne
        · rfl

/-! ## Parser output invariants (for C8) -/

theorem mem_dirOf (p : Str) (c : Char) (h : c ∈ dirOf p) : c ∈ p := by
  simp only [dirOf] at h
  rw [List.mem_reverse] at h
  have h2 := List.Sublist.mem h (List.dropWhile_sublist _)
  exact List.mem_reverse.mp h2

theorem parseHostPort_inv (s h0 : Str) (p0 : Option Nat) (r0 : Str)
    (h : parseHostPort s = some (h0, p0, r0)) :
    h0 ≠ [] ∧ (∀ c ∈ h0, hostDelim c = false) ∧
      (∀ n, p0 = some n → n ≤ 65535) := by
  simp only [parseHostPort] at h
  split at h
  · simp at h
  · rename_i hne
    have hh1 : s.takeWhile (fun c => !hostDelim c) ≠ [] :=
      fun habs => hne (by rw [habs]; rfl)
    have hh2 : ∀ c ∈ s.takeWhile (fun c => !hostDelim c), hostDelim c = false := by
      intro c hc
      have h3 := List.mem_takeWhile_imp hc
      simpa using h3
    split at h
    · split at h
      · split at h
        · simp only [Option.some.injEq, Prod.mk.injEq] at h
          obtain ⟨hh, hp, -⟩ := h
          subst hh; subst hp
          exact ⟨hh1, hh2, by intro n hn; cases hn⟩
        · split at h
          · rename_i hle
            simp only [Option.some.injEq, Prod.mk.injEq] at h
            obtain ⟨hh, hp, -⟩ := h
            subst hh; subst hp
            refine ⟨hh1, hh2, ?_⟩
            intro n hn
            rw [← Option.some_inj.mp hn]
            exact hle
          · simp at h
      · split at h
        · split at h
          · simp only [Option.some.injEq, Prod.mk.injEq] at h
            obtain ⟨hh, hp, -⟩ := h
            subst hh; subst hp
            exact ⟨hh1, hh2, by intro n hn; cases hn⟩
          · split at h
            · rename_i hle
              simp only [Option.some.injEq, Prod.mk.injEq] at h
              obtain ⟨hh, hp, -⟩ := h
              subst hh; subst hp
              refine ⟨hh1, hh2, ?_⟩
              intro n hn
              rw [← Option.some_inj.mp hn]
              exact hle
            · simp at h
        · simp at h
    · simp only [Option.some.injEq, Prod.mk.injEq] at h
      obtain ⟨hh, hp, -⟩ := h
      subst hh; subst hp
      exact ⟨hh1, hh2, by intro n hn; cases hn⟩

theorem parseQuery_inv (q : Str) (hq : '#' ∉ q) :
    ∀ kv ∈ parseQuery q,
      '&' ∉ kv.1 ∧ '=' ∉ kv.1 ∧ '#' ∉ kv.1 ∧ '&' ∉ kv.2 ∧ '#' ∉ kv.2 := by
  intro kv hkv
  simp only [parseQuery, List.mem_map] at hkv
  obtain ⟨piece, hpiece, rfl⟩ := hkv
  obtain ⟨hps, -⟩ := List.mem_filter.mp hpiece
  obtain ⟨hamp, hsub⟩ := mem_splitOnChar '&' q piece hps
  have hhash : '#' ∉ piece := fun hm => hq (hsub _ hm)
  rcases hsp : splitAtFirst '=' piece with ⟨k, v?⟩
  cases v? with
  | none =>
    obtain ⟨hpk, hek⟩ := splitAtFirst_none_eq '=' piece k hsp
    have hpp : parsePair piece = (k, []) := by
      simp [parsePair, hsp]
    rw [hpp]
    subst hpk
    exact ⟨hamp, hek, hhash, by simp, by simp⟩
  | some v =>
    obtain ⟨hpk, hek⟩ := splitAtFirst_some_eq '=' piece k v hsp
    have hpp : parsePair piece = (k, v) := by
      simp [parsePair, hsp]
    rw [hpp]
    rw [hpk] at hamp hhash
    refine ⟨?_, hek, ?_, ?_, ?_⟩
    · exact fun hm => hamp (List.mem_append.mpr (Or.inl hm))
    · exact fun hm => hhash (List.mem_append.mpr (Or.inl hm))
    · exact fun hm => hamp (List.mem_append.mpr (Or.inr (List.mem_cons_of_mem _ hm)))
    · exact fun hm => hhash (List.mem_append.mpr (Or.inr (List.mem_cons_of_mem _ hm)))

theorem splitPQF_inv (s : Str) :
    '?' ∉ (splitPQF s).1 ∧ '#' ∉ (splitPQF s).1 ∧
      (∀ q, (splitPQF s).2.1 = some q → '#' ∉ q) ∧
      (∀ c ∈ (splitPQF s).1, c ∈ s) := by
  rcases hf : splitAtFirst '#' s with ⟨f1, f2⟩
  have hf1 : '#' ∉ f1 ∧ ∀ c ∈ f1, c ∈ s := by
    cases f2 with
    | none =>
      obtain ⟨he, hm⟩ := splitAtFirst_none_eq '#' s f1 hf
      exact ⟨hm, fun c hc => he ▸ hc⟩
    | some fb =>
      obtain ⟨he, hm⟩ := splitAtFirst_some_eq '#' s f1 fb hf
      exact ⟨hm, fun c hc => he ▸ List.mem_append.mpr (Or.inl hc)⟩
  rcases hq : splitAtFirst '?' f1 with ⟨q1, q2⟩
  have hsp : splitPQF s = (q1, q2, f2) := by
    simp [splitPQF, hf, hq]
  rw [hsp]
  cases q2 with
  | none =>
    obtain ⟨he, hm⟩ := splitAtFirst_none_eq '?' f1 q1 hq
    subst he
    exact ⟨hm, hf1.1, (by intro q hq2; cases hq2), hf1.2⟩
  | some qs =>
    obtain ⟨he, hm⟩ := splitAtFirst_some_eq '?' f1 q1 qs hq
    refine ⟨hm, ?_, ?_, ?_⟩
    · intro hmem
      exact hf1.1 (he ▸ List.mem_append.mpr (Or.inl hmem))
    · intro q hq2
      obtain rfl : qs = q := Option.some_inj.mp hq2
      intro hmem
      exact hf1.1 (he ▸ List.mem_append.mpr (Or.inr (List.mem_cons_of_mem _ hmem)))
    · intro c hc
      exact hf1.2 c (he ▸ List.mem_append.mpr (Or.inl hc))

theorem parseAbs_inv (s : Str) (b : URLRec) (h : parseAbs s = some b) :
    b.host ≠ [] ∧ (∀ c ∈ b.host, hostDelim c = false) ∧
      lowerStr b.host = b.host ∧
      (∀ n, b.port = some n → n ≤ 65535) ∧
      b.path.head? = some '/' ∧ '?' ∉ b.path ∧ '#' ∉ b.path ∧
      (∀ s2 ∈ pathSegs b.path, s2 ≠ str "." ∧ s2 ≠ str "..") ∧
      (∀ kv ∈ b.query,
        '&' ∉ kv.1 ∧ '=' ∉ kv.1 ∧ '#' ∉ kv.1 ∧ '&' ∉ kv.2 ∧ '#' ∉ kv.2) := by
  simp only [parseAbs] at h
  split at h
  · simp at h
  · split at h
    · split at h
      · simp at h
      · rename_i host port pqf heq
        rw [Option.some.injEq] at h
        subst h
        obtain ⟨hne, hnd, hple⟩ := parseHostPort_inv _ _ _ _ heq
        obtain ⟨hq1, hh1, hqq, -⟩ := splitPQF_inv pqf
        refine ⟨lowerStr_ne_nil hne, ?_, lowerStr_idem _, hple, rfl, ?_, ?_, ?_, ?_⟩
        · intro c hc
          obtain ⟨c0, hc0, rfl⟩ := mem_lowerStr hc
          exact hostDelim_lowerChar (hnd c0 hc0)
        · show '?' ∉ removeDotSegments _
          intro hm
          rcases mem_removeDotSegments _ _ hm with hh | hh
          · cases hh
          · by_cases hie : (splitPQF pqf).1.isEmpty = true
            · rw [if_pos hie] at hh
              simp [str] at hh
            · rw [if_neg hie] at hh
              exact hq1 hh
        · show '#' ∉ removeDotSegments _
          intro hm
          rcases mem_removeDotSegments _ _ hm with hh | hh
          · cases hh
          · by_cases hie : (splitPQF pqf).1.isEmpty = true
            · rw [if_pos hie] at hh
              simp [str] at hh
            · rw [if_neg hie] at hh
              exact hh1 hh
        · exact nodots_removeDotSegments _
        · show ∀ kv ∈ (match (splitPQF pqf).2.1 with
            | none => [] | some q => parseQuery q), _
          cases hq2 : (splitPQF pqf).2.1 with
          | none => simp
          | some q =>
            simp only
            exact parseQuery_inv q (hqq q hq2)
    · simp at h

theorem resolveURL_inv (raw base : Str) (r : URLRec)
    (h : resolveURL raw base = some r) :
    r.host ≠ [] ∧ (∀ c ∈ r.host, hostDelim c = false) ∧
      lowerStr r.host = r.host ∧
      (∀ n, r.port = some n → n ≤ 65535) ∧
      r.path.head? = some '/' ∧ '?' ∉ r.path ∧ '#' ∉ r.path ∧
      (∀ s2 ∈ pathSegs r.path, s2 ≠ str "." ∧ s2 ≠ str "..") ∧
      (∀ kv ∈ r.query,
        '&' ∉ kv.1 ∧ '=' ∉ kv.1 ∧ '#' ∉ kv.1 ∧ '&' ∉ kv.2 ∧ '#' ∉ kv.2) := by
  simp only [resolveURL] at h
  split at h
  · exact parseAbs_inv _ _ h
  · split at h
    · simp at h
    · rename_i b heqb
      obtain ⟨hbne, hbnd, hblo, hbple, hbh, hbq, hbhh, hbdots, hbqc⟩ :=
        parseAbs_inv base b heqb
      split at h
      · exact parseAbs_inv _ _ h
      · rename_i t hnm hns2
        rw [Option.some.injEq] at h
        subst h
        obtain ⟨hq1, hh1, hqq, -⟩ := splitPQF_inv ('/' :: t)
        refine ⟨hbne, hbnd, hblo, hbple, rfl, ?_, ?_, nodots_removeDotSegments _, ?_⟩
        · intro hm
          rcases mem_removeDotSegments _ _ hm with hh | hh
          · cases hh
          · exact hq1 hh
        · intro hm
          rcases mem_removeDotSegments _ _ hm with hh | hh
          · cases hh
          · exact hh1 hh
        · show ∀ kv ∈ (match (splitPQF ('/' :: t)).2.1 with
            | none => [] | some q => parseQuery q), _
          cases hq2 : (splitPQF ('/' :: t)).2.1 with
          | none => simp
          | some q =>
            simp only
            exact parseQuery_inv q (hqq q hq2)
      · rename_i t hns2
        rw [Option.some.injEq] at h
        subst h
        obtain ⟨-, -, hqq, -⟩ := splitPQF_inv ('?' :: t)
        refine ⟨hbne, hbnd, hblo, hbple, hbh, hbq, hbhh, hbdots, ?_⟩
        show ∀ kv ∈ (match (splitPQF ('?' :: t)).2.1 with
          | none => [] | some q => parseQuery q), _
        cases hq2 : (splitPQF ('?' :: t)).2.1 with
        | none => simp
        | some q =>
          simp only
          exact parseQuery_inv q (hqq q hq2)
      · rw [Option.some.injEq] at h
        subst h
        exact ⟨hbne, hbnd, hblo, hbple, hbh, hbq, hbhh, hbdots, hbqc⟩
      · rw [Option.some.injEq] at h
        subst h
        exact ⟨hbne, hbnd, hblo, hbple, hbh, hbq, hbhh, hbdots, hbqc⟩
      · rw [Option.some.injEq] at h
        subst h
        obtain ⟨hq1, hh1, hqq, -⟩ := splitPQF_inv raw
        refine ⟨hbne, hbnd, hblo, hbple, rfl, ?_, ?_, nodots_removeDotSegments _, ?_⟩
        · intro hm
          rcases mem_removeDotSegments _ _ hm with hh | hh
          · cases hh
          · rcases List.mem_append.mp hh with hh2 | hh2
            · exact hbq (mem_dirOf _ _ hh2)
            · exact hq1 hh2
        · intro hm
          rcases mem_removeDotSegments _ _ hm with hh | hh
          · cases hh
          · rcases List.mem_append.mp hh with hh2 | hh2
            · exact hbhh (mem_dirOf _ _ hh2)
            · exact hh1 hh2
        · show ∀ kv ∈ (match (splitPQF raw).2.1 with
            | none => [] | some q => parseQuery q), _
          cases hq2 : (splitPQF raw).2.1 with
          | none => simp
          | some q =>
            simp only
            exact parseQuery_inv q (hqq q hq2)

/-! ## Parsing a serialized URL record (for C8) -/

theorem parseHostPort_serialize (host : Str) (port : Option Nat) (rest : Str)
    (hne : host ≠ []) (hnd : ∀ c ∈ host, hostDelim c = false)
    (hple : ∀ n, port = some n → n ≤ 65535)
    (hrh : rest.head? = some '/') :
    parseHostPort (host ++
      ((match port with | none => [] | some n => ':' :: natToChars n) ++ rest))
      = some (host, port, rest) := by
  obtain ⟨rh, rfl⟩ : ∃ t, rest = '/' :: t := by
    cases rest with
    | nil => cases hrh
    | cons c cs =>
      have hc : c = '/' := Option.some_inj.mp hrh
      exact ⟨cs, by rw [hc]⟩
  have hie : host.isEmpty = false := by
    cases host with
    | nil => exact absurd rfl hne
    | cons _ _ => rfl
  have hna : ∀ c ∈ host, (fun c => !hostDelim c) c = true := by
    intro c hc
    show (!hostDelim c) = true
    rw [hnd c hc]
    rfl
  cases port with
  | none =>
    rw [List.nil_append]
    have hta := takeWhile_dropWhile_app (fun c => !hostDelim c) host ('/' :: rh)
      hna (fun c hc => by rw [show c = '/' from Option.some_inj.mp hc.symm]; rfl)
    simp only [parseHostPort, hta.1, hta.2, hie, Bool.false_eq_true, if_false]
    rfl
  | some n =>
    rw [List.cons_append]
    have hta := takeWhile_dropWhile_app (fun c => !hostDelim c) host
      (':' :: (natToChars n ++ '/' :: rh))
      hna (fun c hc => by rw [show c = ':' from Option.some_inj.mp hc.symm]; rfl)
    have htd := takeWhile_dropWhile_app isDigitCh (natToChars n) ('/' :: rh)
      (fun c hc => natToCharsAux_digits _ _ c hc)
      (fun c hc => by rw [show c = '/' from Option.some_inj.mp hc.symm]; rfl)
    have hde : (natToChars n).isEmpty = false := by
      cases hnc : natToChars n with
      | nil => exact absurd hnc (natToChars_ne_nil n)
      | cons _ _ => rfl
    simp only [parseHostPort, hta.1, hta.2, hie, Bool.false_eq_true, if_false,
      htd.1, htd.2, hde, charsToNat_natToChars]
    rw [if_pos (Or.inl trivial), if_pos (hple n rfl)]


theorem mem_serializeQuery (q : List (Str × Str)) (c : Char)
    (h : c ∈ serializeQuery q) :
    c = '&' ∨ c = '=' ∨ ∃ kv ∈ q, c ∈ kv.1 ∨ c ∈ kv.2 := by
  rcases mem_joinSep '&' _ c h with h | ⟨x, hx, hcx⟩
  · exact Or.inl h
  · simp only [List.mem_map] at hx
    obtain ⟨kv, hkv, rfl⟩ := hx
    rcases List.mem_append.mp hcx with h | h
    · exact Or.inr (Or.inr ⟨kv, hkv, Or.inl h⟩)
    · rcases List.mem_cons.mp h with h | h
      · exact Or.inr (Or.inl h)
      · exact Or.inr (Or.inr ⟨kv, hkv, Or.inr h⟩)

theorem parseQuery_serializeQuery (q : List (Str × Str)) (hq : q ≠ [])
    (hch : ∀ kv ∈ q, '&' ∉ kv.1 ∧ '=' ∉ kv.1 ∧ '&' ∉ kv.2) :
    parseQuery (serializeQuery q) = q := by
  have hpieces : splitOnChar '&' (serializeQuery q)
      = q.map (fun kv => kv.1 ++ '=' :: kv.2) := by
    apply splitOnChar_joinSep
    · simp [hq]
    · intro x hx
      simp only [List.mem_map] at hx
      obtain ⟨kv, hkv, rfl⟩ := hx
      intro hm
      rcases List.mem_append.mp hm with h | h
      · exact (hch kv hkv).1 h
      · rcases List.mem_cons.mp h with h | h
        · exact absurd h (by decide)
        · exact (hch kv hkv).2.2 h
  simp only [parseQuery, serializeQuery] at hpieces ⊢
  rw [hpieces]
  have hfil : (q.map (fun kv => kv.1 ++ '=' :: kv.2)).filter (fun s => !s.isEmpty)
      = q.map (fun kv => kv.1 ++ '=' :: kv.2) := by
    apply List.filter_eq_self.mpr
    intro a ha
    simp only [List.mem_map] at ha
    obtain ⟨kv, -, rfl⟩ := ha
    cases hk : kv.1 with
    | nil => rfl
    | cons _ _ => rfl
  rw [hfil, List.map_map]
  have hpp : ∀ kv ∈ q, (parsePair ∘ fun kv => kv.1 ++ '=' :: kv.2) kv = id kv := by
    intro kv hkv
    have hsp := splitAtFirst_app '=' kv.1 kv.2 (hch kv hkv).2.1
    show parsePair (kv.1 ++ '=' :: kv.2) = kv
    simp [parsePair, hsp]
  rw [List.map_congr_left hpp, List.map_id]

theorem takeWhile_http (R : Str) :
    (str "http" ++ (':' :: R)).takeWhile isAlphaCh = str "http" ∧
      (str "http" ++ (':' :: R)).dropWhile isAlphaCh = ':' :: R :=
  takeWhile_dropWhile_app isAlphaCh (str "http") (':' :: R) (by decide)
    (fun c hc => by rw [show c = ':' from Option.some_inj.mp hc.symm]; rfl)

theorem takeWhile_https (R : Str) :
    (str "https" ++ (':' :: R)).takeWhile isAlphaCh = str "https" ∧
      (str "https" ++ (':' :: R)).dropWhile isAlphaCh = ':' :: R :=
  takeWhile_dropWhile_app isAlphaCh (str "https") (':' :: R) (by decide)
    (fun c hc => by rw [show c = ':' from Option.some_inj.mp hc.symm]; rfl)

theorem parseAbs_serializeURL_aux (r : URLRec) (hinv : UrlInv r) (R0 : Str)
    (hta : (serializeURL r).takeWhile isAlphaCh = r.scheme)
    (htd : (serializeURL r).dropWhile isAlphaCh = ':' :: '/' :: '/' :: R0)
    (hhp : parseHostPort R0 = some (r.host, r.port,
      r.path ++ (if r.query.isEmpty then []
        else '?' :: serializeQuery r.query)))
    (hsne : r.scheme.isEmpty = false)
    (hles : lowerStr r.scheme = r.scheme) :
    parseAbs (serializeURL r) = some r := by
  obtain ⟨pt, hpt⟩ : ∃ t, r.path = '/' :: t := by
    have hh := hinv.path_head
    cases hp : r.path with
    | nil => rw [hp] at hh; cases hh
    | cons c cs =>
      rw [hp] at hh
      exact ⟨cs, by rw [Option.some_inj.mp hh]⟩
  have hpie : r.path.isEmpty = false := by rw [hpt]; rfl
  by_cases hq : r.query = []
  · have hqe : r.query.isEmpty = true := by rw [hq]; rfl
    rw [hqe, if_pos rfl, List.append_nil] at hhp
    have hsplit : splitPQF r.path = (r.path, none, none) := by
      have h1 := splitAtFirst_not_mem '#' r.path hinv.path_nh
      have h2 := splitAtFirst_not_mem '?' r.path hinv.path_nq
      simp [splitPQF, h1, h2]
    simp only [parseAbs, hta, htd, hsne, Bool.false_eq_true, if_false]
    simp only [hhp, hsplit, hpie, Bool.false_eq_true, if_false]
    rw [removeDotSegments_id r.path hinv.path_head hinv.path_nodots]
    rw [hles, hinv.host_lower]
    rw [show (⟨r.scheme, r.host, r.port, r.path, [], none⟩ : URLRec) = r from by
      rw [← hq, ← hinv.frag_none]]
  · have hqe : r.query.isEmpty = false := by
      cases hqq : r.query with
      | nil => exact absurd hqq hq
      | cons _ _ => rfl
    rw [hqe, if_neg (by simp)] at hhp
    have hqch : ∀ kv ∈ r.query, '&' ∉ kv.1 ∧ '=' ∉ kv.1 ∧ '&' ∉ kv.2 := by
      intro kv hkv
      obtain ⟨h1, h2, -, h4, -⟩ := hinv.query_chars kv hkv
      exact ⟨h1, h2, h4⟩
    have hnh : '#' ∉ r.path ++ '?' :: serializeQuery r.query := by
      intro hm
      rcases List.mem_append.mp hm with h | h
      · exact hinv.path_nh h
      · rcases List.mem_cons.mp h with h | h
        · exact absurd h (by decide)
        · rcases mem_serializeQuery _ _ h with h | h | ⟨kv, hkv, h⟩
          · exact absurd h (by decide)
          · exact absurd h (by decide)
          · obtain ⟨-, -, h3, -, h5⟩ := hinv.query_chars kv hkv
            rcases h with h | h
            · exact h3 h
            · exact h5 h
    have hsplit : splitPQF (r.path ++ '?' :: serializeQuery r.query)
        = (r.path, some (serializeQuery r.query), none) := by
      have h1 := splitAtFirst_not_mem '#' _ hnh
      have h2 := splitAtFirst_app '?' r.path (serializeQuery r.query) hinv.path_nq
      simp [splitPQF, h1, h2]
    simp only [parseAbs, hta, htd, hsne, Bool.false_eq_true, if_false]
    simp only [hhp, hsplit, hpie, Bool.false_eq_true, if_false]
    rw [removeDotSegments_id r.path hinv.path_head hinv.path_nodots]
    rw [hles, hinv.host_lower]
    rw [parseQuery_serializeQuery r.query hq hqch]
    rw [show (⟨r.scheme, r.host, r.port, r.path, r.query, none⟩ : URLRec) = r from by
      rw [← hinv.frag_none]]

theorem parseAbs_serializeURL (r : URLRec) (hinv : UrlInv r) :
    parseAbs (serializeURL r) = some r := by
  have hcolon : str "://" = ':' :: '/' :: '/' :: ([] : Str) := rfl
  obtain ⟨pt, hpt⟩ : ∃ t, r.path = '/' :: t := by
    have hh := hinv.path_head
    cases hp : r.path with
    | nil => rw [hp] at hh; cases hh
    | cons c cs =>
      rw [hp] at hh
      exact ⟨cs, by rw [Option.some_inj.mp hh]⟩
  have hrp : (r.path ++ (if r.query.isEmpty then []
      else '?' :: serializeQuery r.query)).head? = some '/' := by
    rw [hpt]; rfl
  rcases hinv.scheme_eq with hs | hs <;> rcases hport : r.port with _ | n
  · have hser : serializeURL r = str "http" ++ (':' :: '/' :: '/' ::
        (r.host ++ (r.path ++ (if r.query.isEmpty then []
          else '?' :: serializeQuery r.query)))) := by
      simp only [serializeURL, serializeOrigin, hs, hport, hinv.frag_none, hcolon]
      simp [List.append_assoc]
    refine parseAbs_serializeURL_aux r hinv
      (r.host ++ (r.path ++ (if r.query.isEmpty then []
        else '?' :: serializeQuery r.query))) ?_ ?_ ?_ ?_ ?_
    · rw [hser, (takeWhile_http _).1, hs]
    · rw [hser, (takeWhile_http _).2]
    · rw [hport]
      have h2 := parseHostPort_serialize r.host none
        (r.path ++ (if r.query.isEmpty then []
          else '?' :: serializeQuery r.query)) hinv.host_ne
        hinv.host_nodelim (by intro m hm; cases hm) hrp
      simpa using h2
    · rw [hs]; rfl
    · rw [hs]; decide
  · have hser : serializeURL r = str "http" ++ (':' :: '/' :: '/' ::
        (r.host ++ ((':' :: natToChars n) ++ (r.path ++
          (if r.query.isEmpty then []
            else '?' :: serializeQuery r.query))))) := by
      simp only [serializeURL, serializeOrigin, hs, hport, hinv.frag_none, hcolon]
      simp [List.append_assoc]
    refine parseAbs_serializeURL_aux r hinv
      (r.host ++ ((':' :: natToChars n) ++ (r.path ++
        (if r.query.isEmpty then []
          else '?' :: serializeQuery r.query)))) ?_ ?_ ?_ ?_ ?_
    · rw [hser, (takeWhile_http _).1, hs]
    · rw [hser, (takeWhile_http _).2]
    · rw [hport]
      have h2 := parseHostPort_serialize r.host (some n)
        (r.path ++ (if r.query.isEmpty then []
          else '?' :: serializeQuery r.query)) hinv.host_ne
        hinv.host_nodelim
        (by intro m hm; rw [← Option.some_inj.mp hm]; exact hinv.port_le n hport)
        hrp
      simpa using h2
    · rw [hs]; rfl
    · rw [hs]; decide
  · have hser : serializeURL r = str "https" ++ (':' :: '/' :: '/' ::
        (r.host ++ (r.path ++ (if r.query.isEmpty then []
          else '?' :: serializeQuery r.query)))) := by
      simp only [serializeURL, serializeOrigin, hs, hport, hinv.frag_none, hcolon]
      simp [List.append_assoc]
    refine parseAbs_serializeURL_aux r hinv
      (r.host ++ (r.path ++ (if r.query.isEmpty then []
        else '?' :: serializeQuery r.query))) ?_ ?_ ?_ ?_ ?_
    · rw [hser, (takeWhile_https _).1, hs]
    · rw [hser, (takeWhile_https _).2]
    · rw [hport]
      have h2 := parseHostPort_serialize r.host none
        (r.path ++ (if r.query.isEmpty then []
          else '?' :: serializeQuery r.query)) hinv.host_ne
        hinv.host_nodelim (by intro m hm; cases hm) hrp
      simpa using h2
    · rw [hs]; rfl
    · rw [hs]; decide
  · have hser : serializeURL r = str "https" ++ (':' :: '/' :: '/' ::
        (r.host ++ ((':' :: natToChars n) ++ (r.path ++
          (if r.query.isEmpty then []
            else '?' :: serializeQuery r.query))))) := by
      simp only [serializeURL, serializeOrigin, hs, hport, hinv.frag_none, hcolon]
      simp [List.append_assoc]
    refine parseAbs_serializeURL_aux r hinv
      (r.host ++ ((':' :: natToChars n) ++ (r.path ++
        (if r.query.isEmpty then []
          else '?' :: serializeQuery r.query)))) ?_ ?_ ?_ ?_ ?_
    · rw [hser, (takeWhile_https _).1, hs]
    · rw [hser, (takeWhile_https _).2]
    · rw [hport]
      have h2 := parseHostPort_serialize r.host (some n)
        (r.path ++ (if r.query.isEmpty then []
          else '?' :: serializeQuery r.query)) hinv.host_ne
        hinv.host_nodelim
        (by intro m hm; rw [← Option.some_inj.mp hm]; exact hinv.port_le n hport)
        hrp
      simpa using h2
    · rw [hs]; rfl
    · rw [hs]; decide

/-! ## Normalization is the identity on invariant-satisfying records (for C8) -/

theorem hasScheme_serializeURL (r : URLRec)
    (hs2 : r.scheme = str "http" ∨ r.scheme = str "https") :
    hasScheme (serializeURL r) = true := by
  have hcolon : str "://" = ':' :: '/' :: '/' :: ([] : Str) := rfl
  rcases hs2 with hs | hs
  · obtain ⟨R, hser⟩ : ∃ R, serializeURL r = str "http" ++ (':' :: R) := by
      simp only [serializeURL, serializeOrigin, hs, hcolon]
      simp [List.append_assoc]
    rw [hser]
    simp only [hasScheme, (takeWhile_http R).1, (takeWhile_http R).2]
    rfl
  · obtain ⟨R, hser⟩ : ∃ R, serializeURL r = str "https" ++ (':' :: R) := by
      simp only [serializeURL, serializeOrigin, hs, hcolon]
      simp [List.append_assoc]
    rw [hser]
    simp only [hasScheme, (takeWhile_https R).1, (takeWhile_https R).2]
    rfl

theorem resolveURL_serializeURL (r : URLRec) (hinv : UrlInv r) :
    resolveURL (serializeURL r) (serializeURL r) = some r := by
  have hhs := hasScheme_serializeURL r hinv.scheme_eq
  simp only [resolveURL, hhs, if_true]
  exact parseAbs_serializeURL r hinv

theorem normalizeUrl_fix (r : URLRec) (hinv : UrlInv r) :
    normalizeUrl (serializeURL r) (serializeURL r) = some (serializeURL r) := by
  have hres := resolveURL_serializeURL r hinv
  simp only [normalizeUrl, hres]
  rw [if_neg ?hsc]
  case hsc =>
    rcases hinv.scheme_eq with hs | hs
    · intro hcon; exact hcon.1 hs
    · intro hcon; exact hcon.2 hs
  have hles : lowerStr r.scheme = r.scheme := by
    rcases hinv.scheme_eq with hs | hs <;> rw [hs] <;> decide
  have hfil : List.filter (fun kv => !STRIP_PARAMS.contains (lowerStr kv.1))
      r.query = r.query :=
    List.filter_eq_self.mpr hinv.query_kept
  rw [hles, hinv.host_lower, hfil, sortByKey_eq_self r.query hinv.query_sorted,
    collapseSlashes_eq_self r.path hinv.path_nodup,
    if_neg hinv.port_nondef, if_neg ?hnt, ← hinv.frag_none]
  case hnt =>
    intro hcon
    rcases hinv.path_notrail with h | h
    · rw [h] at hcon
      exact absurd hcon.1 (by decide)
    · exact h hcon.2

/-! ## Every `normalizeUrl` output satisfies the invariants (for C8) -/

theorem normalizeUrl_inv (raw base u : Str) (h : normalizeUrl raw base = some u) :
    ∃ r, UrlInv r ∧ u = serializeURL r := by
  cases hres : resolveURL raw base with
  | none =>
    simp only [normalizeUrl, hres] at h
    simp at h
  | some u0 =>
    simp only [normalizeUrl, hres] at h
    by_cases hbad : u0.scheme ≠ str "http" ∧ u0.scheme ≠ str "https"
    · rw [if_pos hbad] at h
      cases h
    · rw [if_neg hbad] at h
      have hsch : u0.scheme = str "http" ∨ u0.scheme = str "https" := by
        by_cases h1 : u0.scheme = str "http"
        · exact Or.inl h1
        · by_cases h2 : u0.scheme = str "https"
          · exact Or.inr h2
          · exact absurd ⟨h1, h2⟩ hbad
      rw [Option.some.injEq] at h
      obtain ⟨hne, hnd, hlo, hple, hph, hpq, hphh, hdots, hqc⟩ :=
        resolveURL_inv raw base u0 hres
      have hles : lowerStr u0.scheme = u0.scheme := by
        rcases hsch with hs | hs <;> rw [hs] <;> decide
      obtain ⟨t0, hpt⟩ : ∃ t, u0.path = '/' :: t := by
        cases hp : u0.path with
        | nil => rw [hp] at hph; cases hph
        | cons c cs =>
          rw [hp] at hph
          exact ⟨cs, by rw [Option.some_inj.mp hph]⟩
      have hsegs0 : ∀ x ∈ pathSegs u0.path, '/' ∉ x :=
        fun x hx => (mem_splitOnChar '/' (u0.path.drop 1) x hx).1
      have hunsegs : unsegs (pathSegs u0.path) = u0.path := by
        rw [hpt]
        show '/' :: joinSep '/' (splitOnChar '/' (('/' :: t0).drop 1)) = '/' :: t0
        rw [List.drop_one, List.tail_cons, joinSep_splitOnChar]
      have hcoll : collapseSlashes u0.path
          = unsegs (dropEmptySegs (pathSegs u0.path)) := by
        conv_lhs => rw [← hunsegs]
        show collapseGo false ('/' :: joinSep '/' (pathSegs u0.path)) = _
        rw [show collapseGo false ('/' :: joinSep '/' (pathSegs u0.path))
            = '/' :: collapseGo true (joinSep '/' (pathSegs u0.path)) by
          simp [collapseGo]]
        rw [collapse_unsegs _ hsegs0]
        rfl
      have hSSne : dropEmptySegs (pathSegs u0.path) ≠ [] :=
        dropEmptySegs_ne_nil _ (splitOnChar_ne_nil '/' _)
      have hSSnosl : ∀ x ∈ dropEmptySegs (pathSegs u0.path), '/' ∉ x :=
        fun x hx => hsegs0 x (mem_dropEmptySegs _ x hx)
      have hSSdots : ∀ x ∈ dropEmptySegs (pathSegs u0.path),
          x ≠ str "." ∧ x ≠ str ".." :=
        fun x hx => hdots x (mem_dropEmptySegs _ x hx)
      have hsegs4 : pathSegs (collapseSlashes u0.path)
          = dropEmptySegs (pathSegs u0.path) := by
        rw [hcoll]
        show splitOnChar '/'
            (('/' :: joinSep '/' (dropEmptySegs (pathSegs u0.path))).drop 1) = _
        rw [List.drop_one, List.tail_cons]
        exact splitOnChar_joinSep '/' _ hSSne hSSnosl
      have hp4h : ∃ t4, collapseSlashes u0.path = '/' :: t4 := by
        rw [hcoll]; exact ⟨_, rfl⟩
      have hp4nq : '?' ∉ collapseSlashes u0.path :=
        fun hm => hpq (mem_collapseGo _ _ _ hm)
      have hp4nh : '#' ∉ collapseSlashes u0.path :=
        fun hm => hphh (mem_collapseGo _ _ _ hm)
      have hp4dots : ∀ s2 ∈ pathSegs (collapseSlashes u0.path),
          s2 ≠ str "." ∧ s2 ≠ str ".." := by
        rw [hsegs4]; exact hSSdots
      have hp4dup := noDupSlash_collapseSlashes u0.path
      have Hhne : lowerStr u0.host ≠ [] := lowerStr_ne_nil hne
      have Hhnd : ∀ c ∈ lowerStr u0.host, hostDelim c = false := by
        intro c hc
        obtain ⟨c0, hc0, rfl⟩ := mem_lowerStr hc
        exact hostDelim_lowerChar (hnd c0 hc0)
      have Hhlo : lowerStr (lowerStr u0.host) = lowerStr u0.host :=
        lowerStr_idem _
      have Hqc : ∀ kv ∈ sortByKey (u0.query.filter
          (fun kv => !STRIP_PARAMS.contains (lowerStr kv.1))),
          '&' ∉ kv.1 ∧ '=' ∉ kv.1 ∧ '#' ∉ kv.1 ∧ '&' ∉ kv.2 ∧ '#' ∉ kv.2 :=
        fun kv hkv => hqc kv (List.mem_of_mem_filter (mem_sortByKey _ kv hkv))
      have Hqk : ∀ kv ∈ sortByKey (u0.query.filter
          (fun kv => !STRIP_PARAMS.contains (lowerStr kv.1))),
          (!STRIP_PARAMS.contains (lowerStr kv.1)) = true :=
        fun kv hkv => (List.mem_filter.mp (mem_sortByKey _ kv hkv)).2
      have Hqs := sortByKey_sorted (u0.query.filter
        (fun kv => !STRIP_PARAMS.contains (lowerStr kv.1)))
      refine ⟨_, ?_, h.symm⟩
      rw [hles]
      have Hple : ∀ n, (if (u0.scheme = str "http" ∧ u0.port = some 80) ∨
          (u0.scheme = str "https" ∧ u0.port = some 443) then none
          else u0.port) = some n → n ≤ 65535 := by
        intro n hn
        by_cases hc6 : (u0.scheme = str "http" ∧ u0.port = some 80) ∨
          (u0.scheme = str "https" ∧ u0.port = some 443)
        · rw [if_pos hc6] at hn; cases hn
        · rw [if_neg hc6] at hn; exact hple n hn
      have Hnondef : ¬((u0.scheme = str "http" ∧
          (if (u0.scheme = str "http" ∧ u0.port = some 80) ∨
            (u0.scheme = str "https" ∧ u0.port = some 443) then none
            else u0.port) = some 80) ∨
          (u0.scheme = str "https" ∧
          (if (u0.scheme = str "http" ∧ u0.port = some 80) ∨
            (u0.scheme = str "https" ∧ u0.port = some 443) then none
            else u0.port) = some 443)) := by
        intro hcon
        by_cases hc6 : (u0.scheme = str "http" ∧ u0.port = some 80) ∨
          (u0.scheme = str "https" ∧ u0.port = some 443)
        · rw [if_pos hc6] at hcon
          rcases hcon with hcon | hcon
          · cases hcon.2
          · cases hcon.2
        · rw [if_neg hc6] at hcon
          exact hc6 hcon
      by_cases hc5 : (collapseSlashes u0.path).length > 1 ∧
        (collapseSlashes u0.path).getLast? = some '/'
      · rw [if_pos hc5]
        have hP4ne : collapseSlashes u0.path ≠ [] := by
          obtain ⟨t4, h4⟩ := hp4h; rw [h4]; simp
        have hg4 : (collapseSlashes u0.path).getLast? =
            some ((collapseSlashes u0.path).getLast hP4ne) :=
          List.getLast?_eq_getLast _ hP4ne
        have hlast : (collapseSlashes u0.path).getLast hP4ne = '/' :=
          Option.some_inj.mp (hg4.symm.trans hc5.2)
        have hP4eq : collapseSlashes u0.path
            = (collapseSlashes u0.path).dropLast ++ ['/'] := by
          conv_lhs => rw [← List.dropLast_append_getLast hP4ne]
          rw [hlast]
        have hp5h : ((collapseSlashes u0.path).dropLast).head? = some '/' := by
          obtain ⟨t4, h4⟩ := hp4h
          cases t4 with
          | nil =>
            rw [h4] at hc5
            exact absurd hc5.1 (by decide)
          | cons c4 t4s =>
            rw [h4, List.dropLast_cons₂]
            rfl
        obtain ⟨t5, h5⟩ : ∃ t, (collapseSlashes u0.path).dropLast = '/' :: t := by
          cases hdl : (collapseSlashes u0.path).dropLast with
          | nil => rw [hdl] at hp5h; cases hp5h
          | cons c cs =>
            rw [hdl] at hp5h
            exact ⟨cs, by rw [Option.some_inj.mp hp5h]⟩
        have hsegs5 : pathSegs (collapseSlashes u0.path)
            = pathSegs ((collapseSlashes u0.path).dropLast) ++ [[]] := by
          conv_lhs => rw [hP4eq]
          rw [h5]
          show splitOnChar '/' ((('/' :: t5) ++ ['/']).drop 1)
            = splitOnChar '/' (('/' :: t5).drop 1) ++ [[]]
          rw [List.cons_append, List.drop_one, List.drop_one, List.tail_cons,
            List.tail_cons]
          exact splitOnChar_append_sep '/' t5
        have hdots5 : ∀ s2 ∈ pathSegs ((collapseSlashes u0.path).dropLast),
            s2 ≠ str "." ∧ s2 ≠ str ".." := by
          intro s2 hs2
          exact hp4dots s2 (by
            rw [hsegs5]; exact List.mem_append.mpr (Or.inl hs2))
        have hP5ne : (collapseSlashes u0.path).dropLast ≠ [] := by
          rw [h5]; simp
        have hZ : collapseSlashes u0.path
            = (collapseSlashes u0.path).dropLast.dropLast ++
              [(collapseSlashes u0.path).dropLast.getLast hP5ne, '/'] := by
          conv_lhs => rw [hP4eq]
          conv_lhs => rw [← List.dropLast_append_getLast hP5ne]
          rw [List.append_assoc]
          rfl
        have hlne := noDupSlash_append_pair _ _ '/'
          (by rw [← hZ]; exact hp4dup)
        have hg5 : ((collapseSlashes u0.path).dropLast).getLast? =
            some (((collapseSlashes u0.path).dropLast).getLast hP5ne) :=
          List.getLast?_eq_getLast _ hP5ne
        refine ⟨hsch, Hhne, Hhnd, Hhlo, Hple, Hnondef, ?_, ?_, ?_, hdots5, ?_,
          ?_, Hqc, Hqk, Hqs, rfl⟩
        · exact hp5h
        · exact fun hm => hp4nq (List.mem_of_mem_dropLast hm)
        · exact fun hm => hp4nh (List.mem_of_mem_dropLast hm)
        · exact noDupSlash_dropLast _ hp4dup
        · refine Or.inr ?_
          intro habs
          exact hlne ⟨Option.some_inj.mp (hg5.symm.trans habs), rfl⟩
      · rw [if_neg hc5]
        refine ⟨hsch, Hhne, Hhnd, Hhlo, Hple, Hnondef, ?_, hp4nq, hp4nh,
          hp4dots, hp4dup, ?_, Hqc, Hqk, Hqs, rfl⟩
        · obtain ⟨t4, h4⟩ := hp4h
          rw [h4]; rfl
        · rcases not_and_or.mp hc5 with h1 | h1
          · refine Or.inl ?_
            obtain ⟨t4, h4⟩ := hp4h
            cases t4 with
            | nil => rw [h4]; rfl
            | cons c4 t4s =>
              rw [h4] at h1
              exact absurd (by simp) h1
          · exact Or.inr h1

/-- C8: URL normalization is idempotent.  Whenever `normalizeUrl raw base`
succeeds with output `u`, normalizing `u` against itself returns `u`
byte-identically.  (The determinism half of the claim — the same input
normalizes to the same output — holds because `normalizeUrl` is a pure
function of its two arguments, both in this model and in the source, which
touches no state besides its inputs.) -/
theorem normalize_idempotent (raw base u : Str)
    (h : normalizeUrl raw base = some u) :
    normalizeUrl u u = some u := by
  obtain ⟨r, hinv, rfl⟩ := normalizeUrl_inv raw base u h
  exact normalizeUrl_fix r hinv

/-- C8 witness: a concrete normalization (uppercase scheme and host, double
slash, dot segment, tracking parameter, unsorted query, fragment) and the
idempotence theorem applied to its output. -/
theorem normalize_idempotent_witness :
    normalizeUrl (str "HTTP://EX.com//a/./b/?b=2&utm_source=x&a=1#frag")
        (str "http://ex.com/") = some (str "http://ex.com/a/b?a=1&b=2")
    ∧ normalizeUrl (str "http://ex.com/a/b?a=1&b=2")
        (str "http://ex.com/a/b?a=1&b=2")
      = some (str "http://ex.com/a/b?a=1&b=2") :=
  ⟨by decide, normalize_idempotent
    (str "HTTP://EX.com//a/./b/?b=2&utm_source=x&a=1#frag")
    (str "http://ex.com/") (str "http://ex.com/a/b?a=1&b=2") (by decide)⟩

end Crawler
